import Mathlib

/-!
Shallow embedding of the core of the `lambda-error-analyzer` repository:
the signature extraction / clustering pipeline (`lambdas/analyze_logs/clusterer.py`),
the statistical alert models (`lambdas/filter_alert/mad_model.py`,
`permutation_model.py`, `hmm_model.py`), and the aggregator
(`lambdas/aggregator/app.py`).

Python floats are modelled as exact rationals (`ℚ`); transcendental
functions (`math.exp`, `math.log`) are abstract parameters; `math.log`
keeps its domain error on non-positive arguments.  Fallible Python code
(raised exceptions) is modelled with `Except String`.
-/

namespace LEA

/-- `1e-9`, the epsilon guard used throughout the filter models. -/
def eps9 : ℚ := 1 / 10 ^ 9

/-- Python's numeric `x or d`: `d` when `x == 0`, else `x`. -/
def orD (x d : ℚ) : ℚ := if x = 0 then d else x

/-- Python `statistics.mean`: raises `StatisticsError` on an empty list. -/
def pymean : List ℚ → Except String ℚ
  | [] => .error "StatisticsError: mean requires at least one data point"
  | xs => .ok (xs.sum / xs.length)

/-- Total arithmetic mean (0 on the empty list), used to state properties. -/
def meanT (xs : List ℚ) : ℚ := xs.sum / xs.length

/-- Insert into an ascending-sorted list (stable). -/
def insertAsc (x : ℚ) : List ℚ → List ℚ
  | [] => [x]
  | y :: ys => if y ≤ x then y :: insertAsc x ys else x :: y :: ys

/-- Ascending sort, as Python's `sorted` produces on numbers. -/
def sortAsc : List ℚ → List ℚ
  | [] => []
  | x :: xs => insertAsc x (sortAsc xs)

/-- Python `statistics.median`: sort, take the middle element, or the
average of the two middle elements; `StatisticsError` on empty data. -/
def pymedian (xs : List ℚ) : Except String ℚ :=
  let s := sortAsc xs
  let n := s.length
  if n = 0 then .error "StatisticsError: no median for empty data"
  else if n % 2 = 1 then .ok (s.getD (n / 2) 0)
  else .ok ((s.getD (n / 2 - 1) 0 + s.getD (n / 2) 0) / 2)

/-- Python `math.isclose` with its defaults (`rel_tol=1e-9`, `abs_tol=0.0`). -/
def isclose (a b : ℚ) : Bool := |a - b| ≤ eps9 * max |a| |b|

/-! ### `lambdas/filter_alert/mad_model.py` — `MADModel` -/

/-- `MADModel.MAD_Z_SCORE_THRESHOLD = 3.5`. -/
def MAD_Z_SCORE_THRESHOLD : ℚ := 7 / 2

/-- `MADModel.is_burst_anomaly`.  With fewer than 2 historical intervals it
falls back to `new_interval_hr < 0.1`; with a zero MAD it returns
`new_interval_hr < median and not math.isclose(new_interval_hr, median)`;
otherwise it compares the modified z-score against `-3.5`. -/
def is_burst_anomaly (new_interval_hr : ℚ) (historical_intervals : List ℚ) :
    Except String Bool :=
  if historical_intervals.length < 2 then
    .ok (decide (new_interval_hr < 1 / 10))
  else
    (pymedian historical_intervals).bind fun median =>
    (pymedian (historical_intervals.map (fun interval => |interval - median|))).bind fun mad =>
    if mad = 0 then
      .ok (decide (new_interval_hr < median) && !(isclose new_interval_hr median))
    else
      let modified_z_score := (6745 / 10000) * (new_interval_hr - median) / mad
      .ok (decide (modified_z_score < -MAD_Z_SCORE_THRESHOLD))

/-! ### `lambdas/filter_alert/permutation_model.py` — `PermutationModel`

`random.shuffle` is modelled by an abstract parameter `shuffle`; trial `k`
re-shuffles the pool produced by the previous trials, as the source
shuffles `pooled_data` in place. -/

/-- `PermutationModel.ALPHA = 0.05`. -/
def ALPHA : ℚ := 1 / 20

/-- `PermutationModel.MIN_SAMPLE_SIZE`. -/
def MIN_SAMPLE_SIZE : Nat := 5

/-- `PermutationModel.N_PERMUTATIONS`. -/
def N_PERMUTATIONS : Nat := 1000

/-- The `for _ in range(self.N_PERMUTATIONS)` loop: shuffle the pool, split
into pseudo-samples of the original sizes, and count differences at least
as extreme as the observed one; a `StatisticsError` (empty pseudo-sample)
skips the trial (`continue`). -/
def permTrials (shuffle : Nat → List ℚ → List ℚ) (nRecent : Nat)
    (observed_difference : ℚ) : Nat → List ℚ → Nat → Nat
  | 0, _, count_extreme => count_extreme
  | Nat.succ k, pooled_data, count_extreme =>
    let pool := shuffle k pooled_data
    let pseudo_recent := pool.take nRecent
    let pseudo_hist := pool.drop nRecent
    match pymean pseudo_recent, pymean pseudo_hist with
    | .ok mr, .ok mh =>
      permTrials shuffle nRecent observed_difference k pool
        (if mr - mh ≤ observed_difference then count_extreme + 1 else count_extreme)
    | _, _ => permTrials shuffle nRecent observed_difference k pool count_extreme

/-- `PermutationModel.has_burst_pattern_emerged`.  Splits the intervals
chronologically into the recent window (`max(5, int(n*0.25))`, note that
`int(n*0.25)` is exactly `n / 4` on naturals) versus the rest, returns
`false` on insufficient data or a non-negative observed mean difference,
and otherwise compares the permutation p-value against `ALPHA`. -/
def has_burst_pattern_emerged (shuffle : Nat → List ℚ → List ℚ)
    (historical_intervals : List ℚ) : Bool :=
  let n := historical_intervals.length
  let recent_window_size := max MIN_SAMPLE_SIZE (n / 4)
  if n < recent_window_size + MIN_SAMPLE_SIZE then false
  else
    let recent_sample := historical_intervals.drop (n - recent_window_size)
    let historical_sample := historical_intervals.take (n - recent_window_size)
    match pymean recent_sample, pymean historical_sample with
    | .ok mean_recent, .ok mean_hist =>
      let observed_difference := mean_recent - mean_hist
      if 0 ≤ observed_difference then false
      else
        let pooled_data := historical_sample ++ recent_sample
        let count_extreme :=
          permTrials shuffle recent_sample.length observed_difference
            N_PERMUTATIONS pooled_data 0
        let p_value : ℚ := count_extreme / (N_PERMUTATIONS : ℚ)
        decide (p_value < ALPHA)
    | _, _ => false

/-! ### `lambdas/filter_alert/hmm_model.py` — state constants -/

/-- `HMMModel.STATE_NORMAL`. -/
def STATE_NORMAL : Nat := 0

/-- `HMMModel.STATE_BURST`. -/
def STATE_BURST : Nat := 1

/-- `HMMModel.STATE_SILENT`. -/
def STATE_SILENT : Nat := 2

/-! ### `lambdas/filter_alert/hmm_model.py` — Baum-Welch training

State-indexed data (`num_states = 3`) is a `Tri`; the transition matrix is
a `TMat` of rows.  `math.exp` and `math.log` are abstract (`RealOps`);
`math.log` keeps its Python domain error on non-positive arguments, and
bare float division keeps its `ZeroDivisionError`. -/

/-- A value per HMM state: `n`ormal, `b`urst, `s`ilent. -/
structure Tri where
  n : ℚ
  b : ℚ
  s : ℚ

/-- A transition matrix: one `Tri` of outgoing probabilities per from-state. -/
structure TMat where
  rn : Tri
  rb : Tri
  rs : Tri

/-- Abstract real-valued `math.exp` / `math.log`. -/
structure RealOps where
  exp : ℚ → ℚ
  log : ℚ → ℚ

/-- `math.log`, raising its domain error outside `(0, ∞)`. -/
def mlog (ops : RealOps) (x : ℚ) : Except String ℚ :=
  if 0 < x then .ok (ops.log x) else .error "math domain error"

/-- Python float division, raising `ZeroDivisionError` on a zero divisor. -/
def pydiv (a b : ℚ) : Except String ℚ :=
  if b = 0 then .error "ZeroDivisionError: float division by zero" else .ok (a / b)

/-- The running maximum `log_sum = -inf; if term > log_sum: ...` over the
three states. -/
def max3 (a b c : ℚ) : ℚ := max (max a b) c

def triZero : Tri := ⟨0, 0, 0⟩

def triAdd (x y : Tri) : Tri := ⟨x.n + y.n, x.b + y.b, x.s + y.s⟩

/-- `sum(...)` over a list of per-state values (left fold from 0). -/
def triSum (l : List Tri) : Tri := l.foldl triAdd triZero

/-- `gamma[t][i] * intervals[t]` for each state `i`. -/
def triScale (g : Tri) (x : ℚ) : Tri := ⟨g.n * x, g.b * x, g.s * x⟩

def tmatZero : TMat := ⟨triZero, triZero, triZero⟩

def tmatAdd (x y : TMat) : TMat :=
  ⟨triAdd x.rn y.rn, triAdd x.rb y.rb, triAdd x.rs y.rs⟩

/-- L1 distance between two per-state vectors. -/
def triAbsDiff (x y : Tri) : ℚ := |x.n - y.n| + |x.b - y.b| + |x.s - y.s|

/-- L1 distance between two transition matrices. -/
def tmatAbsDiff (x y : TMat) : ℚ :=
  triAbsDiff x.rn y.rn + triAbsDiff x.rb y.rb + triAbsDiff x.rs y.rs

/-- `HMMModel._get_poisson_log_prob`:
`lambda_rate = 1.0 / (mean_interval_hr or 1e-9)` then
`log(lambda_rate or 1e-9) - lambda_rate * observed_interval_hr`. -/
def poissonLogProb (ops : RealOps) (observed_interval_hr mean_interval_hr : ℚ) :
    Except String ℚ :=
  (mlog ops (orD (1 / orD mean_interval_hr eps9) eps9)).map
    fun lg => lg - (1 / orD mean_interval_hr eps9) * observed_interval_hr

/-- `HMMModel._initialize_parameters`: the fixed transition guess and the
initial rates `1/(mean or ε)`, `1/((mean*0.05) or ε)`, `1/((mean*10) or ε)`
with `mean = statistics.mean(intervals) if intervals else 24.0`. -/
def initialize_parameters (intervals : List ℚ) : TMat × Tri :=
  let transitions : TMat :=
    ⟨⟨90 / 100, 8 / 100, 2 / 100⟩, ⟨20 / 100, 79 / 100, 1 / 100⟩,
     ⟨30 / 100, 1 / 100, 69 / 100⟩⟩
  let mean_normal := if intervals.isEmpty then 24 else meanT intervals
  (transitions,
   ⟨1 / orD mean_normal eps9, 1 / orD (mean_normal * (5 / 100)) eps9,
    1 / orD (mean_normal * 10) eps9⟩)

/-- `HMMModel._precompute_observation_log_probs` (per `t`, per state
`mean_interval = 1.0 / (lambdas[s] or 1e-9)`, then the Poisson log-prob). -/
def precomputeObs (ops : RealOps) (lambdas : Tri) : List ℚ →
    Except String (List Tri)
  | [] => .ok []
  | x :: rest => do
    let p0 ← poissonLogProb ops x (1 / orD lambdas.n eps9)
    let p1 ← poissonLogProb ops x (1 / orD lambdas.b eps9)
    let p2 ← poissonLogProb ops x (1 / orD lambdas.s eps9)
    let tl ← precomputeObs ops lambdas rest
    pure (⟨p0, p1, p2⟩ :: tl)

/-- All nine `math.log(transitions[i][j] or 1e-9)` values, as evaluated
inside the forward/backward/ξ loops. -/
def logTMat (ops : RealOps) (t : TMat) : Except String TMat := do
  let a ← mlog ops (orD t.rn.n eps9)
  let b ← mlog ops (orD t.rn.b eps9)
  let c ← mlog ops (orD t.rn.s eps9)
  let d ← mlog ops (orD t.rb.n eps9)
  let e ← mlog ops (orD t.rb.b eps9)
  let f ← mlog ops (orD t.rb.s eps9)
  let g ← mlog ops (orD t.rs.n eps9)
  let h ← mlog ops (orD t.rs.b eps9)
  let i ← mlog ops (orD t.rs.s eps9)
  pure ⟨⟨a, b, c⟩, ⟨d, e, f⟩, ⟨g, h, i⟩⟩

/-- One forward step:
`alpha[t][j] = obs[t][j] + max_i (alpha[t-1][i] + log(trans[i][j] or ε))`. -/
def alphaRow (lt : TMat) (prev o : Tri) : Tri :=
  ⟨o.n + max3 (prev.n + lt.rn.n) (prev.b + lt.rb.n) (prev.s + lt.rs.n),
   o.b + max3 (prev.n + lt.rn.b) (prev.b + lt.rb.b) (prev.s + lt.rs.b),
   o.s + max3 (prev.n + lt.rn.s) (prev.b + lt.rb.s) (prev.s + lt.rs.s)⟩

/-- Scan collecting every row of a forward recurrence. -/
def triScan (step : Tri → Tri → Tri) (a : Tri) : List Tri → List Tri
  | [] => [a]
  | o :: rest => a :: triScan step (step a o) rest

/-- `_baum_welch_e_step`, forward part: `alpha[0][j] = log(1/3) + obs[0][j]`
then the forward recurrence; an empty observation list raises `IndexError`
(`obs_log_probs[0]`).  The transition logs are only evaluated when the
`t`-loop runs, i.e. when there are at least two observations. -/
def alphaList (ops : RealOps) (trans : TMat) (obs : List Tri) :
    Except String (List Tri) :=
  match obs with
  | [] => .error "IndexError: list index out of range"
  | [o0] => (mlog ops (1 / 3)).map fun l3 => [⟨l3 + o0.n, l3 + o0.b, l3 + o0.s⟩]
  | o0 :: rest => do
    let l3 ← mlog ops (1 / 3)
    let lt ← logTMat ops trans
    pure (triScan (alphaRow lt) ⟨l3 + o0.n, l3 + o0.b, l3 + o0.s⟩ rest)

/-- One backward step:
`beta[t][i] = max_j (beta[t+1][j] + log(trans[i][j] or ε) + obs[t+1][j])`. -/
def betaCons (lt : TMat) (onext bnext : Tri) : Tri :=
  ⟨max3 (bnext.n + lt.rn.n + onext.n) (bnext.b + lt.rn.b + onext.b)
     (bnext.s + lt.rn.s + onext.s),
   max3 (bnext.n + lt.rb.n + onext.n) (bnext.b + lt.rb.b + onext.b)
     (bnext.s + lt.rb.s + onext.s),
   max3 (bnext.n + lt.rs.n + onext.n) (bnext.b + lt.rs.b + onext.b)
     (bnext.s + lt.rs.s + onext.s)⟩

/-- The backward list for the observation suffix starting at `t`: the last
row stays at its `0.0` initialisation. -/
def betaListP (lt : TMat) : List Tri → List Tri
  | [] => []
  | [_] => [triZero]
  | _ :: (onext :: rest) =>
      let tl := betaListP lt (onext :: rest)
      betaCons lt onext (tl.headD triZero) :: tl

/-- `_baum_welch_e_step`, backward part. -/
def betaList (ops : RealOps) (trans : TMat) (obs : List Tri) :
    Except String (List Tri) :=
  match obs with
  | [] => .ok []
  | [_] => .ok [triZero]
  | obs => (logTMat ops trans).map fun lt => betaListP lt obs

/-- `gamma[t][i] = exp(alpha[t][i] + beta[t][i] - max_i(alpha[t][i]+beta[t][i]))`. -/
def gammaRow (ops : RealOps) (a bt : Tri) : Tri :=
  let dn := max3 (a.n + bt.n) (a.b + bt.b) (a.s + bt.s)
  ⟨ops.exp (a.n + bt.n - dn), ops.exp (a.b + bt.b - dn), ops.exp (a.s + bt.s - dn)⟩

/-- One `ξ[t]` matrix:
`xi[t][i][j] = exp(alpha[t][i] + log(trans[i][j] or ε) + beta[t+1][j] + obs[t+1][j] - denom_t)`. -/
def xiRow (ops : RealOps) (lt : TMat) (a bt bnext onext : Tri) : TMat :=
  let dn := max3 (a.n + bt.n) (a.b + bt.b) (a.s + bt.s)
  ⟨⟨ops.exp (a.n + lt.rn.n + bnext.n + onext.n - dn),
    ops.exp (a.n + lt.rn.b + bnext.b + onext.b - dn),
    ops.exp (a.n + lt.rn.s + bnext.s + onext.s - dn)⟩,
   ⟨ops.exp (a.b + lt.rb.n + bnext.n + onext.n - dn),
    ops.exp (a.b + lt.rb.b + bnext.b + onext.b - dn),
    ops.exp (a.b + lt.rb.s + bnext.s + onext.s - dn)⟩,
   ⟨ops.exp (a.s + lt.rs.n + bnext.n + onext.n - dn),
    ops.exp (a.s + lt.rs.b + bnext.b + onext.b - dn),
    ops.exp (a.s + lt.rs.s + bnext.s + onext.s - dn)⟩⟩

/-- `sum(xi[t][i][j] for t in range(num_obs - 1))`, folding the rows of
`t = 0 .. num_obs-2` (each built from `alpha[t]`, `beta[t]`, `beta[t+1]`,
`obs[t+1]`). -/
def xiSum (ops : RealOps) (lt : TMat) (alpha beta obs : List Tri) : TMat :=
  (((alpha.zip beta).zip (beta.tail.zip obs.tail)).map fun q =>
    xiRow ops lt q.1.1 q.1.2 q.2.1 q.2.2).foldl tmatAdd tmatZero

/-- The ξ sums, whose transition logs are only evaluated when the
`t < num_obs - 1` branch runs, i.e. with at least two observations. -/
def xiSumGuarded (ops : RealOps) (trans : TMat) (alpha beta obs : List Tri) :
    Except String TMat :=
  match obs with
  | _ :: _ :: _ => (logTMat ops trans).map fun lt => xiSum ops lt alpha beta obs
  | _ => pure tmatZero

/-- `_baum_welch_m_step`: re-estimate the transitions from ξ-sums over
γ-sums (denominators guarded by `or 1`) and the rates as
`Σγ / (Σ γ·interval or 1e-9)`. -/
def mStep (ops : RealOps) (trans : TMat) (alpha beta obs : List Tri)
    (intervals : List ℚ) : Except String (TMat × Tri) := do
  let gammas := (alpha.zip beta).map fun p => gammaRow ops p.1 p.2
  let xiS ← xiSumGuarded ops trans alpha beta obs
  let gHead := triSum gammas.dropLast
  let newT : TMat :=
    ⟨⟨xiS.rn.n / orD gHead.n 1, xiS.rn.b / orD gHead.n 1, xiS.rn.s / orD gHead.n 1⟩,
     ⟨xiS.rb.n / orD gHead.b 1, xiS.rb.b / orD gHead.b 1, xiS.rb.s / orD gHead.b 1⟩,
     ⟨xiS.rs.n / orD gHead.s 1, xiS.rs.b / orD gHead.s 1, xiS.rs.s / orD gHead.s 1⟩⟩
  let gAll := triSum gammas
  let w := triSum ((gammas.zip intervals).map fun p => triScale p.1 p.2)
  let newL : Tri :=
    ⟨gAll.n / orD w.n eps9, gAll.b / orD w.b eps9, gAll.s / orD w.s eps9⟩
  pure (newT, newL)

/-- One Baum-Welch iteration (E-step then M-step). -/
def bwStep (ops : RealOps) (intervals : List ℚ) (trans : TMat) (lambdas : Tri) :
    Except String (TMat × Tri) := do
  let obs ← precomputeObs ops lambdas intervals
  let alpha ← alphaList ops trans obs
  let beta ← betaList ops trans obs
  mStep ops trans alpha beta obs intervals

/-- `HMMModel._CONVERGENCE_TOLERANCE = 1e-4`. -/
def CONVERGENCE_TOLERANCE : ℚ := 1 / 10 ^ 4

/-- `HMMModel._MAX_ITERATIONS = 10`. -/
def MAX_ITERATIONS : Nat := 10

/-- The `for iteration in range(max_iterations)` loop with its convergence
`break`; returns the final parameters, the number of iterations executed,
and whether the tolerance `break` fired. -/
def bwLoop (ops : RealOps) (intervals : List ℚ) :
    Nat → TMat → Tri → Except String (TMat × Tri × Nat × Bool)
  | 0, tm, lambdas => .ok (tm, lambdas, 0, false)
  | Nat.succ fuel, tm, lambdas =>
    (bwStep ops intervals tm lambdas).bind fun p =>
    let change := tmatAbsDiff p.1 tm + triAbsDiff p.2 lambdas
    if change < CONVERGENCE_TOLERANCE then .ok (p.1, p.2, 1, true)
    else (bwLoop ops intervals fuel p.1 p.2).map fun q =>
      (q.1, q.2.1, q.2.2.1 + 1, q.2.2.2)

/-- `HMMModel._learn_parameters`, with the iteration count and convergence
flag of the training loop exposed; the final means are the bare divisions
`1.0 / lambdas[s]` of the source's returned dictionary. -/
def learn_parameters_run (ops : RealOps) (intervals : List ℚ) :
    Except String ((Tri × TMat) × Nat × Bool) := do
  let r ← bwLoop ops intervals MAX_ITERATIONS
    (initialize_parameters intervals).1 (initialize_parameters intervals).2
  let m0 ← pydiv 1 r.2.1.n
  let m1 ← pydiv 1 r.2.1.b
  let m2 ← pydiv 1 r.2.1.s
  pure ((⟨m0, m1, m2⟩, r.1), r.2.2)

/-- `HMMModel._learn_parameters` proper: the returned means/transitions. -/
def learn_parameters (ops : RealOps) (intervals : List ℚ) :
    Except String (Tri × TMat) :=
  (learn_parameters_run ops intervals).map Prod.fst

/-- All three state rates strictly positive. -/
def triPos (t : Tri) : Prop := 0 < t.n ∧ 0 < t.b ∧ 0 < t.s

/-- All three state values non-negative. -/
def triNonneg (t : Tri) : Prop := 0 ≤ t.n ∧ 0 ≤ t.b ∧ 0 ≤ t.s

/-- All nine transition entries non-negative. -/
def tmatNonneg (m : TMat) : Prop := triNonneg m.rn ∧ triNonneg m.rb ∧ triNonneg m.rs

/-! ### The Alert Filter orchestration -/

/-- Consecutive differences of a timestamp sequence (already in hours). -/
def intervalsOf (timestamps : List ℚ) : List ℚ :=
  timestamps.tail.zipWith (fun later earlier => later - earlier) timestamps

/-- `HMM_TRUST_THRESHOLD` (zone boundary, default 20). -/
def HMM_TRUST : Nat := 20

/-- `HMM_CONFIDENCE_THRESHOLD` (zone boundary, default 40). -/
def HMM_CONFIDENCE : Nat := 40

/-- Modelled from the spec: the Alert Filter orchestration of §4.F
("Stage 1 — MAD high-priority check", "Stage 2 — Zone routing") is not
present in the source tree — `lambdas/filter_alert/` contains the three
model classes it routes between (`MADModel`, `HMMModel`,
`PermutationModel`) but no module that combines them; the only caller,
`alert_stats.py`, is a divergent two-state variant without zones.  The HMM
prediction and the permutation test are abstract parameters here (their
source embeddings involve transcendental arithmetic and randomness); the
MAD stage is the source-embedded `is_burst_anomaly`.  Input: the sorted
union of historical and current timestamps, in hours. -/
def should_alert_filter (hmmPredict : List ℚ → ℚ → Nat)
    (permConfirm : List ℚ → Bool) (all_timestamps : List ℚ) :
    Except String (Bool × String) :=
  if all_timestamps.length < 2 then .ok (true, "first event sequence")
  else
    let intervals := intervalsOf all_timestamps
    let new_interval := intervals.getLast?.getD 0
    let history_for_model := intervals.dropLast
    (is_burst_anomaly new_interval history_for_model).bind fun madBurst =>
    if madBurst then .ok (true, "MAD burst anomaly")
    else if intervals.length < HMM_TRUST then .ok (false, "Low data, MAD negative")
    else if intervals.length < HMM_CONFIDENCE then
      if hmmPredict history_for_model new_interval = STATE_BURST then
        .ok (permConfirm intervals, "Zone 2: HMM burst, permutation decides")
      else .ok (false, "Zone 2: HMM did not predict burst")
    else .ok (decide (hmmPredict history_for_model new_interval = STATE_BURST),
      "Zone 3: HMM decides")

/-! ### `lambdas/analyze_logs/clusterer.py` — character classes

Python regex character classes, at ASCII fidelity (`re`'s Unicode word
characters and line terminators beyond `\n`, `\r`, `\x0b`, `\x0c` are not
modelled; no claim input involves them). -/

/-- `{` (written out to keep brace characters out of literals). -/
def braceO : Char := Char.ofNat 123

/-- `}`. -/
def braceC : Char := Char.ofNat 125

/-- Python regex `\w` (ASCII): letters, digits, underscore. -/
def isWordC (c : Char) : Bool := c.isAlphanum || c = '_'

/-- Python regex `\s` / `str.strip` whitespace (ASCII). -/
def isSpaceC (c : Char) : Bool :=
  c = ' ' || c = '\t' || c = '\n' || c = '\x0d' || c = Char.ofNat 11 || c = Char.ofNat 12

/-- `[0-9]`. -/
def isDigitC (c : Char) : Bool := c.isDigit

/-- `[0-9a-fA-F]`. -/
def isHexC (c : Char) : Bool :=
  c.isDigit || ('a' ≤ c && c ≤ 'f') || ('A' ≤ c && c ≤ 'F')

/-- Python `str.strip()` on char lists. -/
def stripL (l : List Char) : List Char :=
  ((l.dropWhile isSpaceC).reverse.dropWhile isSpaceC).reverse

/-- The word boundary `\b` before a position holds iff the previous
character (tracked as `pw`, "previous is a word char") is not a word
character; the tokens the normaliser replaces all start with word
characters. -/
def noB (pw : Bool) : Bool := pw

/-! Each `_NORM` substitution `regex.sub(token, text)` is a left-to-right
scan replacing non-overlapping matches; `pw` carries the wordness of the
previous character of the *original* text (the `\b` lookarounds depend on
nothing else).  A failed match attempt advances one character, which is
what the `c :: subX … rest` branches do; positions inside a word run are
then skipped automatically because `pw` stays true. -/

/-- The characters after a match candidate (used both for the boundary
lookahead and to continue the scan past a match). -/
def numRest (rest : List Char) : List Char := rest.dropWhile isDigitC

/-- `re.sub(r'\b\d+\b', '<num>', ·)`: a maximal digit run whose neighbours
are not word characters.  `skip > 0` means the scan is inside an already
consumed match (or an already emitted failed run) of the original text. -/
def subNumGo (pw : Bool) (skip : Nat) (l : List Char) : List Char :=
  match l, skip with
  | [], _ => []
  | _ :: rest, Nat.succ k => subNumGo true k rest
  | c :: rest, 0 =>
    if !pw && isDigitC c then
      let run := (c :: rest).takeWhile isDigitC
      if (numRest rest).isEmpty || !isWordC ((numRest rest).headD ' ') then
        "<num>".data ++ subNumGo true (run.length - 1) rest
      else run ++ subNumGo true (run.length - 1) rest
    else c :: subNumGo (isWordC c) 0 rest

def subNum (pw : Bool) (l : List Char) : List Char := subNumGo pw 0 l

/-- What follows the hex digits of a `0x…` candidate (`rest` starts after
the `0`). -/
def hexRest (rest : List Char) : List Char := rest.tail.dropWhile isHexC

/-- `re.sub(r'\b0x[0-9a-fA-F]+\b', '<hex>', ·)` (the `0x` is
case-sensitive; the digits are not). -/
def subHexGo (pw : Bool) (skip : Nat) (l : List Char) : List Char :=
  match l, skip with
  | [], _ => []
  | _ :: rest, Nat.succ k => subHexGo true k rest
  | c :: rest, 0 =>
    if !pw && c = '0' && rest.headD ' ' = 'x' &&
        !(rest.tail.takeWhile isHexC).isEmpty &&
        ((hexRest rest).isEmpty || !isWordC ((hexRest rest).headD ' ')) then
      "<hex>".data ++ subHexGo true (rest.length - (hexRest rest).length) rest
    else c :: subHexGo (isWordC c) 0 rest

def subHex (pw : Bool) (l : List Char) : List Char := subHexGo pw 0 l

/-- What follows a `d+\.d+\.d+\.d+` candidate. -/
def ipRest (l : List Char) : List Char :=
  ((((l.dropWhile isDigitC).tail.dropWhile isDigitC).tail.dropWhile
    isDigitC).tail.dropWhile isDigitC)

/-- Does `\d+\.\d+\.\d+\.\d+\b` match at the head of `l`?  Each `\d+` is
forced to the maximal digit run (anything shorter is followed by a digit
where `.` is required). -/
def tryIpB (l : List Char) : Bool :=
  !(l.takeWhile isDigitC).isEmpty &&
  (l.dropWhile isDigitC).headD ' ' = '.' &&
  (let l1 := (l.dropWhile isDigitC).tail
   !(l1.takeWhile isDigitC).isEmpty &&
   (l1.dropWhile isDigitC).headD ' ' = '.' &&
   (let l2 := (l1.dropWhile isDigitC).tail
    !(l2.takeWhile isDigitC).isEmpty &&
    (l2.dropWhile isDigitC).headD ' ' = '.' &&
    (let l3 := (l2.dropWhile isDigitC).tail
     !(l3.takeWhile isDigitC).isEmpty &&
     ((l3.dropWhile isDigitC).isEmpty ||
      !isWordC ((l3.dropWhile isDigitC).headD ' ')))))

/-- `re.sub(r'\b\d+\.\d+\.\d+\.\d+\b', '<ip>', ·)`. -/
def subIpGo (pw : Bool) (skip : Nat) (l : List Char) : List Char :=
  match l, skip with
  | [], _ => []
  | _ :: rest, Nat.succ k => subIpGo true k rest
  | c :: rest, 0 =>
    if !pw && isDigitC c && tryIpB (c :: rest) then
      "<ip>".data ++ subIpGo true ((c :: rest).length - (ipRest (c :: rest)).length - 1) rest
    else c :: subIpGo (isWordC c) 0 rest

def subIp (pw : Bool) (l : List Char) : List Char := subIpGo pw 0 l

/-- What follows a UUID candidate (five hex runs and four dashes). -/
def uuidRest (l : List Char) : List Char :=
  (((((l.dropWhile isHexC).tail.dropWhile isHexC).tail.dropWhile
    isHexC).tail.dropWhile isHexC).tail.dropWhile isHexC)

/-- Does the UUID pattern
`[0-9a-f]{8}-[0-9a-f]{4}-[1-5][0-9a-f]{3}-[89ab][0-9a-f]{3}-[0-9a-f]{12}\b`
(case-insensitive) match at the head of `l`?  Exact group widths force
each maximal hex run to have exactly the required length. -/
def tryUuidB (l : List Char) : Bool :=
  (l.takeWhile isHexC).length = 8 &&
  (l.dropWhile isHexC).headD ' ' = '-' &&
  (let l1 := (l.dropWhile isHexC).tail
   (l1.takeWhile isHexC).length = 4 &&
   (l1.dropWhile isHexC).headD ' ' = '-' &&
   (let l2 := (l1.dropWhile isHexC).tail
    (l2.takeWhile isHexC).length = 4 &&
    ('1' ≤ l2.headD ' ' && l2.headD ' ' ≤ '5') &&
    (l2.dropWhile isHexC).headD ' ' = '-' &&
    (let l3 := (l2.dropWhile isHexC).tail
     (l3.takeWhile isHexC).length = 4 &&
     (l3.headD ' ' = '8' || l3.headD ' ' = '9' || l3.headD ' ' = 'a' ||
      l3.headD ' ' = 'b' || l3.headD ' ' = 'A' || l3.headD ' ' = 'B') &&
     (l3.dropWhile isHexC).headD ' ' = '-' &&
     (let l4 := (l3.dropWhile isHexC).tail
      (l4.takeWhile isHexC).length = 12 &&
      ((l4.dropWhile isHexC).isEmpty ||
       !isWordC ((l4.dropWhile isHexC).headD ' '))))))

/-- The UUID substitution of `_NORM` (second in the list). -/
def subUuidGo (pw : Bool) (skip : Nat) (l : List Char) : List Char :=
  match l, skip with
  | [], _ => []
  | _ :: rest, Nat.succ k => subUuidGo true k rest
  | c :: rest, 0 =>
    if !pw && isHexC c && tryUuidB (c :: rest) then
      "<uuid>".data ++
        subUuidGo true ((c :: rest).length - (uuidRest (c :: rest)).length - 1) rest
    else c :: subUuidGo (isWordC c) 0 rest

def subUuid (pw : Bool) (l : List Char) : List Char := subUuidGo pw 0 l

/-- `_normalise`: the four `_NORM` substitutions in source order (hex,
UUID, IPv4, integer run), then `strip()`. -/
def normaliseL (l : List Char) : List Char :=
  stripL (subNum false (subIp false (subUuid false (subHex false l))))

/-- `_normalise` on strings. -/
def normaliseS (s : String) : String :=
  String.mk (normaliseL s.data)

/-! ### `clusterer.py` — timestamp stripping, first line, level search -/

/-- `_first_line`: the text up to the first line terminator, stripped.
(The rarer Unicode terminators of `str.splitlines` are not modelled.) -/
def firstLineL (l : List Char) : List Char :=
  stripL (l.takeWhile fun c =>
    !(c = '\n' || c = '\x0d' || c = Char.ofNat 11 || c = Char.ofNat 12))

/-- Exactly `n` decimal digits. -/
def dropDigitsN : Nat → List Char → Option (List Char)
  | 0, l => some l
  | _ + 1, [] => none
  | n + 1, c :: rest => if isDigitC c then dropDigitsN n rest else none

/-- The match of
`_TS = ^\s*\d{4}-\d{2}-\d{2}[ T]\d{2}:\d{2}:\d{2}(?:[.,]\d+)?Z?\s*`
at the start of the line: returns the rest after the match, or `none`. -/
def stepDash : List Char → Option (List Char)
  | '-' :: r => some r
  | _ => none

def stepColon : List Char → Option (List Char)
  | ':' :: r => some r
  | _ => none

def stepSepTs : List Char → Option (List Char)
  | ' ' :: r => some r
  | 'T' :: r => some r
  | _ => none

/-- The optional fractional-seconds part `(?:[.,]\d+)?`. -/
def fracStep (l : List Char) : List Char :=
  match l with
  | '.' :: d :: r => if isDigitC d then (d :: r).dropWhile isDigitC else l
  | ',' :: d :: r => if isDigitC d then (d :: r).dropWhile isDigitC else l
  | _ => l

/-- The optional `Z?`. -/
def zStep (l : List Char) : List Char :=
  match l with
  | 'Z' :: r => r
  | _ => l

def tryTs (l : List Char) : Option (List Char) := do
  let l1 ← dropDigitsN 4 (l.dropWhile isSpaceC)
  let l2 ← stepDash l1
  let l3 ← dropDigitsN 2 l2
  let l4 ← stepDash l3
  let l5 ← dropDigitsN 2 l4
  let l6 ← stepSepTs l5
  let l7 ← dropDigitsN 2 l6
  let l8 ← stepColon l7
  let l9 ← dropDigitsN 2 l8
  let l10 ← stepColon l9
  let l11 ← dropDigitsN 2 l10
  pure ((zStep (fracStep l11)).dropWhile isSpaceC)

/-- `_TS.sub('', line)`: with the `^` anchor this removes at most the one
leading match. -/
def pyStripTs (l : List Char) : List Char := (tryTs l).getD l

/-- The level alternation `(CRITICAL|ERROR|WARNING|INFO|SERVICE|DEBUG)`,
case-insensitively, as a prefix; returns the canonical upper-case level
(the code upper-cases `m.group(1)`) and the rest. -/
def matchLevelWord (l : List Char) : Option (String × List Char) :=
  ["CRITICAL", "ERROR", "WARNING", "INFO", "SERVICE", "DEBUG"].firstM fun w =>
    if (l.take w.length).map Char.toUpper = w.data then some (w, l.drop w.length)
    else none

/-- `_BRK.search`: the first `[LEVEL]` occurrence; returns the level and
the rest after `]` (the slice `line[m.end():]`). -/
def findBrk : List Char → Option (String × List Char)
  | [] => none
  | c :: rest =>
    if c = '[' then
      match matchLevelWord rest with
      | some (w, r1) =>
        match r1 with
        | ']' :: r2 => some (w, r2)
        | _ => findBrk rest
      | none => findBrk rest
    else findBrk rest

/-- `_BARE.search`: the first `\bLEVEL\b` occurrence (`pw` is the wordness
of the previous character). -/
def findBare (pw : Bool) : List Char → Option (String × List Char)
  | [] => none
  | c :: rest =>
    if !pw then
      match matchLevelWord (c :: rest) with
      | some (w, r1) =>
        if r1.isEmpty || !isWordC (r1.headD ' ') then some (w, r1)
        else findBare (isWordC c) rest
      | none => findBare (isWordC c) rest
    else findBare (isWordC c) rest

/-! ### `clusterer.py` — the trailing `Details: {…}` search -/

/-- The `\{.*\}$` tail at the head of `body` (no `DOTALL`: `.` excludes
newlines, and `$` also matches just before a final newline): the group
runs from the brace to the closing brace at the end. -/
def detailsTail (body : List Char) : Option (List Char) :=
  if body.headD ' ' = braceO ∧ 2 ≤ body.length ∧
      body.getLast? = some braceC ∧
      ((body.drop 1).dropLast.all fun c => c ≠ '\n') then
    some body
  else if body.headD ' ' = braceO ∧ 3 ≤ body.length ∧
      body.getLast? = some '\n' ∧ body.dropLast.getLast? = some braceC ∧
      (((body.drop 1).dropLast.dropLast).all fun c => c ≠ '\n') then
    some body.dropLast
  else none

/-- Does `(?:Details:)?\s*(\{.*\})$` match at this position?  The optional
`Details:` literal is preferred; either way the greedy `\s*` must land on
the opening brace. -/
def detailsTryAt (l : List Char) : Option (List Char) :=
  match l with
  | 'D' :: 'e' :: 't' :: 'a' :: 'i' :: 'l' :: 's' :: ':' :: r =>
    match detailsTail (r.dropWhile isSpaceC) with
    | some g => some g
    | none => detailsTail (l.dropWhile isSpaceC)
  | _ => detailsTail (l.dropWhile isSpaceC)

/-- `re.search(r'(?:Details:)?\s*(\{.*\})$', candidate)`: scan left to
right; returns `(match start index, group 1)`. -/
def detailsSearchGo (idx : Nat) : List Char → Option (Nat × List Char)
  | [] => none
  | c :: rest =>
    match detailsTryAt (c :: rest) with
    | some g => some (idx, g)
    | none => detailsSearchGo (idx + 1) rest

def detailsSearch (l : List Char) : Option (Nat × List Char) :=
  detailsSearchGo 0 l

/-! ### `clusterer.py` — the exception-pattern search
`re.search(r'\b(\w+(Exception|Error))\b[^:]*:? (.+)', candidate)`. -/

/-- Does the word run qualify as group 1 (`\w+(Exception|Error)` followed
by `\b`, which pins the suffix to the end of the run)? -/
def excRunOk (run : List Char) : Bool :=
  (run.reverse.take 5 = "rorrE".data && 6 ≤ run.length) ||
  (run.reverse.take 9 = "noitpecxE".data && 10 ≤ run.length)

/-- The `[^:]*:? (.+)` tail after group 1: positions are tried greedily
(longest `[^:]*` first), `.+` runs to the end of the line. -/
def excTailGo : List Char → Option (List Char)
  | [] => none
  | ':' :: rest =>
    match rest with
    | ' ' :: g3start =>
      let g3 := g3start.takeWhile fun c => c ≠ '\n'
      if g3.isEmpty then none else some g3
    | _ => none
  | c :: rest =>
    match excTailGo rest with
    | some g => some g
    | none =>
      if c = ' ' then
        let g3 := rest.takeWhile fun c => c ≠ '\n'
        if g3.isEmpty then none else some g3
      else none

/-- The full search: scan for word-run starts; on any failure the regex
engine's next viable start is after the run (`skip` counts the remaining
characters of a failed run). -/
def excSearchGo (pw : Bool) (skip : Nat) (l : List Char) :
    Option (List Char × List Char) :=
  match l, skip with
  | [], _ => none
  | _ :: rest, Nat.succ k => excSearchGo true k rest
  | c :: rest, 0 =>
    if !pw && isWordC c then
      let run := (c :: rest).takeWhile isWordC
      let afterRun := (c :: rest).dropWhile isWordC
      if excRunOk run then
        match excTailGo afterRun with
        | some g3 => some (run, g3)
        | none => excSearchGo true (run.length - 1) rest
      else excSearchGo true (run.length - 1) rest
    else excSearchGo (isWordC c) 0 rest

def excSearch (l : List Char) : Option (List Char × List Char) :=
  excSearchGo false 0 l

/-! ### Python `json.loads`

A strict JSON value parser matching CPython's default decoder: objects,
arrays, strings with escapes and `\uXXXX` (surrogate pairs combined; the
lone surrogates CPython tolerates are mapped to U+FFFD, which no claim
input contains), strict number grammar, `true`/`false`/`null`, and the
CPython extensions `NaN`/`Infinity`/`-Infinity`.  Numbers parse to exact
rationals (CPython rounds floats to binary; the difference is irrelevant
to every property stated here).  Duplicate object keys follow `dict`
semantics: last value wins, first position kept. -/

inductive Json where
  | null
  | bool (b : Bool)
  | int (n : Int)
  | float (q : ℚ)
  | nan
  | inf
  | ninf
  | str (s : String)
  | arr (elems : List Json)
  | obj (fields : List (String × Json))

/-- JSON inter-token whitespace. -/
def isJsonWs (c : Char) : Bool := c = ' ' || c = '\t' || c = '\n' || c = '\x0d'

def skipWs (l : List Char) : List Char := l.dropWhile isJsonWs

def hexVal (c : Char) : Option Nat :=
  if c.isDigit then some (c.toNat - 48)
  else if 'a' ≤ c && c ≤ 'f' then some (c.toNat - 87)
  else if 'A' ≤ c && c ≤ 'F' then some (c.toNat - 55)
  else none

/-- Decode a `\uXXXX` quadruple. -/
def hex4 (a b c d : Char) : Option Nat := do
  let va ← hexVal a
  let vb ← hexVal b
  let vc ← hexVal c
  let vd ← hexVal d
  pure (va * 4096 + vb * 256 + vc * 16 + vd)

/-- The body of a JSON string after the opening quote: returns the decoded
characters and the rest after the closing quote.  Raw control characters
are rejected (strict mode). -/
def parseStringBody : Nat → List Char → Option (List Char × List Char)
  | 0, _ => none
  | _ + 1, [] => none
  | _ + 1, '"' :: rest => some ([], rest)
  | Nat.succ fuel, '\\' :: 'u' :: a :: b :: c :: d :: rest => do
    let hi ← hex4 a b c d
    if 0xD800 ≤ hi ∧ hi ≤ 0xDBFF then
      match rest with
      | '\\' :: 'u' :: e :: f :: g :: h :: rest2 => do
        let lo ← hex4 e f g h
        if 0xDC00 ≤ lo ∧ lo ≤ 0xDFFF then
          let (tl, r) ← parseStringBody fuel rest2
          pure (Char.ofNat (0x10000 + (hi - 0xD800) * 0x400 + (lo - 0xDC00)) :: tl, r)
        else do
          let (tl, r) ← parseStringBody fuel rest
          pure (Char.ofNat 0xFFFD :: tl, r)
      | _ => do
        let (tl, r) ← parseStringBody fuel rest
        pure (Char.ofNat 0xFFFD :: tl, r)
    else if 0xDC00 ≤ hi ∧ hi ≤ 0xDFFF then do
      let (tl, r) ← parseStringBody fuel rest
      pure (Char.ofNat 0xFFFD :: tl, r)
    else do
      let (tl, r) ← parseStringBody fuel rest
      pure (Char.ofNat hi :: tl, r)
  | Nat.succ fuel, '\\' :: e :: rest => do
    let c ← match e with
      | '"' => some '"'
      | '\\' => some '\\'
      | '/' => some '/'
      | 'b' => some '\x08'
      | 'f' => some (Char.ofNat 12)
      | 'n' => some '\n'
      | 'r' => some '\x0d'
      | 't' => some '\t'
      | _ => none
    let (tl, r) ← parseStringBody fuel rest
    pure (c :: tl, r)
  | Nat.succ fuel, c :: rest =>
    if c.toNat < 0x20 then none
    else do
      let (tl, r) ← parseStringBody fuel rest
      pure (c :: tl, r)

def digitsToNat (l : List Char) : Nat :=
  l.foldl (fun a c => a * 10 + (c.toNat - 48)) 0

/-- The strict JSON number grammar
`-? (0 | [1-9][0-9]*) (\.[0-9]+)? ([eE][+-]?[0-9]+)?`; an integer literal
(no fraction, no exponent) parses to a Python `int`, anything else to a
float. -/
def parseNumber (l : List Char) : Option (Json × List Char) :=
  let (neg, l1) := match l with | '-' :: r => (true, r) | _ => (false, l)
  let intRun := l1.takeWhile isDigitC
  if intRun.isEmpty then none
  else if 2 ≤ intRun.length ∧ intRun.headD ' ' = '0' then none
  else
    let l2 := l1.dropWhile isDigitC
    let intVal := digitsToNat intRun
    let (fracRun, l3) := match l2 with
      | '.' :: r =>
        if (r.takeWhile isDigitC).isEmpty then ([], l2)
        else (r.takeWhile isDigitC, r.dropWhile isDigitC)
      | _ => ([], l2)
    let fracOk := match l2 with | '.' :: _ => !fracRun.isEmpty | _ => true
    if !fracOk then none
    else
      let (hasExp, expNeg, expRun, l4) := match l3 with
        | 'e' :: '+' :: r => (true, false, r.takeWhile isDigitC, r.dropWhile isDigitC)
        | 'e' :: '-' :: r => (true, true, r.takeWhile isDigitC, r.dropWhile isDigitC)
        | 'e' :: r => (true, false, r.takeWhile isDigitC, r.dropWhile isDigitC)
        | 'E' :: '+' :: r => (true, false, r.takeWhile isDigitC, r.dropWhile isDigitC)
        | 'E' :: '-' :: r => (true, true, r.takeWhile isDigitC, r.dropWhile isDigitC)
        | 'E' :: r => (true, false, r.takeWhile isDigitC, r.dropWhile isDigitC)
        | _ => (false, false, [], l3)
      if hasExp ∧ expRun.isEmpty then none
      else
        let sign : ℚ := if neg then -1 else 1
        if fracRun.isEmpty ∧ !hasExp then
          some (.int (if neg then -(intVal : Int) else (intVal : Int)), l2)
        else
          let mant : ℚ := intVal + (digitsToNat fracRun : ℚ) / 10 ^ fracRun.length
          let ex : ℤ := if expNeg then -(digitsToNat expRun : Int) else (digitsToNat expRun : Int)
          some (.float (sign * mant * (10 : ℚ) ^ ex), l4)

/-- `dict` assignment: replace in place if the key exists, else append. -/
def objInsert (fields : List (String × Json)) (k : String) (v : Json) :
    List (String × Json) :=
  match fields with
  | [] => [(k, v)]
  | (k0, v0) :: rest =>
    if k0 = k then (k0, v) :: rest else (k0, v0) :: objInsert rest k v

/-- Parser modes: a value, the members of an object, the elements of an
array (with the accumulated prefix). -/
inductive PMode where
  | val
  | members (acc : List (String × Json))
  | elems (acc : List Json)

/-- The recursive descent parser, fuelled (one unit per recursion; every
recursion consumes at least one input character, so `length + 1` fuel
suffices). -/
def parseJ : Nat → PMode → List Char → Option (Json × List Char)
  | 0, _, _ => none
  | Nat.succ fuel, PMode.val, l =>
    match l with
    | '"' :: r => (parseStringBody (r.length + 1) r).map fun p => (.str (String.mk p.1), p.2)
    | 't' :: 'r' :: 'u' :: 'e' :: r => some (.bool true, r)
    | 'f' :: 'a' :: 'l' :: 's' :: 'e' :: r => some (.bool false, r)
    | 'n' :: 'u' :: 'l' :: 'l' :: r => some (.null, r)
    | 'N' :: 'a' :: 'N' :: r => some (.nan, r)
    | 'I' :: 'n' :: 'f' :: 'i' :: 'n' :: 'i' :: 't' :: 'y' :: r => some (.inf, r)
    | '-' :: 'I' :: 'n' :: 'f' :: 'i' :: 'n' :: 'i' :: 't' :: 'y' :: r => some (.ninf, r)
    | c :: r =>
      if c = braceO then
        match skipWs r with
        | d :: r2 =>
          if d = braceC then some (.obj [], r2)
          else parseJ fuel (PMode.members []) (d :: r2)
        | [] => none
      else if c = '[' then
        match skipWs r with
        | ']' :: r2 => some (.arr [], r2)
        | l2 => parseJ fuel (PMode.elems []) l2
      else parseNumber (c :: r)
    | [] => none
  | Nat.succ fuel, PMode.members acc, l =>
    match l with
    | '"' :: r =>
      match parseStringBody (r.length + 1) r with
      | some (k, r1) =>
        match skipWs r1 with
        | ':' :: r2 =>
          match parseJ fuel PMode.val (skipWs r2) with
          | some (v, r3) =>
            match skipWs r3 with
            | ',' :: r4 =>
              match skipWs r4 with
              | '"' :: r5 => parseJ fuel (PMode.members (objInsert acc (String.mk k) v)) ('"' :: r5)
              | _ => none
            | d :: r4 =>
              if d = braceC then some (.obj (objInsert acc (String.mk k) v), r4)
              else none
            | [] => none
          | none => none
        | _ => none
      | none => none
    | _ => none
  | Nat.succ fuel, PMode.elems acc, l =>
    match parseJ fuel PMode.val l with
    | some (v, r1) =>
      match skipWs r1 with
      | ',' :: r2 => parseJ fuel (PMode.elems (acc ++ [v])) (skipWs r2)
      | ']' :: r2 => some (.arr (acc ++ [v]), r2)
      | _ => none
    | none => none

/-- `json.loads`: the whole input must be one value surrounded by
whitespace. -/
def json_loads (s : String) : Option Json :=
  match parseJ (s.data.length + 1) PMode.val (skipWs s.data) with
  | some (v, rest) => if (skipWs rest).isEmpty then some v else none
  | none => none

/-- `json.loads` succeeds (used for the `Details:` blob validity check,
where only success matters). -/
def jsonValid (l : List Char) : Bool := (json_loads (String.mk l)).isSome

/-- `dict.get` (keys are unique by construction of `objInsert`). -/
def jsonGet (fields : List (String × Json)) (k : String) : Option Json :=
  (fields.find? fun p => p.1 = k).map Prod.snd

/-- Python truthiness of a decoded JSON value. -/
def jsonTruthy : Json → Bool
  | .null => false
  | .bool b => b
  | .int n => n ≠ 0
  | .float q => q ≠ 0
  | .nan => true
  | .inf => true
  | .ninf => true
  | .str s => s ≠ ""
  | .arr l => !l.isEmpty
  | .obj f => !f.isEmpty

/-- How many times `p` divides `n` (fuelled). -/
def countFactor (p : Nat) : Nat → Nat → Nat
  | 0, _ => 0
  | fuel + 1, n => if n % p = 0 && n ≠ 0 && 2 ≤ p then countFactor p fuel (n / p) + 1 else 0

/-- Left-pad a digit string with zeros. -/
def padZeros (w : Nat) (s : String) : String :=
  String.mk (List.replicate (w - s.length) '0') ++ s

/-- `str()` of a Python float holding the exact value `q`.  Every float
produced by the JSON parser has a denominator of the form `2^a·5^b`, so an
exact decimal rendering exists; CPython prints the shortest round-tripping
decimal and uses scientific notation outside `[1e-4, 1e16)` — those
differences are not modelled. -/
def floatRepr (q : ℚ) : String :=
  let k2 := countFactor 2 q.den q.den
  let k5 := countFactor 5 q.den q.den
  let k := max k2 k5
  if 2 ^ k2 * 5 ^ k5 = q.den ∧ 0 < k then
    let scaled := q.num.natAbs * 10 ^ k / q.den
    (if q.num < 0 then "-" else "") ++ toString (scaled / 10 ^ k) ++ "." ++
      padZeros k (toString (scaled % 10 ^ k))
  else if q.den = 1 then toString q.num ++ ".0"
  else toString q.num ++ "/" ++ toString q.den

/-- `repr(value)` for container members (strings quoted; CPython's
quote-switching inside `repr` of strings is not modelled). -/
def pyReprQ : Json → String
  | .null => "None"
  | .bool true => "True"
  | .bool false => "False"
  | .int n => toString n
  | .float q => floatRepr q
  | .nan => "nan"
  | .inf => "inf"
  | .ninf => "-inf"
  | .str s => "'" ++ s ++ "'"
  | .arr l =>
    "[" ++ String.intercalate ", " (l.attach.map fun x => pyReprQ x.1) ++ "]"
  | .obj fs =>
    braceO.toString ++
      String.intercalate ", " (fs.attach.map fun x =>
        "'" ++ x.1.1 ++ "': " ++ pyReprQ x.1.2) ++ braceC.toString
termination_by j => sizeOf j
decreasing_by
  · have := List.sizeOf_lt_of_mem x.2
    simp only [Json.arr.sizeOf_spec]
    omega
  · obtain ⟨⟨a, b⟩, hm⟩ := x
    have h1 := List.sizeOf_lt_of_mem hm
    simp only [Json.obj.sizeOf_spec, Prod.mk.sizeOf_spec] at *
    omega

/-- `str(value)` for a decoded JSON value (`str` of a container is its
`repr`). -/
def pyStr : Json → String
  | .str s => s
  | .arr l => pyReprQ (.arr l)
  | .obj fs => pyReprQ (.obj fs)
  | v => pyReprQ v

/-! ### `_hash`: the first 8 hex characters of SHA-1 -/

/-- UTF-8 encoding of one scalar value (`str.encode()`). -/
def utf8Bytes (c : Char) : List Nat :=
  let n := c.toNat
  if n < 0x80 then [n]
  else if n < 0x800 then
    [0xC0 ||| (n >>> 6), 0x80 ||| (n &&& 0x3F)]
  else if n < 0x10000 then
    [0xE0 ||| (n >>> 12), 0x80 ||| ((n >>> 6) &&& 0x3F), 0x80 ||| (n &&& 0x3F)]
  else
    [0xF0 ||| (n >>> 18), 0x80 ||| ((n >>> 12) &&& 0x3F),
     0x80 ||| ((n >>> 6) &&& 0x3F), 0x80 ||| (n &&& 0x3F)]

/-- 32-bit left rotation on `Nat` (mod `2^32`). -/
def rotl32 (k n : Nat) : Nat := ((n <<< k) ||| (n >>> (32 - k))) % 2 ^ 32

/-- SHA-1 message padding: `0x80`, zeros to 56 mod 64, 8-byte big-endian
bit length. -/
def sha1Pad (msg : List Nat) : List Nat :=
  msg ++ [0x80] ++ List.replicate ((119 - msg.length % 64) % 64) 0 ++
    ((List.range 8).map fun i => ((msg.length * 8) >>> ((7 - i) * 8)) % 256)

/-- A 64-byte chunk as 16 big-endian 32-bit words. -/
def sha1Words (chunk : List Nat) : List Nat :=
  (List.range 16).map fun i =>
    (chunk.getD (4 * i) 0 <<< 24) + (chunk.getD (4 * i + 1) 0 <<< 16) +
      (chunk.getD (4 * i + 2) 0 <<< 8) + chunk.getD (4 * i + 3) 0

/-- Extend 16 words to 80. -/
def sha1Extend (w16 : List Nat) : List Nat :=
  (List.range 64).foldl
    (fun w _ =>
      w ++ [rotl32 1 (w.getD (w.length - 3) 0 ^^^ w.getD (w.length - 8) 0 ^^^
        w.getD (w.length - 14) 0 ^^^ w.getD (w.length - 16) 0)])
    w16

def sha1F (t b c d : Nat) : Nat :=
  if t < 20 then (b &&& c) ||| ((b ^^^ 0xFFFFFFFF) &&& d)
  else if t < 40 then b ^^^ c ^^^ d
  else if t < 60 then (b &&& c) ||| (b &&& d) ||| (c &&& d)
  else b ^^^ c ^^^ d

def sha1K (t : Nat) : Nat :=
  if t < 20 then 0x5A827999
  else if t < 40 then 0x6ED9EBA1
  else if t < 60 then 0x8F1BBCDC
  else 0xCA62C1D6

/-- One SHA-1 chunk compression. -/
def sha1Compress (h : Nat × Nat × Nat × Nat × Nat) (chunk : List Nat) :
    Nat × Nat × Nat × Nat × Nat :=
  let w := sha1Extend (sha1Words chunk)
  let r := (List.range 80).foldl
    (fun s t =>
      let (a, b, c, d, e) := s
      let temp := (rotl32 5 a + sha1F t b c d + e + sha1K t + w.getD t 0) % 2 ^ 32
      (temp, a, rotl32 30 b, c, d))
    (h.1, h.2.1, h.2.2.1, h.2.2.2.1, h.2.2.2.2)
  ((h.1 + r.1) % 2 ^ 32, (h.2.1 + r.2.1) % 2 ^ 32, (h.2.2.1 + r.2.2.1) % 2 ^ 32,
   (h.2.2.2.1 + r.2.2.2.1) % 2 ^ 32, (h.2.2.2.2 + r.2.2.2.2) % 2 ^ 32)

/-- Process the padded message 64 bytes at a time (fuelled by length). -/
def sha1Loop : Nat → (Nat × Nat × Nat × Nat × Nat) → List Nat →
    Nat × Nat × Nat × Nat × Nat
  | 0, h, _ => h
  | _ + 1, h, [] => h
  | fuel + 1, h, bytes => sha1Loop fuel (sha1Compress h (bytes.take 64)) (bytes.drop 64)

def hexDigitC (n : Nat) : Char :=
  if n < 10 then Char.ofNat (48 + n) else Char.ofNat (87 + n)

/-- Eight lowercase hex digits, big-endian. -/
def toHex8 (n : Nat) : String :=
  String.mk ((List.range 8).map fun i => hexDigitC ((n >>> ((7 - i) * 4)) &&& 15))

/-- `_hash(text) = hashlib.sha1(text.encode()).hexdigest()[:8]`: the first
eight hex digits are exactly the first word of the digest. -/
def pyHash8 (s : String) : String :=
  let bytes := sha1Pad (s.data.flatMap utf8Bytes)
  toHex8 (sha1Loop (bytes.length + 1) (0x67452301, 0xEFCDAB89, 0x98BADCFE,
    0x10325476, 0xC3D2E1F0) bytes).1

/-! ### `clusterer.py` — `_LEVEL_RANK` and `ExtractSignature._extract_signature` -/

/-- `_LEVEL_RANK`. -/
def LEVEL_RANK : List (String × Nat) :=
  [("CRITICAL", 4), ("ERROR", 3), ("WARNING", 2), ("INFO", 1),
   ("SERVICE", 1), ("DEBUG", 0)]

/-- `_LEVEL_RANK.get(s, d)`. -/
def rankGet (s : String) (d : Nat) : Nat :=
  ((LEVEL_RANK.find? fun p => p.1 = s).map Prod.snd).getD d

/-- Python `str.upper()` (ASCII). -/
def upperS (s : String) : String := String.mk (s.data.map Char.toUpper)

/-- `js.get('level', js.get('severity', 'INFO'))` on a decoded object
(`dict.get` returns the stored value whenever the key is present, even a
falsy one). -/
def jsonLevelVal (fs : List (String × Json)) : Json :=
  match jsonGet fs "level" with
  | some v => v
  | none => (jsonGet fs "severity").getD (.str "INFO")

/-- `js.get('msg') or js.get('message', '')`: Python `or` keeps the first
operand when it is truthy (an absent key gives falsy `None`). -/
def jsonMsgVal (fs : List (String × Json)) : Json :=
  match jsonGet fs "msg" with
  | some v => if jsonTruthy v then v else (jsonGet fs "message").getD (.str "")
  | none => (jsonGet fs "message").getD (.str "")

/-- Step 1 of `_extract_signature`, the JSON branch.  `none` means the
`try` block raised and control falls through to the text branch: the
document fails to decode (a document starting with a brace cannot decode
to a non-object), or the message is a truthy non-string, on which
`_normalise` raises `TypeError` inside the `try`.  The level-rank filter
runs before the message is touched, so a low-rank JSON log returns the
empty signature outright. -/
def jsonBranch (minSev : String) (log_message : String) : Option String :=
  match json_loads log_message with
  | some (.obj fs) =>
    if rankGet (upperS (pyStr (jsonLevelVal fs))) 0 < rankGet minSev 2 then some ""
    else if jsonTruthy (jsonMsgVal fs) then
      match jsonMsgVal fs with
      | .str s => some (upperS (pyStr (jsonLevelVal fs)) ++ ": " ++ normaliseS s)
      | _ => none
    else some (upperS (pyStr (jsonLevelVal fs)) ++ ":")
  | _ => none

/-- `candidate = line[m.end():].lstrip(":- ").strip()`. -/
def mkCandidate (rest : List Char) : List Char :=
  stripL (rest.dropWhile fun c => c = ':' || c = '-' || c = ' ')

/-- The trailing-`Details:` check: when the search matches and the brace
group decodes as JSON, only the (normalised) part before the match is
kept; an invalid group falls through. -/
def detailsBranch (level : String) (candidate : List Char) : Option (List Char) :=
  match detailsSearch candidate with
  | some (start, g) =>
    if jsonValid g then
      some (level.data ++ ": ".data ++ normaliseL (stripL (candidate.take start)))
    else none
  | none => none

/-- The part of the text branch after the level matched and passed the
rank filter: the `Details:` check, then the exception pattern, then the
plain candidate (an empty candidate yields the bare level with no colon). -/
def afterLevel (level : String) (candidate : List Char) : String :=
  match detailsBranch level candidate with
  | some r => String.mk r
  | none =>
    match excSearch candidate with
    | some (g1, g3) =>
      String.mk (normaliseL (level.data ++ ": ".data ++ g1 ++ [' '] ++ g3))
    | none =>
      if candidate.isEmpty then level
      else String.mk (normaliseL (level.data ++ ": ".data ++ candidate))

/-- `line = _TS.sub('', _first_line(log_message)).strip()`. -/
def parsedLine (log_message : String) : List Char :=
  stripL (pyStripTs (firstLineL log_message.data))

/-- Steps 2–3 of `_extract_signature`: the text branch on the prepared
line.  `_BRK.search(line) or _BARE.search(line)` keeps the bracketed
match when there is one. -/
def textBranch (minSev : String) (line : List Char) : String :=
  match (findBrk line).orElse (fun _ => findBare false line) with
  | some (level, rest) =>
    if rankGet level 0 < rankGet minSev 2 then ""
    else afterLevel level (mkCandidate rest)
  | none => "UNCLASSIFIED:" ++ pyHash8 (String.mk (normaliseL line))

/-- `ExtractSignature._extract_signature(log_message)` with the instance's
`min_severity`. -/
def extract_signature_impl (minSev : String) (log_message : String) : String :=
  match (if (log_message.data.dropWhile isSpaceC).headD ' ' = braceO
         then jsonBranch minSev log_message else none) with
  | some r => r
  | none => textBranch minSev (parsedLine log_message)

/-- `LogClusterer.extract_signature`: the blank-line guard, then the
Parser constructed with the hard-coded `min_severity="DEBUG"`. -/
def extract_signature_top (log_message : String) : String :=
  if (stripL log_message.data).isEmpty then ""
  else extract_signature_impl "DEBUG" log_message

/-! ### `clusterer.py` — `LogClusterer.cluster_logs` -/

/-- The cluster dict built by `cluster_logs`: exactly the keys
`signature`, `count`, `log_samples`, `representative_log`,
`is_recurring` — the dict carries no `timestamps` key. -/
structure LogClusterD where
  signature : String
  count : Nat
  log_samples : List String
  representative_log : String
  is_recurring : Bool
deriving DecidableEq

/-- `defaultdict(list)` append: key insertion order is preserved and the
log goes to the end of its key's list. -/
def addToGroups (groups : List (String × List String)) (sig log : String) :
    List (String × List String) :=
  match groups with
  | [] => [(sig, [log])]
  | (s, ls) :: rest =>
    if s = sig then (s, ls ++ [log]) :: rest
    else (s, ls) :: addToGroups rest sig log

/-- The grouping loop of `cluster_logs`: only logs with a non-empty
signature are clustered. -/
def buildGroups (raw_logs : List String) : List (String × List String) :=
  raw_logs.foldl
    (fun g log =>
      if extract_signature_top log = "" then g
      else addToGroups g (extract_signature_top log) log) []

/-- Stable descending insertion by `count`: Python's `sorted` is stable,
so an element inserted later goes after every already placed element of
equal or larger count. -/
def insertCountDesc (c : LogClusterD) : List LogClusterD → List LogClusterD
  | [] => [c]
  | d :: rest =>
    if d.count < c.count then c :: d :: rest else d :: insertCountDesc c rest

/-- `sorted(log_cluster_list, key=lambda c: c["count"], reverse=True)`. -/
def sortCountDesc (l : List LogClusterD) : List LogClusterD :=
  l.foldl (fun acc c => insertCountDesc c acc) []

/-- `LogClusterer.cluster_logs`: group, build the dicts (the grouped
lists are nonempty by construction, so `grouped_logs[0]` is the head),
sort by count descending. -/
def cluster_logs (raw_logs : List String) : List LogClusterD :=
  sortCountDesc ((buildGroups raw_logs).map fun p =>
    ⟨p.1, p.2.length, p.2, p.2.headD "", true⟩)

/-! ### `aggregator/app.py` — `merge_analysis_results` -/

/-- A cluster dict as the Aggregator's merge reads it: the two entries the
merge touches (`cluster.get("signature")` and the `"count"` it sums).  The
other entries of the first-stored dict ride along unchanged and play no
part in the merge, so they are not modelled; `count` is an `Int` as the
decoded JSON integer. -/
structure AggCluster where
  signature : String
  count : Int
deriving DecidableEq

/-- `all_clusters[sig]["count"] += k` on the insertion-ordered dict,
viewed as an association list (the key is present and unique). -/
def updateCount (acc : List AggCluster) (sig : String) (k : Int) :
    List AggCluster :=
  match acc with
  | [] => []
  | d :: rest =>
    if d.signature = sig then ⟨d.signature, d.count + k⟩ :: rest
    else d :: updateCount rest sig k

/-- One step of the merge loop over one input cluster: falsy signatures
are skipped, the first cluster of a signature is stored, later ones add
their count onto the stored one. -/
def addCluster (acc : List AggCluster) (c : AggCluster) : List AggCluster :=
  if c.signature = "" then acc
  else if acc.any fun d => d.signature = c.signature then
    updateCount acc c.signature c.count
  else acc ++ [c]

/-- The record loop of `merge_analysis_results`: `none` is a record whose
decode raised (`json.loads` failure or a missing `analysis_id`, skipped by
the `except` before any cluster of it is merged); `some cs` contributes
its `clusters` list in order. -/
def mergeLoop (records : List (Option (List AggCluster))) : List AggCluster :=
  records.foldl
    (fun acc r => match r with
      | none => acc
      | some cs => cs.foldl addCluster acc) []

/-- Stable descending insertion by `count` for the Aggregator's final
sort. -/
def insertAggDesc (c : AggCluster) : List AggCluster → List AggCluster
  | [] => [c]
  | d :: rest =>
    if d.count < c.count then c :: d :: rest else d :: insertAggDesc c rest

/-- `sorted(all_clusters.values(), key=lambda c: c.get("count", 0),
reverse=True)`. -/
def sortAggDesc (l : List AggCluster) : List AggCluster :=
  l.foldl (fun acc c => insertAggDesc c acc) []

/-- `merge_analysis_results`, restricted to the cluster list it returns
(the digest's `analysis_id`, summary and totals do not affect the
clusters). -/
def merge_analysis_results (records : List (Option (List AggCluster))) :
    List AggCluster :=
  sortAggDesc (mergeLoop records)

/-- The total count of a signature over a list of input clusters. -/
def sigCount (l : List AggCluster) (s : String) : Int :=
  ((l.filter fun d => d.signature = s).map AggCluster.count).sum

/-- The merge-loop invariant, after the input clusters `pref` have been
folded into the dict `acc`: signatures in the dict are unique and
non-empty, each dict entry's count is the total count of its signature
over `pref`, and every non-empty-signature input seen so far has an
entry. -/
def mergeInv (pref acc : List AggCluster) : Prop :=
  (acc.map AggCluster.signature).Nodup ∧
  (∀ c ∈ acc, c.signature ≠ "" ∧ c.count = sigCount pref c.signature) ∧
  (∀ d ∈ pref, d.signature = "" ∨ d.signature ∈ acc.map AggCluster.signature)

/-! ### C4 — token-templated log lines

The idempotence claim relates two lines that differ only in substituted
tokens, the leading timestamp and a trailing `Details:` JSON blob.  A
line is represented here by a shared skeleton (the literal text, the
level, the token kinds and slot positions) plus per-line payloads (the
token digits, the timestamp fields, the blob text). -/

/-- A substitutable token: an integer run, a `0x…` hex literal, an IPv4
quad, a UUID, or an already substituted `<tag>` (the normaliser's own
output, used to state the pass-by-pass invariant). -/
inductive Tok where
  | num (ds : List Char)
  | hex (ds : List Char)
  | ip (a b c d : List Char)
  | uuid (a b : List Char) (v : Char) (c : List Char) (w : Char) (d e : List Char)
  | tag (s : List Char)

def renderTok : Tok → List Char
  | .num ds => ds
  | .hex ds => '0' :: 'x' :: ds
  | .ip a b c d => a ++ '.' :: b ++ '.' :: c ++ '.' :: d
  | .uuid a b v c w d e => a ++ '-' :: b ++ '-' :: v :: c ++ '-' :: w :: d ++ '-' :: e
  | .tag s => s

/-- The four replacement tags of `_NORM`. -/
def tagStrs : List (List Char) :=
  ["<hex>".data, "<uuid>".data, "<ip>".data, "<num>".data]

/-- Payload validity: the payload renders to a string the corresponding
`_NORM` pattern matches in full (digit runs nonempty, UUID group widths
and the version/variant character classes as in the pattern). -/
def tokOK : Tok → Bool
  | .num ds => !ds.isEmpty && ds.all isDigitC
  | .hex ds => !ds.isEmpty && ds.all isHexC
  | .ip a b c d =>
    (!a.isEmpty && a.all isDigitC) && (!b.isEmpty && b.all isDigitC) &&
    (!c.isEmpty && c.all isDigitC) && (!d.isEmpty && d.all isDigitC)
  | .uuid a b v c w d e =>
    a.length == 8 && a.all isHexC && b.length == 4 && b.all isHexC &&
    (decide ('1' ≤ v) && decide (v ≤ '5')) && c.length == 3 && c.all isHexC &&
    (w = '8' || w = '9' || w = 'a' || w = 'b' || w = 'A' || w = 'B') &&
    d.length == 3 && d.all isHexC && e.length == 12 && e.all isHexC
  | .tag s => tagStrs.contains s

def noHexT : Tok → Bool
  | .hex _ => false
  | _ => true

def noUuidT : Tok → Bool
  | .uuid .. => false
  | _ => true

def noIpT : Tok → Bool
  | .ip .. => false
  | _ => true

def mapHexT : Tok → Tok
  | .hex _ => .tag "<hex>".data
  | t => t

def mapUuidT : Tok → Tok
  | .uuid .. => .tag "<uuid>".data
  | t => t

def mapIpT : Tok → Tok
  | .ip .. => .tag "<ip>".data
  | t => t

def mapNumT : Tok → Tok
  | .num _ => .tag "<num>".data
  | t => t

/-- A message skeleton: a leading literal, then token slots each followed
by a literal. -/
structure MsgT where
  head : List Char
  pairs : List (Tok × List Char)

def renderPairs : List (Tok × List Char) → List Char
  | [] => []
  | (t, l) :: ps => renderTok t ++ (l ++ renderPairs ps)

def renderMsg (m : MsgT) : List Char := m.head ++ renderPairs m.pairs

def mapToks (f : Tok → Tok) (m : MsgT) : MsgT :=
  ⟨m.head, m.pairs.map fun p => (f p.1, p.2)⟩

/-- Characters the shared literal text may use: no digits (every digit
run of the line belongs to a substituted token), no line terminators (the
line is its own first line) and no opening brace (braces appear only in
the Details blob). -/
def msgChar (c : Char) : Bool :=
  !isDigitC c && c ≠ '\n' && c ≠ '\x0d' && c ≠ Char.ofNat 11 &&
    c ≠ Char.ofNat 12 && c ≠ braceO

def litOK (l : List Char) : Bool := l.all msgChar

/-- Well-formed slot list: tokens valid, literals digit-free, and every
token delimited by a space on both sides (an inner literal starts and
ends with `' '`; the final literal may be empty — token at end of
message — or start with `' '`). -/
def pairsWF : List (Tok × List Char) → Bool
  | [] => true
  | [(t, l)] => tokOK t && litOK l && (l.isEmpty || l.headD 'x' = ' ')
  | (t, l) :: p :: ps =>
    tokOK t && litOK l && !l.isEmpty && (l.headD 'x' = ' ') &&
      (l.getLast? == some ' ') && pairsWF (p :: ps)

def msgWF (m : MsgT) : Bool :=
  !m.head.isEmpty && litOK m.head &&
    (m.pairs.isEmpty || m.head.getLast? == some ' ') && pairsWF m.pairs

/-- Same skeleton: identical literals, same token kind in each slot. -/
def sameKind : Tok → Tok → Bool
  | .num _, .num _ => true
  | .hex _, .hex _ => true
  | .ip .., .ip .. => true
  | .uuid .., .uuid .. => true
  | .tag s, .tag s' => s == s'
  | _, _ => false

def sameSkel : List (Tok × List Char) → List (Tok × List Char) → Bool
  | [], [] => true
  | (t, l) :: ps, (t', l') :: ps' => sameKind t t' && l == l' && sameSkel ps ps'
  | _, _ => false

/-- A leading-timestamp payload for the `_TS` pattern
`^\s*\d{4}-\d{2}-\d{2}[ T]\d{2}:\d{2}:\d{2}(?:[.,]\d+)?Z?\s*`. -/
structure TsP where
  y : List Char
  mo : List Char
  dy : List Char
  sep : Char
  hh : List Char
  mi : List Char
  ss : List Char
  frac : Option (Char × List Char)
  z : Bool
  pad : List Char

def renderTs (t : TsP) : List Char :=
  t.y ++ '-' :: t.mo ++ '-' :: t.dy ++ t.sep :: t.hh ++ ':' :: t.mi ++
    ':' :: t.ss ++
    (match t.frac with
     | some (c, ds) => c :: ds
     | none => []) ++
    (if t.z then ['Z'] else []) ++ t.pad

def tsOK (t : TsP) : Bool :=
  t.y.length == 4 && t.y.all isDigitC && t.mo.length == 2 && t.mo.all isDigitC &&
  t.dy.length == 2 && t.dy.all isDigitC && (t.sep = ' ' || t.sep = 'T') &&
  t.hh.length == 2 && t.hh.all isDigitC && t.mi.length == 2 && t.mi.all isDigitC &&
  t.ss.length == 2 && t.ss.all isDigitC &&
  (match t.frac with
   | some (c, ds) => (c = '.' || c = ',') && !ds.isEmpty && ds.all isDigitC
   | none => true) &&
  t.pad.all fun c => c = ' '

/-- The message after all four `_NORM` passes: every token slot holds its
replacement tag, the literals are unchanged (they contain no digits, so
no pattern can match inside them). -/
def nfMsg (m : MsgT) : MsgT :=
  mapToks mapNumT (mapToks mapIpT (mapToks mapUuidT (mapToks mapHexT m)))

/-- Candidate-separator characters (`lstrip(":- ")`). -/
def isSepC (c : Char) : Bool := c = ':' || c = '-' || c = ' '

/-- A trailing blob the claim's `Details: {…}` clause substitutes: a
single-line brace-delimited text that decodes as JSON. -/
def blobOK (b : List Char) : Bool :=
  b.headD ' ' = braceO && (b.getLast? == some braceC) && 2 ≤ b.length &&
    ((b.drop 1).dropLast.all fun c =>
      !(c = '\n' || c = '\x0d' || c = Char.ofNat 11 || c = Char.ofNat 12)) &&
    jsonValid b

def levelStrs : List String :=
  ["CRITICAL", "ERROR", "WARNING", "INFO", "SERVICE", "DEBUG"]

/-- The full templated line: timestamp, bracketed level, separator text,
the token-templated message, and the optional trailing Details blob. -/
def renderLine (ts : TsP) (lvl : String) (sepL : List Char) (m : MsgT)
    (blob : Option (List Char)) : List Char :=
  renderTs ts ++ '[' :: lvl.data ++ ']' :: sepL ++ renderMsg m ++
    (match blob with
     | some b => ' ' :: "Details:".data ++ ' ' :: b
     | none => [])

end LEA

namespace LEA

theorem length_insertAsc (x : ℚ) (l : List ℚ) :
    (insertAsc x l).length = l.length + 1 := by
  induction l with
  | nil => rfl
  | cons y ys ih =>
    simp only [insertAsc]
    split <;> simp [ih]

theorem length_sortAsc (l : List ℚ) : (sortAsc l).length = l.length := by
  induction l with
  | nil => rfl
  | cons x xs ih => simp [sortAsc, length_insertAsc, ih]

theorem pymedian_isOk {xs : List ℚ} (h : xs ≠ []) : ∃ q, pymedian xs = .ok q := by
  unfold pymedian
  have hn : (sortAsc xs).length ≠ 0 := by
    rw [length_sortAsc]
    simpa [List.length_eq_zero] using h
  simp only [hn, if_false]
  split <;> exact ⟨_, rfl⟩

theorem pymean_eq {xs : List ℚ} (h : xs ≠ []) : pymean xs = .ok (meanT xs) := by
  cases xs with
  | nil => exact absurd rfl h
  | cons a l => rfl

/-- **C10.** `MADModel.is_burst_anomaly` never raises: for every rational
`new_interval_hr` and every list of rational historical intervals it
returns a boolean.  The median is only taken of nonempty data (guarded by
the `< 2` fallback) and the only division, by the MAD, is guarded by the
`mad == 0` branch. -/
theorem mad_is_burst_anomaly_total (new_interval_hr : ℚ)
    (historical_intervals : List ℚ) :
    ∃ b : Bool, is_burst_anomaly new_interval_hr historical_intervals = .ok b := by
  unfold is_burst_anomaly
  by_cases hlen : historical_intervals.length < 2
  · simp [hlen]
  · have hne : historical_intervals ≠ [] := by
      intro h
      rw [h] at hlen
      simp at hlen
    obtain ⟨med, hmed⟩ := pymedian_isOk hne
    have hne2 : historical_intervals.map (fun interval => |interval - med|) ≠ [] := by
      simpa [List.map_eq_nil_iff] using hne
    obtain ⟨mad, hmad⟩ := pymedian_isOk hne2
    simp only [hlen, if_false, hmed, hmad, Except.bind]
    by_cases hz : mad = 0 <;> simp [hz]

/-- **C6 counterexample.** With history `[1, 1]` (median 1, MAD 0) and the
new interval `1 - 10⁻¹²`, which is strictly less than the median, the MAD
model does **not** flag a burst (the `math.isclose` guard suppresses it),
contradicting the claim that a burst is flagged iff `new < median`. -/
theorem mad_zero_strict_less_counterexample :
    is_burst_anomaly (1 - 1 / 10 ^ 12) [1, 1] = .ok false ∧
      ((1 : ℚ) - 1 / 10 ^ 12) < 1 := by
  constructor
  · norm_num [is_burst_anomaly, pymedian, sortAsc, insertAsc, isclose, eps9,
      Except.bind, abs_div]
  · norm_num

/-- **C6 (amended).** For every history of at least 2 intervals whose MAD is
zero, the MAD model flags a burst iff the new interval is strictly less
than the median **and** not within `math.isclose` tolerance (relative
`1e-9`) of it; in particular a new interval equal to the median is not a
burst. -/
theorem mad_zero_burst_iff (new_interval_hr : ℚ) (historical_intervals : List ℚ)
    (med : ℚ) (hlen : 2 ≤ historical_intervals.length)
    (hmed : pymedian historical_intervals = .ok med)
    (hmad : pymedian (historical_intervals.map (fun interval => |interval - med|)) = .ok 0) :
    (is_burst_anomaly new_interval_hr historical_intervals = .ok true ↔
      (new_interval_hr < med ∧ isclose new_interval_hr med = false)) ∧
      is_burst_anomaly med historical_intervals = .ok false := by
  have hnlt : ¬ historical_intervals.length < 2 := by omega
  have hclose : isclose med med = true := by
    unfold isclose eps9
    simp only [sub_self, abs_zero, decide_eq_true_eq]
    positivity
  constructor
  · unfold is_burst_anomaly
    simp only [hnlt, if_false, hmed, hmad, Except.bind, ite_true,
      Except.ok.injEq, Bool.and_eq_true, decide_eq_true_eq, Bool.not_eq_true']
  · unfold is_burst_anomaly
    simp [hnlt, hmed, hmad, Except.bind, hclose]

theorem length_intervalsOf (timestamps : List ℚ) :
    (intervalsOf timestamps).length = timestamps.length - 1 := by
  simp [intervalsOf]

/-- **C1.** (Spec-modelled orchestration, see `should_alert_filter`.)  In
Zone 2 — between 20 and 39 intervals — when the MAD stage did not flag a
burst, the filter alerts iff the HMM predicts `BURST` *and* the
permutation test on all intervals confirms; in particular it returns
`alert=false` whenever the HMM does not predict `BURST`. -/
theorem zone2_alert_iff_hmm_and_permutation
    (hmmPredict : List ℚ → ℚ → Nat) (permConfirm : List ℚ → Bool)
    (all_timestamps : List ℚ)
    (h20 : 20 ≤ (intervalsOf all_timestamps).length)
    (h40 : (intervalsOf all_timestamps).length < 40)
    (hmad : is_burst_anomaly ((intervalsOf all_timestamps).getLast?.getD 0)
        (intervalsOf all_timestamps).dropLast = .ok false) :
    ∃ reason, should_alert_filter hmmPredict permConfirm all_timestamps =
      .ok ((decide (hmmPredict (intervalsOf all_timestamps).dropLast
            ((intervalsOf all_timestamps).getLast?.getD 0) = STATE_BURST) &&
          permConfirm (intervalsOf all_timestamps)), reason) := by
  have hlen : ¬ all_timestamps.length < 2 := by
    have := length_intervalsOf all_timestamps
    omega
  have htrust : ¬ (intervalsOf all_timestamps).length < HMM_TRUST := by
    simp only [HMM_TRUST]
    omega
  have hconf : (intervalsOf all_timestamps).length < HMM_CONFIDENCE := by
    simpa only [HMM_CONFIDENCE] using h40
  unfold should_alert_filter
  simp only [hlen, if_false, hmad, Except.bind, Bool.false_eq_true, htrust, hconf,
    if_true]
  by_cases hb : hmmPredict (intervalsOf all_timestamps).dropLast
      ((intervalsOf all_timestamps).getLast?.getD 0) = STATE_BURST
  · exact ⟨"Zone 2: HMM burst, permutation decides", by simp [hb]⟩
  · exact ⟨"Zone 2: HMM did not predict burst", by simp [hb]⟩

/-- **C1 witness.** 22 identical timestamps (21 zero intervals, Zone 2):
the MAD stage does not fire (median 0, new interval 0), a constant-`BURST`
HMM plus an always-confirming permutation test yields `alert=true`. -/
theorem zone2_alert_iff_hmm_and_permutation_witness :
    ∃ reason, should_alert_filter (fun _ _ => STATE_BURST) (fun _ => true)
      (List.replicate 22 (0 : ℚ)) = .ok (true, reason) := by
  have hlen : (intervalsOf (List.replicate 22 (0 : ℚ))).length = 21 := by
    rw [length_intervalsOf]
    simp
  have hmad : is_burst_anomaly ((intervalsOf (List.replicate 22 (0 : ℚ))).getLast?.getD 0)
      (intervalsOf (List.replicate 22 (0 : ℚ))).dropLast = .ok false := by
    norm_num [intervalsOf, List.replicate, is_burst_anomaly, pymedian, sortAsc,
      insertAsc, isclose, eps9, Except.bind]
  obtain ⟨r, hr⟩ := zone2_alert_iff_hmm_and_permutation
    (fun _ _ => STATE_BURST) (fun _ => true) (List.replicate 22 (0 : ℚ))
    (by omega) (by omega) hmad
  exact ⟨r, by simpa using hr⟩

/-- **C7.** For every list of intervals (and every behaviour of the random
shuffles), whenever the mean of the recent sub-window is at least the mean
of the remaining, historical, intervals, the permutation test returns
`false` — either through the insufficient-data guard or through the
non-negative observed-difference guard. -/
theorem permutation_wrong_direction (shuffle : Nat → List ℚ → List ℚ)
    (historical_intervals : List ℚ)
    (h : meanT (historical_intervals.take
          (historical_intervals.length -
            max MIN_SAMPLE_SIZE (historical_intervals.length / 4))) ≤
         meanT (historical_intervals.drop
          (historical_intervals.length -
            max MIN_SAMPLE_SIZE (historical_intervals.length / 4)))) :
    has_burst_pattern_emerged shuffle historical_intervals = false := by
  have h5 : 0 < MIN_SAMPLE_SIZE := by norm_num [MIN_SAMPLE_SIZE]
  by_cases hlt : historical_intervals.length <
      max MIN_SAMPLE_SIZE (historical_intervals.length / 4) + MIN_SAMPLE_SIZE
  · unfold has_burst_pattern_emerged
    simp [hlt]
  · have hrwn : max MIN_SAMPLE_SIZE (historical_intervals.length / 4) ≤
        historical_intervals.length := by omega
    have hrne : historical_intervals.drop (historical_intervals.length -
        max MIN_SAMPLE_SIZE (historical_intervals.length / 4)) ≠ [] := by
      intro hcon
      have := congrArg List.length hcon
      simp at this
      omega
    have hhne : historical_intervals.take (historical_intervals.length -
        max MIN_SAMPLE_SIZE (historical_intervals.length / 4)) ≠ [] := by
      intro hcon
      have := congrArg List.length hcon
      simp at this
      omega
    have hd : 0 ≤ meanT (historical_intervals.drop (historical_intervals.length -
          max MIN_SAMPLE_SIZE (historical_intervals.length / 4))) -
        meanT (historical_intervals.take (historical_intervals.length -
          max MIN_SAMPLE_SIZE (historical_intervals.length / 4))) := sub_nonneg.mpr h
    unfold has_burst_pattern_emerged
    simp only [hlt, if_false, pymean_eq hrne, pymean_eq hhne, hd, if_true]

/-- **C7 witness.** The empty interval list satisfies the mean hypothesis
(both sub-window means are 0) and the test returns `false`. -/
theorem permutation_wrong_direction_witness :
    meanT (List.take (([] : List ℚ).length - max MIN_SAMPLE_SIZE (([] : List ℚ).length / 4)) []) ≤
      meanT (List.drop (([] : List ℚ).length - max MIN_SAMPLE_SIZE (([] : List ℚ).length / 4)) []) ∧
    has_burst_pattern_emerged (fun _ l => l) [] = false :=
  ⟨le_refl _, permutation_wrong_direction (fun _ l => l) [] (le_refl _)⟩

theorem eps9_pos : 0 < eps9 := by norm_num [eps9]

theorem orD_pos {x d : ℚ} (hx : 0 ≤ x) (hd : 0 < d) : 0 < orD x d := by
  unfold orD
  split
  · exact hd
  · rename_i h
    exact lt_of_le_of_ne hx (Ne.symm h)

theorem mlog_eq (ops : RealOps) {x : ℚ} (h : 0 < x) :
    mlog ops x = .ok (ops.log x) := by
  simp [mlog, h]

theorem pydiv_eq {a b : ℚ} (h : b ≠ 0) : pydiv a b = .ok (a / b) := by
  simp [pydiv, h]

theorem ok_bind {ε α β : Type} (a : α) (f : α → Except ε β) :
    (Except.ok a >>= f : Except ε β) = f a := rfl

theorem poissonLogProb_ok (ops : RealOps) (x : ℚ) {m : ℚ} (h : 0 < m) :
    ∃ y, poissonLogProb ops x m = .ok y := by
  have h2 : 0 < 1 / orD m eps9 := one_div_pos.mpr (orD_pos h.le eps9_pos)
  have h3 : 0 < orD (1 / orD m eps9) eps9 := orD_pos h2.le eps9_pos
  refine ⟨?_, ?_⟩
  rotate_left
  · unfold poissonLogProb
    rw [mlog_eq ops h3]
    exact rfl

theorem precomputeObs_ok (ops : RealOps) {lambdas : Tri} (hl : triPos lambdas)
    (intervals : List ℚ) :
    ∃ obs, precomputeObs ops lambdas intervals = .ok obs ∧
      obs.length = intervals.length := by
  induction intervals with
  | nil => exact ⟨[], rfl, rfl⟩
  | cons x rest ih =>
    have hn : 0 < 1 / orD lambdas.n eps9 := one_div_pos.mpr (orD_pos hl.1.le eps9_pos)
    have hb : 0 < 1 / orD lambdas.b eps9 := one_div_pos.mpr (orD_pos hl.2.1.le eps9_pos)
    have hs : 0 < 1 / orD lambdas.s eps9 := one_div_pos.mpr (orD_pos hl.2.2.le eps9_pos)
    obtain ⟨p0, h0⟩ := poissonLogProb_ok ops x hn
    obtain ⟨p1, h1⟩ := poissonLogProb_ok ops x hb
    obtain ⟨p2, h2⟩ := poissonLogProb_ok ops x hs
    obtain ⟨tl, htl, hlen⟩ := ih
    refine ⟨⟨p0, p1, p2⟩ :: tl, ?_, by simp [hlen]⟩
    simp only [precomputeObs]
    rw [h0, ok_bind, h1, ok_bind, h2, ok_bind, htl, ok_bind]
    exact rfl

theorem logTMat_ok (ops : RealOps) {t : TMat} (h : tmatNonneg t) :
    ∃ lt, logTMat ops t = .ok lt := by
  obtain ⟨⟨h1, h2, h3⟩, ⟨h4, h5, h6⟩, ⟨h7, h8, h9⟩⟩ := h
  refine ⟨?_, ?_⟩
  rotate_left
  · unfold logTMat
    rw [mlog_eq ops (orD_pos h1 eps9_pos), ok_bind,
      mlog_eq ops (orD_pos h2 eps9_pos), ok_bind,
      mlog_eq ops (orD_pos h3 eps9_pos), ok_bind,
      mlog_eq ops (orD_pos h4 eps9_pos), ok_bind,
      mlog_eq ops (orD_pos h5 eps9_pos), ok_bind,
      mlog_eq ops (orD_pos h6 eps9_pos), ok_bind,
      mlog_eq ops (orD_pos h7 eps9_pos), ok_bind,
      mlog_eq ops (orD_pos h8 eps9_pos), ok_bind,
      mlog_eq ops (orD_pos h9 eps9_pos), ok_bind]
    exact rfl

theorem length_triScan (step : Tri → Tri → Tri) :
    ∀ (l : List Tri) (a : Tri), (triScan step a l).length = l.length + 1
  | [], _ => rfl
  | o :: rest, a => by
    simp [triScan, length_triScan step rest (step a o)]

theorem alphaList_ok (ops : RealOps) {tm : TMat} (ht : tmatNonneg tm)
    {obs : List Tri} (hne : obs ≠ []) :
    ∃ l, alphaList ops tm obs = .ok l ∧ l.length = obs.length := by
  have h3 : (0 : ℚ) < 1 / 3 := by norm_num
  match obs, hne with
  | [o0], _ =>
    refine ⟨?_, ?_, ?_⟩
    rotate_left
    · simp only [alphaList]
      rw [mlog_eq ops h3]
      exact rfl
    · exact rfl
  | o0 :: o1 :: rest, _ =>
    obtain ⟨lt, hlt⟩ := logTMat_ok ops ht
    refine ⟨?_, ?_, ?_⟩
    rotate_left
    · simp only [alphaList]
      rw [mlog_eq ops h3, ok_bind, hlt, ok_bind]
      exact rfl
    · simp [length_triScan]

theorem length_betaListP (lt : TMat) :
    ∀ l : List Tri, (betaListP lt l).length = l.length
  | [] => rfl
  | [_] => rfl
  | _ :: b :: rest => by
    simp [betaListP, length_betaListP lt (b :: rest)]

theorem betaList_ok (ops : RealOps) {tm : TMat} (ht : tmatNonneg tm)
    (obs : List Tri) :
    ∃ l, betaList ops tm obs = .ok l ∧ l.length = obs.length := by
  match obs with
  | [] => exact ⟨[], rfl, rfl⟩
  | [o] => exact ⟨[triZero], rfl, rfl⟩
  | o0 :: o1 :: rest =>
    obtain ⟨lt, hlt⟩ := logTMat_ok ops ht
    refine ⟨?_, ?_, ?_⟩
    rotate_left
    · simp only [betaList]
      rw [hlt]
      exact rfl
    · simp [length_betaListP]

theorem triNonneg_add {x y : Tri} (hx : triNonneg x) (hy : triNonneg y) :
    triNonneg (triAdd x y) :=
  ⟨add_nonneg hx.1 hy.1, add_nonneg hx.2.1 hy.2.1, add_nonneg hx.2.2 hy.2.2⟩

theorem triPos_add_nonneg {x y : Tri} (hx : triPos x) (hy : triNonneg y) :
    triPos (triAdd x y) :=
  ⟨add_pos_of_pos_of_nonneg hx.1 hy.1, add_pos_of_pos_of_nonneg hx.2.1 hy.2.1,
   add_pos_of_pos_of_nonneg hx.2.2 hy.2.2⟩

theorem triNonneg_add_pos {x y : Tri} (hx : triNonneg x) (hy : triPos y) :
    triPos (triAdd x y) :=
  ⟨add_pos_of_nonneg_of_pos hx.1 hy.1, add_pos_of_nonneg_of_pos hx.2.1 hy.2.1,
   add_pos_of_nonneg_of_pos hx.2.2 hy.2.2⟩

theorem triZero_nonneg : triNonneg triZero := ⟨le_refl 0, le_refl 0, le_refl 0⟩

theorem foldl_triAdd_nonneg :
    ∀ (l : List Tri) (acc : Tri), triNonneg acc → (∀ g ∈ l, triNonneg g) →
      triNonneg (l.foldl triAdd acc)
  | [], acc, hacc, _ => hacc
  | g :: rest, acc, hacc, hall => by
    simp only [List.foldl_cons]
    exact foldl_triAdd_nonneg rest _ (triNonneg_add hacc (hall g (by simp)))
      fun x hx => hall x (by simp [hx])

theorem foldl_triAdd_pos :
    ∀ (l : List Tri) (acc : Tri), triPos acc → (∀ g ∈ l, triNonneg g) →
      triPos (l.foldl triAdd acc)
  | [], acc, hacc, _ => hacc
  | g :: rest, acc, hacc, hall => by
    simp only [List.foldl_cons]
    exact foldl_triAdd_pos rest _ (triPos_add_nonneg hacc (hall g (by simp)))
      fun x hx => hall x (by simp [hx])

theorem triSum_nonneg {l : List Tri} (h : ∀ g ∈ l, triNonneg g) :
    triNonneg (triSum l) :=
  foldl_triAdd_nonneg l triZero triZero_nonneg h

theorem triSum_pos {l : List Tri} (hne : l ≠ []) (h : ∀ g ∈ l, triPos g) :
    triPos (triSum l) := by
  match l, hne with
  | g :: rest, _ =>
    unfold triSum
    simp only [List.foldl_cons]
    exact foldl_triAdd_pos rest _ (triNonneg_add_pos triZero_nonneg (h g (by simp)))
      fun x hx => (h x (by simp [hx])).imp le_of_lt
        (fun p => ⟨le_of_lt p.1, le_of_lt p.2⟩)

theorem tmatNonneg_add {x y : TMat} (hx : tmatNonneg x) (hy : tmatNonneg y) :
    tmatNonneg (tmatAdd x y) :=
  ⟨triNonneg_add hx.1 hy.1, triNonneg_add hx.2.1 hy.2.1, triNonneg_add hx.2.2 hy.2.2⟩

theorem tmatZero_nonneg : tmatNonneg tmatZero :=
  ⟨triZero_nonneg, triZero_nonneg, triZero_nonneg⟩

theorem foldl_tmatAdd_nonneg :
    ∀ (l : List TMat) (acc : TMat), tmatNonneg acc → (∀ g ∈ l, tmatNonneg g) →
      tmatNonneg (l.foldl tmatAdd acc)
  | [], acc, hacc, _ => hacc
  | g :: rest, acc, hacc, hall => by
    simp only [List.foldl_cons]
    exact foldl_tmatAdd_nonneg rest _ (tmatNonneg_add hacc (hall g (by simp)))
      fun x hx => hall x (by simp [hx])

theorem gammaRow_pos {ops : RealOps} (hexp : ∀ x, 0 < ops.exp x) (a bt : Tri) :
    triPos (gammaRow ops a bt) :=
  ⟨hexp _, hexp _, hexp _⟩

theorem xiRow_nonneg {ops : RealOps} (hexp : ∀ x, 0 < ops.exp x)
    (lt : TMat) (a bt bnext onext : Tri) :
    tmatNonneg (xiRow ops lt a bt bnext onext) :=
  ⟨⟨(hexp _).le, (hexp _).le, (hexp _).le⟩, ⟨(hexp _).le, (hexp _).le, (hexp _).le⟩,
   ⟨(hexp _).le, (hexp _).le, (hexp _).le⟩⟩

theorem xiSumGuarded_ok (ops : RealOps) (hexp : ∀ x, 0 < ops.exp x)
    {tm : TMat} (ht : tmatNonneg tm) (alpha beta obs : List Tri) :
    ∃ x, xiSumGuarded ops tm alpha beta obs = .ok x ∧ tmatNonneg x := by
  match obs with
  | [] => exact ⟨tmatZero, rfl, tmatZero_nonneg⟩
  | [o] => exact ⟨tmatZero, rfl, tmatZero_nonneg⟩
  | o0 :: o1 :: rest =>
    obtain ⟨lt, hlt⟩ := logTMat_ok ops ht
    refine ⟨?_, ?_, ?_⟩
    rotate_left
    · simp only [xiSumGuarded]
      rw [hlt]
      exact rfl
    unfold xiSum
    apply foldl_tmatAdd_nonneg _ _ tmatZero_nonneg
    intro g hg
    simp only [List.mem_map] at hg
    obtain ⟨q, _, rfl⟩ := hg
    exact xiRow_nonneg hexp _ _ _ _ _

theorem mStep_ok (ops : RealOps) (hexp : ∀ x, 0 < ops.exp x)
    {tm : TMat} {alpha beta obs : List Tri} {intervals : List ℚ}
    (ht : tmatNonneg tm) (ha : alpha.length = obs.length)
    (hb : beta.length = obs.length) (hne : obs ≠ [])
    (hx : ∀ x ∈ intervals, 0 ≤ x) :
    ∃ p : TMat × Tri, mStep ops tm alpha beta obs intervals = .ok p ∧
      tmatNonneg p.1 ∧ triPos p.2 := by
  obtain ⟨xiS, hxiSeq, hxiSnn⟩ := xiSumGuarded_ok ops hexp ht alpha beta obs
  have hgpos : ∀ g ∈ (alpha.zip beta).map fun p => gammaRow ops p.1 p.2, triPos g := by
    intro g hg
    simp only [List.mem_map] at hg
    obtain ⟨q, _, rfl⟩ := hg
    exact gammaRow_pos hexp _ _
  have hgnn : ∀ g ∈ (alpha.zip beta).map fun p => gammaRow ops p.1 p.2, triNonneg g :=
    fun g hg => (hgpos g hg).imp le_of_lt fun p => ⟨le_of_lt p.1, le_of_lt p.2⟩
  have hgne : ((alpha.zip beta).map fun p => gammaRow ops p.1 p.2) ≠ [] := by
    intro hcon
    have := congrArg List.length hcon
    simp only [List.length_map, List.length_zip, ha, hb, List.length_nil,
      min_self] at this
    exact hne (List.length_eq_zero.mp this)
  have hgHead : triNonneg (triSum ((alpha.zip beta).map
      fun p => gammaRow ops p.1 p.2).dropLast) :=
    triSum_nonneg fun g hg => hgnn g ((List.dropLast_sublist _).subset hg)
  have hgAll : triPos (triSum ((alpha.zip beta).map fun p => gammaRow ops p.1 p.2)) :=
    triSum_pos hgne hgpos
  have hw : triNonneg (triSum ((((alpha.zip beta).map
      fun p => gammaRow ops p.1 p.2).zip intervals).map fun p => triScale p.1 p.2)) := by
    apply triSum_nonneg
    intro g hg
    simp only [List.mem_map] at hg
    obtain ⟨⟨gm, x⟩, hmem, rfl⟩ := hg
    have hxm : x ∈ intervals := (List.of_mem_zip hmem).2
    have hgm := hgnn _ (List.of_mem_zip hmem).1
    exact ⟨mul_nonneg hgm.1 (hx x hxm), mul_nonneg hgm.2.1 (hx x hxm),
      mul_nonneg hgm.2.2 (hx x hxm)⟩
  refine ⟨?_, ?_, ?_, ?_⟩
  rotate_left
  · simp only [mStep]
    rw [hxiSeq, ok_bind]
    exact rfl
  · exact ⟨⟨div_nonneg hxiSnn.1.1 (orD_pos hgHead.1 one_pos).le,
      div_nonneg hxiSnn.1.2.1 (orD_pos hgHead.1 one_pos).le,
      div_nonneg hxiSnn.1.2.2 (orD_pos hgHead.1 one_pos).le⟩,
     ⟨div_nonneg hxiSnn.2.1.1 (orD_pos hgHead.2.1 one_pos).le,
      div_nonneg hxiSnn.2.1.2.1 (orD_pos hgHead.2.1 one_pos).le,
      div_nonneg hxiSnn.2.1.2.2 (orD_pos hgHead.2.1 one_pos).le⟩,
     ⟨div_nonneg hxiSnn.2.2.1 (orD_pos hgHead.2.2 one_pos).le,
      div_nonneg hxiSnn.2.2.2.1 (orD_pos hgHead.2.2 one_pos).le,
      div_nonneg hxiSnn.2.2.2.2 (orD_pos hgHead.2.2 one_pos).le⟩⟩
  · exact ⟨div_pos hgAll.1 (orD_pos hw.1 eps9_pos),
      div_pos hgAll.2.1 (orD_pos hw.2.1 eps9_pos),
      div_pos hgAll.2.2 (orD_pos hw.2.2 eps9_pos)⟩

theorem bwStep_ok (ops : RealOps) (hexp : ∀ x, 0 < ops.exp x)
    {intervals : List ℚ} {tm : TMat} {lambdas : Tri} (hne : intervals ≠ [])
    (hx : ∀ x ∈ intervals, 0 ≤ x) (ht : tmatNonneg tm) (hl : triPos lambdas) :
    ∃ p : TMat × Tri, bwStep ops intervals tm lambdas = .ok p ∧
      tmatNonneg p.1 ∧ triPos p.2 := by
  obtain ⟨obs, hobs, hlenobs⟩ := precomputeObs_ok ops hl intervals
  have hobsne : obs ≠ [] := by
    intro hcon
    rw [hcon] at hlenobs
    exact hne (List.length_eq_zero.mp hlenobs.symm)
  obtain ⟨alpha, halpha, halen⟩ := alphaList_ok ops ht hobsne
  obtain ⟨beta, hbeta, hblen⟩ := betaList_ok ops ht obs
  obtain ⟨p, hp, h1, h2⟩ := mStep_ok ops hexp ht halen hblen hobsne hx
  refine ⟨p, ?_, h1, h2⟩
  unfold bwStep
  rw [hobs, ok_bind, halpha, ok_bind, hbeta, ok_bind, hp]

theorem bwLoop_ok (ops : RealOps) (hexp : ∀ x, 0 < ops.exp x)
    {intervals : List ℚ} (hne : intervals ≠ [])
    (hx : ∀ x ∈ intervals, 0 ≤ x) :
    ∀ (fuel : Nat) {tm : TMat} {lambdas : Tri},
      tmatNonneg tm → triPos lambdas →
      ∃ r : TMat × Tri × Nat × Bool,
        bwLoop ops intervals fuel tm lambdas = .ok r ∧
          r.2.2.1 ≤ fuel ∧ (r.2.2.2 = true ∨ r.2.2.1 = fuel) ∧ triPos r.2.1
  | 0, tm, lambdas, _, hl =>
    ⟨(tm, lambdas, 0, false), rfl, le_refl 0, Or.inr rfl, hl⟩
  | Nat.succ fuel, tm, lambdas, ht, hl => by
    obtain ⟨p, hp, hpt, hpl⟩ := bwStep_ok ops hexp hne hx ht hl
    by_cases hc : tmatAbsDiff p.1 tm + triAbsDiff p.2 lambdas < CONVERGENCE_TOLERANCE
    · refine ⟨(p.1, p.2, 1, true), ?_, Nat.le_add_left 1 fuel, Or.inl rfl, hpl⟩
      simp only [bwLoop]
      rw [hp]
      simp only [Except.bind]
      rw [if_pos hc]
    · obtain ⟨r, hr, hk, hcv, hrl⟩ := bwLoop_ok ops hexp hne hx fuel hpt hpl
      refine ⟨(r.1, r.2.1, r.2.2.1 + 1, r.2.2.2), ?_, ?_, ?_, hrl⟩
      · simp only [bwLoop]
        rw [hp]
        simp only [Except.bind]
        rw [if_neg hc, hr]
        exact rfl
      · exact Nat.add_le_add_right hk 1
      · rcases hcv with h | h
        · exact Or.inl h
        · exact Or.inr (congrArg (· + 1) h)

/-- **C9.** Baum-Welch training (`HMMModel._learn_parameters`) either
converges — the `break` on an L1 parameter change below `1e-4` fires — in
at most 10 iterations, or stops at the 10-iteration cap; and when invoked
through the Filter's gate of at least 20 intervals (which are non-negative
differences of sorted timestamps) it raises no exception: no `IndexError`
from the forward pass, no `math domain error` from `log`, and no
`ZeroDivisionError` from the final `1.0 / lambdas[s]` (assuming only that
`math.exp` returns positive values, as the real exponential does). -/
theorem hmm_learn_converges_or_capped (ops : RealOps)
    (hexp : ∀ x, 0 < ops.exp x) (intervals : List ℚ)
    (h20 : 20 ≤ intervals.length) (hx : ∀ x ∈ intervals, 0 ≤ x) :
    ∃ (params : Tri × TMat) (iters : Nat) (conv : Bool),
      learn_parameters_run ops intervals = .ok (params, iters, conv) ∧
        iters ≤ MAX_ITERATIONS ∧ (conv = true ∨ iters = MAX_ITERATIONS) := by
  have hne : intervals ≠ [] := by
    intro h
    rw [h] at h20
    simp at h20
  have hinitT : tmatNonneg (initialize_parameters intervals).1 := by
    unfold initialize_parameters tmatNonneg triNonneg
    norm_num
  have hinitL : triPos (initialize_parameters intervals).2 := by
    have hmean : 0 ≤ (if intervals.isEmpty then 24 else meanT intervals : ℚ) := by
      split
      · norm_num
      · exact div_nonneg (List.sum_nonneg hx) (Nat.cast_nonneg _)
    refine ⟨one_div_pos.mpr (orD_pos hmean eps9_pos),
      one_div_pos.mpr (orD_pos (by positivity) eps9_pos),
      one_div_pos.mpr (orD_pos (by positivity) eps9_pos)⟩
  obtain ⟨r, hr, hk, hcv, hrl⟩ :=
    bwLoop_ok ops hexp hne hx MAX_ITERATIONS hinitT hinitL
  refine ⟨(⟨1 / r.2.1.n, 1 / r.2.1.b, 1 / r.2.1.s⟩, r.1), r.2.2.1, r.2.2.2, ?_, hk, hcv⟩
  unfold learn_parameters_run
  rw [hr, ok_bind, pydiv_eq (ne_of_gt hrl.1), ok_bind,
    pydiv_eq (ne_of_gt hrl.2.1), ok_bind, pydiv_eq (ne_of_gt hrl.2.2), ok_bind]
  exact rfl

/-- **C9 witness.** Twenty unit intervals, with `exp` the constant 1 and
`log` the constant 0 (both satisfying the positivity hypothesis): training
returns parameters with an iteration count within the cap. -/
theorem hmm_learn_converges_or_capped_witness :
    ∃ (params : Tri × TMat) (iters : Nat) (conv : Bool),
      learn_parameters_run ⟨fun _ => 1, fun _ => 0⟩ (List.replicate 20 1) =
        .ok (params, iters, conv) ∧
        iters ≤ MAX_ITERATIONS ∧ (conv = true ∨ iters = MAX_ITERATIONS) :=
  hmm_learn_converges_or_capped ⟨fun _ => 1, fun _ => 0⟩ (fun _ => one_pos)
    (List.replicate 20 1) (by simp)
    (fun x hx => by
      rw [List.eq_of_mem_replicate hx]
      norm_num)

/-- **C6 witness.** History `[1, 1]`, new interval `1/2`: the amended
theorem applies and yields a flagged burst, and an interval equal to the
median (1) is not flagged. -/
theorem mad_zero_burst_iff_witness :
    is_burst_anomaly (1 / 2) [1, 1] = .ok true ∧
      is_burst_anomaly 1 [1, 1] = .ok false :=
  have h := mad_zero_burst_iff (1 / 2) [1, 1] 1 (by norm_num)
    (by norm_num [pymedian, sortAsc, insertAsc])
    (by norm_num [pymedian, sortAsc, insertAsc])
  ⟨h.1.mpr ⟨by norm_num, by norm_num [isclose, eps9, abs_div]⟩, h.2⟩

/-- **C2.** The claim requires every cluster to satisfy
`count == len(timestamps)` for a per-event `timestamps` list; the cluster
dicts `cluster_logs` builds carry no `timestamps` entry at all.  On a
one-error batch the produced cluster has exactly the fields
signature / count / log_samples / representative_log / is_recurring, with
the raw line stored in `log_samples` — so the downstream Alert Filter,
which reads `cluster.get("timestamps", [])`, always gets the default. -/
theorem cluster_logs_has_no_timestamps_field :
    cluster_logs ["[2025-06-25T02:37:12Z][ERROR]: boom"] =
      [⟨"ERROR: boom", 1, ["[2025-06-25T02:37:12Z][ERROR]: boom"],
        "[2025-06-25T02:37:12Z][ERROR]: boom", true⟩] := by
  rfl

/-- **C3 counterexample.** On the S1 line the extraction does not return
the claimed signature: `\b\d+\b` cannot rewrite `500` because `ms`
follows it without a word boundary. -/
theorem signature_s1_counterexample :
    extract_signature_impl "WARNING"
        "[2025-06-25T02:37:12Z][ERROR]: Timeout after 500ms for user 0xDEADBEEF from 10.0.0.1 Details: \x7b\"r\": 3\x7d"
      ≠ "ERROR: Timeout after <num>ms for user <hex> from <ip>" := by
  decide

/-- **C3 (amended).** On the S1 line the extraction returns exactly
`ERROR: Timeout after 500ms for user <hex> from <ip>`: the trailing
`Details:` JSON blob is removed and the hex and IP tokens are rewritten,
but `500` stays verbatim (`ms` follows it, so the `\b\d+\b` pattern has
no right word boundary there). -/
theorem signature_s1_amended :
    extract_signature_impl "WARNING"
        "[2025-06-25T02:37:12Z][ERROR]: Timeout after 500ms for user 0xDEADBEEF from 10.0.0.1 Details: \x7b\"r\": 3\x7d"
      = "ERROR: Timeout after 500ms for user <hex> from <ip>" := by
  rfl

/-- **C5.** The Parser with its default `min_severity="WARNING"` does
filter the INFO line of the repository's own
`test_unmatched_logs_are_ignored`, but the clustering pipeline does not:
`LogClusterer.extract_signature` hard-codes `min_severity="DEBUG"`, so the
same line gets the signature `INFO: Service started successfully.` and a
cluster of its own, where the claim, the spec's default configuration and
the repository test all expect none. -/
theorem info_line_filtered_by_parser_yet_clustered :
    extract_signature_impl "WARNING"
        "2024-06-17T13:30:00Z [INFO] Service started successfully." = "" ∧
    cluster_logs ["2024-06-17T13:30:00Z [INFO] Service started successfully."] =
      [⟨"INFO: Service started successfully.", 1,
        ["2024-06-17T13:30:00Z [INFO] Service started successfully."],
        "2024-06-17T13:30:00Z [INFO] Service started successfully.", true⟩] :=
  ⟨rfl, rfl⟩

/-! ### C8 — the Aggregator's merge invariants -/

theorem sigCount_append (l₁ l₂ : List AggCluster) (s : String) :
    sigCount (l₁ ++ l₂) s = sigCount l₁ s + sigCount l₂ s := by
  simp [sigCount, List.filter_append]

theorem sigCount_single (c : AggCluster) (s : String) :
    sigCount [c] s = if c.signature = s then c.count else 0 := by
  by_cases h : c.signature = s <;> simp [sigCount, List.filter_cons, h]

theorem sigCount_eq_zero : ∀ {l : List AggCluster} {s : String},
    (∀ d ∈ l, d.signature ≠ s) → sigCount l s = 0
  | [], _, _ => rfl
  | d :: rest, s, h => by
    have h1 : d.signature ≠ s := h d (List.mem_cons_self d rest)
    have h2 : sigCount rest s = 0 :=
      sigCount_eq_zero fun e he => h e (List.mem_cons_of_mem _ he)
    simp only [sigCount, List.filter_cons, decide_eq_true_eq, if_neg h1] at h2 ⊢
    exact h2

theorem updateCount_map_sig (s : String) (k : Int) :
    ∀ acc : List AggCluster,
      (updateCount acc s k).map AggCluster.signature =
        acc.map AggCluster.signature
  | [] => rfl
  | d :: rest => by
    unfold updateCount
    split
    · simp
    · simp [updateCount_map_sig s k rest]

theorem updateCount_mem {acc : List AggCluster} {s : String} {k : Int}
    (hn : (acc.map AggCluster.signature).Nodup) :
    ∀ e ∈ updateCount acc s k,
      (e ∈ acc ∧ e.signature ≠ s) ∨
        ∃ d ∈ acc, d.signature = s ∧ e = ⟨s, d.count + k⟩ := by
  induction acc with
  | nil => intro e he; cases he
  | cons d rest ih =>
    intro e he
    rw [List.map_cons, List.nodup_cons] at hn
    unfold updateCount at he
    by_cases hd : d.signature = s
    · rw [if_pos hd] at he
      rcases List.mem_cons.mp he with h | h
      · right
        exact ⟨d, List.mem_cons_self d rest, hd, by rw [h, hd]⟩
      · left
        refine ⟨List.mem_cons_of_mem _ h, fun hes => ?_⟩
        exact hn.1 (hd ▸ hes ▸ List.mem_map_of_mem AggCluster.signature h)
    · rw [if_neg hd] at he
      rcases List.mem_cons.mp he with h | h
      · left
        exact ⟨h ▸ List.mem_cons_self d rest, h ▸ hd⟩
      · rcases ih hn.2 e h with ⟨h1, h2⟩ | ⟨d', hd', h1, h2⟩
        · exact .inl ⟨List.mem_cons_of_mem _ h1, h2⟩
        · exact .inr ⟨d', List.mem_cons_of_mem _ hd', h1, h2⟩

theorem mergeInv_step {pref acc : List AggCluster} (h : mergeInv pref acc)
    (c : AggCluster) : mergeInv (pref ++ [c]) (addCluster acc c) := by
  obtain ⟨hnd, hcnt, hcov⟩ := h
  unfold addCluster
  split
  · rename_i hsig
    refine ⟨hnd, ?_, ?_⟩
    · intro e he
      obtain ⟨h1, h2⟩ := hcnt e he
      refine ⟨h1, ?_⟩
      rw [sigCount_append, sigCount_single,
        if_neg (fun hh => h1 (hsig ▸ hh.symm)), add_zero]
      exact h2
    · intro d hd
      rcases List.mem_append.mp hd with h | h
      · exact hcov d h
      · exact .inl (by rw [List.mem_singleton.mp h, hsig])
  · rename_i hsig
    split
    · rename_i hmem
      obtain ⟨d0, hd0, hd0s⟩ := List.any_eq_true.mp hmem
      have hd0s : d0.signature = c.signature := of_decide_eq_true hd0s
      refine ⟨?_, ?_, ?_⟩
      · rw [updateCount_map_sig]; exact hnd
      · intro e he
        rcases updateCount_mem hnd e he with ⟨h1, h2⟩ | ⟨d, hd, hds, he'⟩
        · obtain ⟨h3, h4⟩ := hcnt e h1
          refine ⟨h3, ?_⟩
          rw [sigCount_append, sigCount_single,
            if_neg (fun hh => h2 hh.symm), add_zero]
          exact h4
        · subst he'
          refine ⟨hsig, ?_⟩
          rw [sigCount_append, sigCount_single, if_pos rfl]
          exact congrArg (· + c.count) ((hds ▸ (hcnt d hd).2 :))
      · intro d hd
        rcases List.mem_append.mp hd with h | h
        · rcases hcov d h with h1 | h1
          · exact .inl h1
          · exact .inr (by rw [updateCount_map_sig]; exact h1)
        · refine .inr ?_
          rw [updateCount_map_sig, List.mem_singleton.mp h]
          exact hd0s ▸ List.mem_map_of_mem AggCluster.signature hd0
    · rename_i hmem
      have hnotin : c.signature ∉ acc.map AggCluster.signature := by
        intro hin
        obtain ⟨d, hd, hds⟩ := List.mem_map.mp hin
        exact hmem (List.any_eq_true.mpr ⟨d, hd, decide_eq_true hds⟩)
      refine ⟨?_, ?_, ?_⟩
      · rw [List.map_append, List.nodup_append]
        refine ⟨hnd, List.nodup_singleton _, ?_⟩
        intro a ha hb
        rw [List.map_singleton, List.mem_singleton] at hb
        exact hnotin (hb ▸ ha)
      · intro e he
        rcases List.mem_append.mp he with h | h
        · obtain ⟨h1, h2⟩ := hcnt e h
          have hne : c.signature ≠ e.signature := fun hh =>
            hnotin (hh ▸ List.mem_map_of_mem AggCluster.signature h)
          refine ⟨h1, ?_⟩
          rw [sigCount_append, sigCount_single, if_neg hne, add_zero]
          exact h2
        · rw [List.mem_singleton.mp h]
          refine ⟨hsig, ?_⟩
          rw [sigCount_append, sigCount_single, if_pos rfl,
            sigCount_eq_zero (fun d hd => ?_), zero_add]
          rcases hcov d hd with h1 | h1
          · exact fun hh => hsig (hh ▸ h1)
          · exact fun hh => hnotin (hh ▸ h1)
      · intro d hd
        rcases List.mem_append.mp hd with h | h
        · rcases hcov d h with h1 | h1
          · exact .inl h1
          · exact .inr (by rw [List.map_append]; exact List.mem_append_left _ h1)
        · refine .inr ?_
          rw [List.mem_singleton.mp h, List.map_append]
          exact List.mem_append_right _ (by simp)

theorem mergeInv_foldl :
    ∀ (l : List AggCluster) {pref acc : List AggCluster}, mergeInv pref acc →
      mergeInv (pref ++ l) (l.foldl addCluster acc)
  | [], _, _, h => by simpa using h
  | c :: l, pref, acc, h => by
    have h2 := mergeInv_foldl l (mergeInv_step h c)
    simpa [List.append_assoc] using h2

theorem mergeLoop_eq_foldl :
    ∀ (records : List (Option (List AggCluster))) (acc : List AggCluster),
      records.foldl (fun acc r => match r with
        | none => acc
        | some cs => cs.foldl addCluster acc) acc =
      ((records.filterMap id).flatten).foldl addCluster acc
  | [], _ => rfl
  | none :: rs, acc => by
    simpa using mergeLoop_eq_foldl rs acc
  | some cs :: rs, acc => by
    simpa [List.foldl_append] using mergeLoop_eq_foldl rs (cs.foldl addCluster acc)

theorem perm_insertAggDesc (c : AggCluster) :
    ∀ l : List AggCluster, List.Perm (insertAggDesc c l) (c :: l)
  | [] => List.Perm.refl _
  | d :: rest => by
    unfold insertAggDesc
    split
    · exact List.Perm.refl _
    · exact ((perm_insertAggDesc c rest).cons d).trans (List.Perm.swap c d rest)

theorem perm_foldl_insertAggDesc :
    ∀ (l acc : List AggCluster),
      List.Perm (l.foldl (fun a c => insertAggDesc c a) acc) (l ++ acc)
  | [], _ => List.Perm.refl _
  | c :: l, acc => by
    simp only [List.foldl_cons, List.cons_append]
    exact (perm_foldl_insertAggDesc l (insertAggDesc c acc)).trans
      (((perm_insertAggDesc c acc).append_left l).trans List.perm_middle)

theorem perm_sortAggDesc (l : List AggCluster) : List.Perm (sortAggDesc l) l := by
  simpa [sortAggDesc] using perm_foldl_insertAggDesc l []

theorem chain_insertAggDesc (c : AggCluster) :
    ∀ l : List AggCluster,
      List.Chain' (fun a b => b.count ≤ a.count) l →
      List.Chain' (fun a b => b.count ≤ a.count) (insertAggDesc c l)
  | [], _ => List.chain'_singleton c
  | d :: rest, h => by
    unfold insertAggDesc
    split
    · rename_i hlt
      exact List.Chain'.cons (le_of_lt hlt) h
    · rename_i hge
      rw [List.chain'_cons'] at h
      have hrec := chain_insertAggDesc c rest h.2
      rw [List.chain'_cons']
      refine ⟨?_, hrec⟩
      intro y hy
      cases rest with
      | nil =>
        simp only [insertAggDesc, List.head?_cons, Option.mem_def,
          Option.some.injEq] at hy
        rw [← hy]
        exact le_of_not_lt hge
      | cons e rest' =>
        unfold insertAggDesc at hy
        split at hy
        · simp only [List.head?_cons, Option.mem_def, Option.some.injEq] at hy
          rw [← hy]
          exact le_of_not_lt hge
        · simp only [List.head?_cons, Option.mem_def, Option.some.injEq] at hy
          rw [← hy]
          exact h.1 e rfl

theorem chain_foldl_insertAggDesc :
    ∀ (l acc : List AggCluster),
      List.Chain' (fun a b => b.count ≤ a.count) acc →
      List.Chain' (fun a b => b.count ≤ a.count)
        (l.foldl (fun a c => insertAggDesc c a) acc)
  | [], _, h => h
  | c :: l, acc, h =>
    chain_foldl_insertAggDesc l _ (chain_insertAggDesc c acc h)

/-- **C8.** For every batch of SQS records (a decode failure is `none` and
is skipped whole), the merged digest's cluster list has pairwise-distinct
non-empty signatures, each cluster's count is the sum of the counts of
its signature over all decoded inputs, and the list is sorted by count
descending. -/
theorem aggregator_merge_invariants (records : List (Option (List AggCluster))) :
    ((merge_analysis_results records).map AggCluster.signature).Nodup ∧
    (∀ c ∈ merge_analysis_results records,
        c.signature ≠ "" ∧
        c.count = sigCount ((records.filterMap id).flatten) c.signature) ∧
    List.Chain' (fun a b => b.count ≤ a.count) (merge_analysis_results records) := by
  have hbase : mergeInv [] [] :=
    ⟨List.nodup_nil, fun c hc => absurd hc (List.not_mem_nil c),
      fun d hd => absurd hd (List.not_mem_nil d)⟩
  have hinv := mergeInv_foldl ((records.filterMap id).flatten) hbase
  rw [List.nil_append] at hinv
  have hperm : List.Perm (merge_analysis_results records)
      (((records.filterMap id).flatten).foldl addCluster []) := by
    have heq : mergeLoop records =
        ((records.filterMap id).flatten).foldl addCluster [] := by
      unfold mergeLoop
      exact mergeLoop_eq_foldl records []
    unfold merge_analysis_results
    rw [heq]
    exact perm_sortAggDesc _
  obtain ⟨hnd, hcnt, _⟩ := hinv
  refine ⟨?_, ?_, ?_⟩
  · exact ((hperm.map AggCluster.signature).nodup_iff).mpr hnd
  · intro c hc
    exact hcnt c (hperm.mem_iff.mp hc)
  · unfold merge_analysis_results sortAggDesc
    exact chain_foldl_insertAggDesc _ [] List.chain'_nil

/-! ### C4 — list utilities for the scanner lemmas -/

theorem takeWhile_append_stop {p : Char → Bool} :
    ∀ (w : List Char) (rest : List Char), (∃ c ∈ w, p c = false) →
      (w ++ rest).takeWhile p = w.takeWhile p ∧
      (w ++ rest).dropWhile p = w.dropWhile p ++ rest ∧ w.dropWhile p ≠ []
  | [], _, h => absurd h (by simp)
  | c :: w', rest, h => by
    by_cases hc : p c
    · simp only [List.cons_append, List.takeWhile_cons, List.dropWhile_cons, hc,
        if_true]
      obtain ⟨d, hd, hdp⟩ := h
      rcases List.mem_cons.mp hd with rfl | hd'
      · rw [hc] at hdp; cases hdp
      · obtain ⟨h1, h2, h3⟩ := takeWhile_append_stop w' rest ⟨d, hd', hdp⟩
        exact ⟨by rw [h1], by rw [h2], h3⟩
    · rw [Bool.not_eq_true] at hc
      simp [List.takeWhile_cons, List.dropWhile_cons, hc]

theorem takeWhile_append_all {p : Char → Bool} :
    ∀ (w : List Char) (rest : List Char), w.all p = true →
      (w ++ rest).takeWhile p = w ++ rest.takeWhile p ∧
      (w ++ rest).dropWhile p = rest.dropWhile p
  | [], _, _ => ⟨rfl, rfl⟩
  | c :: w', rest, h => by
    rw [List.all_cons, Bool.and_eq_true] at h
    obtain ⟨h1, h2⟩ := takeWhile_append_all w' rest h.2
    simp [List.takeWhile_cons, List.dropWhile_cons, h.1, h1, h2]

theorem getLast_suffix_space (l₁ : List Char) {l₂ : List Char} (h : l₂ ≠ [])
    (hl : (l₁ ++ l₂).getLast? = some ' ') : l₂.getLast? = some ' ' := by
  rw [List.getLast?_append] at hl
  rcases hx : l₂.getLast? with _ | c
  · exact absurd (List.getLast?_eq_none_iff.mp hx) h
  · rw [hx] at hl
    simpa [Option.or] using hl

/-! ### C4 — scanner skip absorption and space entry -/

theorem subNumGo_skip : ∀ (w : List Char) (pw : Bool) (rest : List Char),
    w ≠ [] → subNumGo pw w.length (w ++ rest) = subNumGo true 0 rest
  | [], _, _, h => absurd rfl h
  | c :: w', pw, rest, _ => by
    rw [List.length_cons, List.cons_append]
    show subNumGo true w'.length (w' ++ rest) = subNumGo true 0 rest
    cases w' with
    | nil => rfl
    | cons d w'' => exact subNumGo_skip (d :: w'') true rest (by simp)

theorem subHexGo_skip : ∀ (w : List Char) (pw : Bool) (rest : List Char),
    w ≠ [] → subHexGo pw w.length (w ++ rest) = subHexGo true 0 rest
  | [], _, _, h => absurd rfl h
  | c :: w', pw, rest, _ => by
    rw [List.length_cons, List.cons_append]
    show subHexGo true w'.length (w' ++ rest) = subHexGo true 0 rest
    cases w' with
    | nil => rfl
    | cons d w'' => exact subHexGo_skip (d :: w'') true rest (by simp)

theorem subIpGo_skip : ∀ (w : List Char) (pw : Bool) (rest : List Char),
    w ≠ [] → subIpGo pw w.length (w ++ rest) = subIpGo true 0 rest
  | [], _, _, h => absurd rfl h
  | c :: w', pw, rest, _ => by
    rw [List.length_cons, List.cons_append]
    show subIpGo true w'.length (w' ++ rest) = subIpGo true 0 rest
    cases w' with
    | nil => rfl
    | cons d w'' => exact subIpGo_skip (d :: w'') true rest (by simp)

theorem subUuidGo_skip : ∀ (w : List Char) (pw : Bool) (rest : List Char),
    w ≠ [] → subUuidGo pw w.length (w ++ rest) = subUuidGo true 0 rest
  | [], _, _, h => absurd rfl h
  | c :: w', pw, rest, _ => by
    rw [List.length_cons, List.cons_append]
    show subUuidGo true w'.length (w' ++ rest) = subUuidGo true 0 rest
    cases w' with
    | nil => rfl
    | cons d w'' => exact subUuidGo_skip (d :: w'') true rest (by simp)

theorem subNumGo_space (pw : Bool) (r : List Char) :
    subNumGo pw 0 (' ' :: r) = ' ' :: subNumGo false 0 r := by
  conv_lhs => rw [subNumGo.eq_def]
  simp [isDigitC, isWordC]

theorem subHexGo_space (pw : Bool) (r : List Char) :
    subHexGo pw 0 (' ' :: r) = ' ' :: subHexGo false 0 r := by
  conv_lhs => rw [subHexGo.eq_def]
  simp [isWordC]

theorem subIpGo_space (pw : Bool) (r : List Char) :
    subIpGo pw 0 (' ' :: r) = ' ' :: subIpGo false 0 r := by
  conv_lhs => rw [subIpGo.eq_def]
  simp [isDigitC, isWordC]

theorem subUuidGo_space (pw : Bool) (r : List Char) :
    subUuidGo pw 0 (' ' :: r) = ' ' :: subUuidGo false 0 r := by
  conv_lhs => rw [subUuidGo.eq_def]
  simp [isHexC, isWordC]

/-! ### C4 — one-step equations for the scanners -/

theorem subNumGo_cons (pw : Bool) (c : Char) (rest : List Char) :
    subNumGo pw 0 (c :: rest) =
      if !pw && isDigitC c then
        let run := (c :: rest).takeWhile isDigitC
        if (numRest rest).isEmpty || !isWordC ((numRest rest).headD ' ') then
          "<num>".data ++ subNumGo true (run.length - 1) rest
        else run ++ subNumGo true (run.length - 1) rest
      else c :: subNumGo (isWordC c) 0 rest := rfl

theorem subHexGo_cons (pw : Bool) (c : Char) (rest : List Char) :
    subHexGo pw 0 (c :: rest) =
      if !pw && c = '0' && rest.headD ' ' = 'x' &&
          !(rest.tail.takeWhile isHexC).isEmpty &&
          ((hexRest rest).isEmpty || !isWordC ((hexRest rest).headD ' ')) then
        "<hex>".data ++ subHexGo true (rest.length - (hexRest rest).length) rest
      else c :: subHexGo (isWordC c) 0 rest := rfl

theorem subIpGo_cons (pw : Bool) (c : Char) (rest : List Char) :
    subIpGo pw 0 (c :: rest) =
      if !pw && isDigitC c && tryIpB (c :: rest) then
        "<ip>".data ++
          subIpGo true ((c :: rest).length - (ipRest (c :: rest)).length - 1) rest
      else c :: subIpGo (isWordC c) 0 rest := rfl

theorem subUuidGo_cons (pw : Bool) (c : Char) (rest : List Char) :
    subUuidGo pw 0 (c :: rest) =
      if !pw && isHexC c && tryUuidB (c :: rest) then
        "<uuid>".data ++
          subUuidGo true ((c :: rest).length - (uuidRest (c :: rest)).length - 1) rest
      else c :: subUuidGo (isWordC c) 0 rest := rfl

/-! ### C4 — character classes and inert single steps -/

theorem digit_isHex {c : Char} (h : isDigitC c = true) : isHexC c = true := by
  unfold isHexC
  unfold isDigitC at h
  rw [h, Bool.true_or, Bool.true_or]

theorem all_digit_hex {w : List Char} (h : w.all isDigitC = true) :
    w.all isHexC = true := by
  rw [List.all_eq_true] at h ⊢
  exact fun c hc => digit_isHex (h c hc)

theorem ver_isDigit {x : Char} (h1 : '1' ≤ x) (h2 : x ≤ '5') :
    isDigitC x = true := by
  rw [Char.le_def] at h1 h2
  have n1 : (49 : Nat) ≤ x.val.toNat := h1
  have n2 : x.val.toNat ≤ 53 := h2
  unfold isDigitC Char.isDigit
  simp only [Bool.and_eq_true, decide_eq_true_eq]
  constructor
  · show (48 : Nat) ≤ x.val.toNat
    omega
  · show x.val.toNat ≤ (57 : Nat)
    omega

theorem subNumGo_char (pw : Bool) (c : Char) (r : List Char)
    (hc : isDigitC c = false) :
    subNumGo pw 0 (c :: r) = c :: subNumGo (isWordC c) 0 r := by
  rw [subNumGo_cons, if_neg]
  simp [hc]

theorem subHexGo_char (pw : Bool) (c : Char) (r : List Char)
    (hc : c ≠ '0') :
    subHexGo pw 0 (c :: r) = c :: subHexGo (isWordC c) 0 r := by
  rw [subHexGo_cons, if_neg]
  simp [hc]

theorem subIpGo_char (pw : Bool) (c : Char) (r : List Char)
    (hc : isDigitC c = false) :
    subIpGo pw 0 (c :: r) = c :: subIpGo (isWordC c) 0 r := by
  rw [subIpGo_cons, if_neg]
  simp [hc]

theorem subUuidGo_char (pw : Bool) (c : Char) (r : List Char)
    (hc : isHexC c = false) :
    subUuidGo pw 0 (c :: r) = c :: subUuidGo (isWordC c) 0 r := by
  rw [subUuidGo_cons, if_neg]
  simp [hc]

theorem dropWhile_of_takeWhile_nil {p : Char → Bool} {l : List Char}
    (h : l.takeWhile p = []) : l.dropWhile p = l := by
  cases l with
  | nil => rfl
  | cons c r =>
    rw [List.takeWhile_cons] at h
    by_cases hc : p c = true
    · rw [if_pos hc] at h; cases h
    · rw [List.dropWhile_cons, if_neg hc]

theorem mem_dropWhile_nonp {p : Char → Bool} {x : Char} :
    ∀ {w : List Char}, x ∈ w → p x = false → x ∈ w.dropWhile p
  | [], hx, _ => absurd hx (List.not_mem_nil x)
  | c :: w', hx, hp => by
    rw [List.dropWhile_cons]
    by_cases hc : p c = true
    · rw [if_pos hc]
      rcases List.mem_cons.mp hx with rfl | h
      · rw [hp] at hc; cases hc
      · exact mem_dropWhile_nonp h hp
    · rw [if_neg hc]
      exact hx

/-! ### C4 — run traversal under the hex scanner -/

theorem subHexGo_run : ∀ (w : List Char) (pw : Bool) (rest : List Char),
    w.all isHexC = true → rest.headD ' ' ≠ 'x' → w ≠ [] →
      ∃ pw', subHexGo pw 0 (w ++ rest) = w ++ subHexGo pw' 0 rest
  | [], _, _, _, _, h => absurd rfl h
  | [c], pw, rest, _, hx, _ => by
    rw [List.cons_append, List.nil_append, subHexGo_cons, if_neg]
    · exact ⟨isWordC c, rfl⟩
    · simp only [Bool.and_eq_true, decide_eq_true_eq]
      rintro ⟨⟨⟨⟨-, -⟩, h3⟩, -⟩, -⟩
      exact hx h3
  | c :: d :: w'', pw, rest, hall, hx, _ => by
    simp only [List.all_cons, Bool.and_eq_true] at hall
    have hd : d ≠ 'x' := by
      intro h
      have hh := hall.2.1
      rw [h] at hh
      exact absurd hh (by decide)
    rw [List.cons_append, subHexGo_cons, if_neg]
    · obtain ⟨pw', hp⟩ := subHexGo_run (d :: w'') (isWordC c) rest
        (by simp [hall.2.1, hall.2.2]) hx (by simp)
      exact ⟨pw', by rw [hp]; simp⟩
    · simp only [Bool.and_eq_true, decide_eq_true_eq]
      rintro ⟨⟨⟨⟨-, -⟩, h3⟩, -⟩, -⟩
      rw [List.cons_append, List.headD_cons] at h3
      exact hd h3

/-! ### C4 — run traversal under the IPv4 and UUID scanners -/

theorem tryIpB_run_false {w rest : List Char} (hall : w.all isDigitC = true)
    (ht : rest.takeWhile isDigitC = []) (hd : rest.headD ' ' ≠ '.') :
    tryIpB (w ++ rest) = false := by
  obtain ⟨h1, h2⟩ := takeWhile_append_all w rest hall
  rw [List.headD_eq_head?_getD] at hd
  unfold tryIpB
  rw [h2, dropWhile_of_takeWhile_nil ht]
  simp [hd]

theorem subIpGo_run : ∀ (w : List Char) (pw : Bool) (rest : List Char),
    w.all isDigitC = true → rest.takeWhile isDigitC = [] →
    rest.headD ' ' ≠ '.' → w ≠ [] →
      ∃ pw', subIpGo pw 0 (w ++ rest) = w ++ subIpGo pw' 0 rest
  | [], _, _, _, _, _, h => absurd rfl h
  | [c], pw, rest, hall, ht, hd, _ => by
    have htry : tryIpB ([c] ++ rest) = false := tryIpB_run_false hall ht hd
    simp only [List.cons_append, List.nil_append] at htry ⊢
    rw [subIpGo_cons, if_neg]
    · exact ⟨isWordC c, rfl⟩
    · simp [htry]
  | c :: d :: w'', pw, rest, hall, ht, hd, _ => by
    have htry : tryIpB ((c :: d :: w'') ++ rest) = false :=
      tryIpB_run_false hall ht hd
    simp only [List.cons_append] at htry
    simp only [List.all_cons, Bool.and_eq_true] at hall
    rw [List.cons_append, subIpGo_cons, if_neg]
    · obtain ⟨pw', hp⟩ := subIpGo_run (d :: w'') (isWordC c) rest
        (by simp [hall.2.1, hall.2.2]) ht hd (by simp)
      exact ⟨pw', by rw [hp]; simp⟩
    · simp [htry]

theorem tryUuidB_run_false {w rest : List Char} (hall : w.all isHexC = true)
    (ht : rest.takeWhile isHexC = []) (hd : rest.headD ' ' ≠ '-') :
    tryUuidB (w ++ rest) = false := by
  obtain ⟨h1, h2⟩ := takeWhile_append_all w rest hall
  rw [List.headD_eq_head?_getD] at hd
  unfold tryUuidB
  rw [h1, ht, List.append_nil, h2, dropWhile_of_takeWhile_nil ht]
  by_cases h8 : w.length = 8
  · simp [hd]
  · simp [h8]

theorem subUuidGo_run : ∀ (w : List Char) (pw : Bool) (rest : List Char),
    w.all isHexC = true → rest.takeWhile isHexC = [] →
    rest.headD ' ' ≠ '-' → w ≠ [] →
      ∃ pw', subUuidGo pw 0 (w ++ rest) = w ++ subUuidGo pw' 0 rest
  | [], _, _, _, _, _, h => absurd rfl h
  | [c], pw, rest, hall, ht, hd, _ => by
    have htry : tryUuidB ([c] ++ rest) = false := tryUuidB_run_false hall ht hd
    simp only [List.cons_append, List.nil_append] at htry ⊢
    rw [subUuidGo_cons, if_neg]
    · exact ⟨isWordC c, rfl⟩
    · simp [htry]
  | c :: d :: w'', pw, rest, hall, ht, hd, _ => by
    have htry : tryUuidB ((c :: d :: w'') ++ rest) = false :=
      tryUuidB_run_false hall ht hd
    simp only [List.cons_append] at htry
    simp only [List.all_cons, Bool.and_eq_true] at hall
    rw [List.cons_append, subUuidGo_cons, if_neg]
    · obtain ⟨pw', hp⟩ := subUuidGo_run (d :: w'') (isWordC c) rest
        (by simp [hall.2.1, hall.2.2]) ht hd (by simp)
      exact ⟨pw', by rw [hp]; simp⟩
    · simp [htry]

/-! ### C4 — the four tags pass every scanner verbatim -/

theorem subNumGo_tag (s : List Char) (hs : s ∈ tagStrs) (pw : Bool)
    (rest : List Char) :
    subNumGo pw 0 (s ++ rest) = s ++ subNumGo false 0 rest := by
  fin_cases hs <;> simp [subNumGo_cons, isDigitC, isWordC, String.data]

theorem subHexGo_tag (s : List Char) (hs : s ∈ tagStrs) (pw : Bool)
    (rest : List Char) :
    subHexGo pw 0 (s ++ rest) = s ++ subHexGo false 0 rest := by
  fin_cases hs <;> simp [subHexGo_cons, isWordC, String.data]

theorem subIpGo_tag (s : List Char) (hs : s ∈ tagStrs) (pw : Bool)
    (rest : List Char) :
    subIpGo pw 0 (s ++ rest) = s ++ subIpGo false 0 rest := by
  fin_cases hs <;> simp [subIpGo_cons, isDigitC, isWordC, String.data]

theorem subUuidGo_tag (s : List Char) (hs : s ∈ tagStrs) (pw : Bool)
    (rest : List Char) :
    subUuidGo pw 0 (s ++ rest) = s ++ subUuidGo false 0 rest := by
  fin_cases hs <;> simp [subUuidGo_cons, isHexC, isWordC, String.data]

/-! ### C4 — digit-free literal text passes every scanner verbatim -/

theorem tryUuidB_nodigit_false (w rest : List Char)
    (hall : (w.all fun c => !isDigitC c) = true)
    (hdisj : rest = [] ∨ w.getLast? = some ' ') (_hne : w ≠ []) :
    tryUuidB (w ++ rest) = false := by
  by_contra hcb
  rw [Bool.not_eq_false] at hcb
  rw [List.all_eq_true] at hall
  have hnd : ∀ x ∈ w, isDigitC x = false := by
    intro x hx
    have hh := hall x hx
    rwa [Bool.not_eq_true'] at hh
  unfold tryUuidB at hcb
  simp only [Bool.and_eq_true, decide_eq_true_eq] at hcb
  obtain ⟨⟨-, hdash1⟩, ⟨-, hdash2⟩, ⟨⟨-, hv1, hv5⟩, -⟩, -⟩ := hcb
  rcases hdisj with rfl | hlast
  · rw [List.append_nil] at hv1 hv5
    have hsuf : ((w.dropWhile isHexC).tail.dropWhile isHexC).tail <:+ w :=
      ((List.tail_suffix _).trans (List.dropWhile_suffix _)).trans
        ((List.tail_suffix _).trans (List.dropWhile_suffix _))
    rcases hx : ((w.dropWhile isHexC).tail.dropWhile isHexC).tail with _ | ⟨x, xs⟩
    · rw [hx, List.headD_nil] at hv1 hv5
      exact absurd (ver_isDigit hv1 hv5) (by decide)
    · rw [hx, List.headD_cons] at hv1 hv5
      have hxw : x ∈ w := hsuf.sublist.mem (hx ▸ List.mem_cons_self x xs)
      exact absurd (ver_isDigit hv1 hv5) (by simp [hnd x hxw])
  · have hsp : ' ' ∈ w := List.mem_of_mem_getLast? hlast
    obtain ⟨-, hd1, hn1⟩ :=
      takeWhile_append_stop w rest ⟨' ', hsp, (by decide : isHexC ' ' = false)⟩
    rw [hd1] at hdash1 hdash2 hv1 hv5
    obtain ⟨d₁, t₁, he1⟩ : ∃ d t, w.dropWhile isHexC = d :: t := by
      rcases hq : w.dropWhile isHexC with _ | ⟨d, t⟩
      · exact absurd hq hn1
      · exact ⟨d, t, rfl⟩
    rw [he1, List.cons_append, List.headD_cons] at hdash1
    rw [he1, List.cons_append, List.tail_cons] at hdash2 hv1 hv5
    have hspt1 : ' ' ∈ t₁ := by
      have h1 : ' ' ∈ w.dropWhile isHexC := mem_dropWhile_nonp hsp (by decide)
      rw [he1] at h1
      rcases List.mem_cons.mp h1 with h | h
      · rw [hdash1] at h; cases h
      · exact h
    have ht1w : ∀ x ∈ t₁, x ∈ w := by
      intro x hx
      have hsub : t₁ <:+ w := by
        have h2 : t₁ <:+ w.dropWhile isHexC := by
          rw [he1]; exact List.tail_suffix (d₁ :: t₁)
        exact h2.trans (List.dropWhile_suffix _)
      exact hsub.sublist.mem hx
    obtain ⟨-, hd2, hn2⟩ :=
      takeWhile_append_stop t₁ rest ⟨' ', hspt1, (by decide : isHexC ' ' = false)⟩
    rw [hd2] at hdash2 hv1 hv5
    obtain ⟨d₂, t₂, he2⟩ : ∃ d t, t₁.dropWhile isHexC = d :: t := by
      rcases hq : t₁.dropWhile isHexC with _ | ⟨d, t⟩
      · exact absurd hq hn2
      · exact ⟨d, t, rfl⟩
    rw [he2, List.cons_append, List.headD_cons] at hdash2
    rw [he2, List.cons_append, List.tail_cons] at hv1 hv5
    have hspt2 : ' ' ∈ t₂ := by
      have h1 : ' ' ∈ t₁.dropWhile isHexC := mem_dropWhile_nonp hspt1 (by decide)
      rw [he2] at h1
      rcases List.mem_cons.mp h1 with h | h
      · rw [hdash2] at h; cases h
      · exact h
    have ht2w : ∀ x ∈ t₂, x ∈ w := by
      intro x hx
      apply ht1w
      have hsub : t₂ <:+ t₁ := by
        have h2 : t₂ <:+ t₁.dropWhile isHexC := by
          rw [he2]; exact List.tail_suffix (d₂ :: t₂)
        exact h2.trans (List.dropWhile_suffix _)
      exact hsub.sublist.mem hx
    cases t₂ with
    | nil => cases hspt2
    | cons x xs =>
      rw [List.cons_append, List.headD_cons] at hv1 hv5
      exact absurd (ver_isDigit hv1 hv5)
        (by simp [hnd x (ht2w x (List.mem_cons_self x xs))])

theorem subNumGo_lit : ∀ (w : List Char) (pw : Bool) (rest : List Char),
    (w.all fun c => !isDigitC c) = true → (rest = [] ∨ w.getLast? = some ' ') →
      subNumGo pw 0 (w ++ rest) = w ++ subNumGo false 0 rest
  | [], pw, rest, _, hdisj => by
    rcases hdisj with rfl | hlast
    · rfl
    · cases hlast
  | [c], pw, rest, hall, hdisj => by
    simp only [List.all_cons, List.all_nil, Bool.and_eq_true,
      Bool.not_eq_true'] at hall
    rw [List.cons_append, List.nil_append, subNumGo_char pw c _ hall.1]
    rcases hdisj with rfl | hlast
    · rfl
    · simp only [List.getLast?_singleton, Option.some.injEq] at hlast
      rw [hlast]
      rfl
  | c :: d :: w'', pw, rest, hall, hdisj => by
    simp only [List.all_cons, Bool.and_eq_true, Bool.not_eq_true'] at hall
    rw [List.cons_append, subNumGo_char pw c _ hall.1]
    have hrec := subNumGo_lit (d :: w'') (isWordC c) rest
      (by simp only [List.all_cons, Bool.and_eq_true, Bool.not_eq_true']
          exact hall.2)
      (by
        rcases hdisj with rfl | hlast
        · exact .inl rfl
        · exact .inr (getLast_suffix_space [c] (by simp) (by simpa using hlast)))
    rw [hrec]
    simp

theorem subHexGo_lit : ∀ (w : List Char) (pw : Bool) (rest : List Char),
    (w.all fun c => !isDigitC c) = true → (rest = [] ∨ w.getLast? = some ' ') →
      subHexGo pw 0 (w ++ rest) = w ++ subHexGo false 0 rest
  | [], pw, rest, _, hdisj => by
    rcases hdisj with rfl | hlast
    · rfl
    · cases hlast
  | [c], pw, rest, hall, hdisj => by
    simp only [List.all_cons, List.all_nil, Bool.and_eq_true,
      Bool.not_eq_true'] at hall
    have hc0 : c ≠ '0' := by
      intro h
      rw [h] at hall
      exact absurd hall.1 (by decide)
    rw [List.cons_append, List.nil_append, subHexGo_char pw c _ hc0]
    rcases hdisj with rfl | hlast
    · rfl
    · simp only [List.getLast?_singleton, Option.some.injEq] at hlast
      rw [hlast]
      rfl
  | c :: d :: w'', pw, rest, hall, hdisj => by
    simp only [List.all_cons, Bool.and_eq_true, Bool.not_eq_true'] at hall
    have hc0 : c ≠ '0' := by
      intro h
      rw [h] at hall
      exact absurd hall.1 (by decide)
    rw [List.cons_append, subHexGo_char pw c _ hc0]
    have hrec := subHexGo_lit (d :: w'') (isWordC c) rest
      (by simp only [List.all_cons, Bool.and_eq_true, Bool.not_eq_true']
          exact hall.2)
      (by
        rcases hdisj with rfl | hlast
        · exact .inl rfl
        · exact .inr (getLast_suffix_space [c] (by simp) (by simpa using hlast)))
    rw [hrec]
    simp

theorem subIpGo_lit : ∀ (w : List Char) (pw : Bool) (rest : List Char),
    (w.all fun c => !isDigitC c) = true → (rest = [] ∨ w.getLast? = some ' ') →
      subIpGo pw 0 (w ++ rest) = w ++ subIpGo false 0 rest
  | [], pw, rest, _, hdisj => by
    rcases hdisj with rfl | hlast
    · rfl
    · cases hlast
  | [c], pw, rest, hall, hdisj => by
    simp only [List.all_cons, List.all_nil, Bool.and_eq_true,
      Bool.not_eq_true'] at hall
    rw [List.cons_append, List.nil_append, subIpGo_char pw c _ hall.1]
    rcases hdisj with rfl | hlast
    · rfl
    · simp only [List.getLast?_singleton, Option.some.injEq] at hlast
      rw [hlast]
      rfl
  | c :: d :: w'', pw, rest, hall, hdisj => by
    simp only [List.all_cons, Bool.and_eq_true, Bool.not_eq_true'] at hall
    rw [List.cons_append, subIpGo_char pw c _ hall.1]
    have hrec := subIpGo_lit (d :: w'') (isWordC c) rest
      (by simp only [List.all_cons, Bool.and_eq_true, Bool.not_eq_true']
          exact hall.2)
      (by
        rcases hdisj with rfl | hlast
        · exact .inl rfl
        · exact .inr (getLast_suffix_space [c] (by simp) (by simpa using hlast)))
    rw [hrec]
    simp

theorem subUuidGo_lit : ∀ (w : List Char) (pw : Bool) (rest : List Char),
    (w.all fun c => !isDigitC c) = true → (rest = [] ∨ w.getLast? = some ' ') →
      subUuidGo pw 0 (w ++ rest) = w ++ subUuidGo false 0 rest
  | [], pw, rest, _, hdisj => by
    rcases hdisj with rfl | hlast
    · rfl
    · cases hlast
  | [c], pw, rest, hall, hdisj => by
    have htry : tryUuidB ([c] ++ rest) = false :=
      tryUuidB_nodigit_false [c] rest hall hdisj (by simp)
    simp only [List.cons_append, List.nil_append] at htry ⊢
    rw [subUuidGo_cons, if_neg (by simp [htry])]
    rcases hdisj with rfl | hlast
    · rfl
    · simp only [List.getLast?_singleton, Option.some.injEq] at hlast
      rw [hlast]
      rfl
  | c :: d :: w'', pw, rest, hall, hdisj => by
    have htry : tryUuidB ((c :: d :: w'') ++ rest) = false :=
      tryUuidB_nodigit_false (c :: d :: w'') rest hall hdisj (by simp)
    simp only [List.cons_append] at htry
    rw [List.cons_append, subUuidGo_cons, if_neg (by simp [htry])]
    simp only [List.all_cons, Bool.and_eq_true, Bool.not_eq_true'] at hall
    have hrec := subUuidGo_lit (d :: w'') (isWordC c) rest
      (by simp only [List.all_cons, Bool.and_eq_true, Bool.not_eq_true']
          exact hall.2)
      (by
        rcases hdisj with rfl | hlast
        · exact .inl rfl
        · exact .inr (getLast_suffix_space [c] (by simp) (by simpa using hlast)))
    rw [hrec]
    simp

/-! ### C4 — each token is rewritten to its tag by its own scanner -/

theorem stop_takeWhile_digit {rest : List Char}
    (hstop : rest = [] ∨ rest.headD 'x' = ' ') :
    rest.takeWhile isDigitC = [] := by
  rcases hstop with rfl | hh
  · rfl
  · cases rest with
    | nil => rfl
    | cons r rs =>
      rw [List.headD_cons] at hh
      rw [hh, List.takeWhile_cons, if_neg (by decide)]

theorem stop_takeWhile_hex {rest : List Char}
    (hstop : rest = [] ∨ rest.headD 'x' = ' ') :
    rest.takeWhile isHexC = [] := by
  rcases hstop with rfl | hh
  · rfl
  · cases rest with
    | nil => rfl
    | cons r rs =>
      rw [List.headD_cons] at hh
      rw [hh, List.takeWhile_cons, if_neg (by decide)]

theorem stop_boundary {rest : List Char}
    (hstop : rest = [] ∨ rest.headD 'x' = ' ') :
    (rest.isEmpty || !isWordC (rest.headD ' ')) = true := by
  rcases hstop with rfl | hh
  · rfl
  · cases rest with
    | nil => rfl
    | cons r rs =>
      rw [List.headD_cons] at hh
      rw [hh]
      rfl

theorem subNumGo_numTok (ds rest : List Char) (hne : ds ≠ [])
    (hall : ds.all isDigitC = true) (hstop : rest = [] ∨ rest.headD 'x' = ' ') :
    subNumGo false 0 (ds ++ rest) = "<num>".data ++ subNumGo true 0 rest := by
  obtain ⟨d₀, ds', rfl⟩ : ∃ d t, ds = d :: t := by
    cases ds with
    | nil => exact absurd rfl hne
    | cons d t => exact ⟨d, t, rfl⟩
  simp only [List.all_cons, Bool.and_eq_true] at hall
  have htw : rest.takeWhile isDigitC = [] := stop_takeWhile_digit hstop
  obtain ⟨htk, hdw⟩ := takeWhile_append_all ds' rest hall.2
  rw [List.cons_append, subNumGo_cons, if_pos (by simp [hall.1])]
  have hnr : numRest (ds' ++ rest) = rest := by
    unfold numRest
    rw [hdw, dropWhile_of_takeWhile_nil htw]
  rw [if_pos]
  · have hrun : (d₀ :: (ds' ++ rest)).takeWhile isDigitC = d₀ :: ds' := by
      rw [List.takeWhile_cons, if_pos hall.1, htk, htw, List.append_nil]
    rw [hrun]
    cases ds' with
    | nil => rfl
    | cons e es =>
      show "<num>".data ++ subNumGo true ((e :: es).length) ((e :: es) ++ rest) = _
      rw [subNumGo_skip (e :: es) true rest (by simp)]
  · rw [hnr]
    have hb := stop_boundary hstop
    simp only [Bool.or_eq_true, Bool.not_eq_true', List.isEmpty_iff] at hb ⊢
    rcases hb with h | h
    · exact .inl h
    · exact .inr h

theorem subHexGo_hexTok (ds rest : List Char) (hne : ds ≠ [])
    (hall : ds.all isHexC = true) (hstop : rest = [] ∨ rest.headD 'x' = ' ') :
    subHexGo false 0 (('0' :: 'x' :: ds) ++ rest) =
      "<hex>".data ++ subHexGo true 0 rest := by
  have htw : rest.takeWhile isHexC = [] := stop_takeWhile_hex hstop
  obtain ⟨htk, hdw⟩ := takeWhile_append_all ds rest hall
  have hdw' : (ds ++ rest).dropWhile isHexC = rest := by
    rw [hdw, dropWhile_of_takeWhile_nil htw]
  have htk' : (ds ++ rest).takeWhile isHexC = ds := by
    rw [htk, htw, List.append_nil]
  have hrest : hexRest ('x' :: (ds ++ rest)) = rest := by
    unfold hexRest
    rw [List.tail_cons, hdw']
  rw [List.cons_append, List.cons_append, subHexGo_cons, if_pos]
  · rw [hrest]
    have hlen : ('x' :: (ds ++ rest)).length - rest.length = ('x' :: ds).length := by
      simp
      omega
    rw [hlen, show ('x' :: (ds ++ rest)) = ('x' :: ds) ++ rest from by simp,
      subHexGo_skip ('x' :: ds) true rest (by simp)]
  · have hb := stop_boundary hstop
    simp only [List.headD_eq_head?_getD] at hb
    simp [htk', hrest, hne, hb, List.headD_cons, List.tail_cons]

theorem octet_dot (o Y : List Char) (ho : o.all isDigitC = true) :
    (o ++ '.' :: Y).takeWhile isDigitC = o ∧
    (o ++ '.' :: Y).dropWhile isDigitC = '.' :: Y := by
  obtain ⟨h1, h2⟩ := takeWhile_append_all o ('.' :: Y) ho
  constructor
  · rw [h1, List.takeWhile_cons, if_neg (by decide), List.append_nil]
  · rw [h2, List.dropWhile_cons, if_neg (by decide)]

theorem octet_stop (o rest : List Char) (ho : o.all isDigitC = true)
    (hstop : rest = [] ∨ rest.headD 'x' = ' ') :
    (o ++ rest).takeWhile isDigitC = o ∧
    (o ++ rest).dropWhile isDigitC = rest := by
  obtain ⟨h1, h2⟩ := takeWhile_append_all o rest ho
  have htw := stop_takeWhile_digit hstop
  exact ⟨by rw [h1, htw, List.append_nil],
    by rw [h2, dropWhile_of_takeWhile_nil htw]⟩

theorem hexrun_dash (o Y : List Char) (ho : o.all isHexC = true) :
    (o ++ '-' :: Y).takeWhile isHexC = o ∧
    (o ++ '-' :: Y).dropWhile isHexC = '-' :: Y := by
  obtain ⟨h1, h2⟩ := takeWhile_append_all o ('-' :: Y) ho
  constructor
  · rw [h1, List.takeWhile_cons, if_neg (by decide), List.append_nil]
  · rw [h2, List.dropWhile_cons, if_neg (by decide)]

theorem hexrun_stop (o rest : List Char) (ho : o.all isHexC = true)
    (hstop : rest = [] ∨ rest.headD 'x' = ' ') :
    (o ++ rest).takeWhile isHexC = o ∧
    (o ++ rest).dropWhile isHexC = rest := by
  obtain ⟨h1, h2⟩ := takeWhile_append_all o rest ho
  have htw := stop_takeWhile_hex hstop
  exact ⟨by rw [h1, htw, List.append_nil],
    by rw [h2, dropWhile_of_takeWhile_nil htw]⟩

theorem tryIpB_tok (a b c d rest : List Char)
    (ha : a ≠ [] ∧ a.all isDigitC = true) (hb : b ≠ [] ∧ b.all isDigitC = true)
    (hc : c ≠ [] ∧ c.all isDigitC = true) (hd : d ≠ [] ∧ d.all isDigitC = true)
    (hstop : rest = [] ∨ rest.headD 'x' = ' ') :
    tryIpB (a ++ '.' :: (b ++ '.' :: (c ++ '.' :: (d ++ rest)))) = true := by
  obtain ⟨hA1, hA2⟩ := octet_dot a (b ++ '.' :: (c ++ '.' :: (d ++ rest))) ha.2
  obtain ⟨hB1, hB2⟩ := octet_dot b (c ++ '.' :: (d ++ rest)) hb.2
  obtain ⟨hC1, hC2⟩ := octet_dot c (d ++ rest) hc.2
  obtain ⟨hD1, hD2⟩ := octet_stop d rest hd.2 hstop
  have hbd := stop_boundary hstop
  simp only [List.headD_eq_head?_getD] at hbd
  unfold tryIpB
  simp only [hA1, hA2, List.headD_cons, List.tail_cons, hB1, hB2, hC1, hC2,
    hD1, hD2]
  simp [ha.1, hb.1, hc.1, hd.1, hbd]

theorem ipRest_tok (a b c d rest : List Char)
    (ha : a.all isDigitC = true) (hb : b.all isDigitC = true)
    (hc : c.all isDigitC = true) (hd : d.all isDigitC = true)
    (hstop : rest = [] ∨ rest.headD 'x' = ' ') :
    ipRest (a ++ '.' :: (b ++ '.' :: (c ++ '.' :: (d ++ rest)))) = rest := by
  obtain ⟨-, hA2⟩ := octet_dot a (b ++ '.' :: (c ++ '.' :: (d ++ rest))) ha
  obtain ⟨-, hB2⟩ := octet_dot b (c ++ '.' :: (d ++ rest)) hb
  obtain ⟨-, hC2⟩ := octet_dot c (d ++ rest) hc
  obtain ⟨-, hD2⟩ := octet_stop d rest hd hstop
  unfold ipRest
  rw [hA2, List.tail_cons, hB2, List.tail_cons, hC2, List.tail_cons, hD2]

theorem subIpGo_ipTok (a b c d rest : List Char)
    (ha : a ≠ [] ∧ a.all isDigitC = true) (hb : b ≠ [] ∧ b.all isDigitC = true)
    (hc : c ≠ [] ∧ c.all isDigitC = true) (hd : d ≠ [] ∧ d.all isDigitC = true)
    (hstop : rest = [] ∨ rest.headD 'x' = ' ') :
    subIpGo false 0 ((a ++ '.' :: b ++ '.' :: c ++ '.' :: d) ++ rest) =
      "<ip>".data ++ subIpGo true 0 rest := by
  obtain ⟨a₀, a', rfl⟩ : ∃ x t, a = x :: t := by
    cases hq : a with
    | nil => exact absurd hq ha.1
    | cons x t => exact ⟨x, t, rfl⟩
  have ha0 : isDigitC a₀ = true := by
    have h2 := ha.2
    rw [List.all_cons, Bool.and_eq_true] at h2
    exact h2.1
  have ha' : a'.all isDigitC = true := by
    have h2 := ha.2
    rw [List.all_cons, Bool.and_eq_true] at h2
    exact h2.2
  have hsh : ((a₀ :: a' ++ '.' :: b ++ '.' :: c ++ '.' :: d) ++ rest) =
      a₀ :: (a' ++ '.' :: (b ++ '.' :: (c ++ '.' :: (d ++ rest)))) := by
    simp
  have htry : tryIpB ((a₀ :: a') ++ '.' :: (b ++ '.' :: (c ++ '.' :: (d ++ rest)))) = true :=
    tryIpB_tok (a₀ :: a') b c d rest ⟨by simp, ha.2⟩ hb hc hd hstop
  rw [List.cons_append] at htry
  have hir : ipRest (a₀ :: (a' ++ '.' :: (b ++ '.' :: (c ++ '.' :: (d ++ rest))))) = rest := by
    have := ipRest_tok (a₀ :: a') b c d rest ha.2 hb.2 hc.2 hd.2 hstop
    rw [List.cons_append] at this
    exact this
  rw [hsh, subIpGo_cons, if_pos]
  · rw [hir]
    have hW : a' ++ '.' :: (b ++ '.' :: (c ++ '.' :: (d ++ rest))) =
        (a' ++ '.' :: (b ++ '.' :: (c ++ '.' :: d))) ++ rest := by
      simp
    have hlen : (a₀ :: (a' ++ '.' :: (b ++ '.' :: (c ++ '.' :: (d ++ rest))))).length -
        rest.length - 1 = (a' ++ '.' :: (b ++ '.' :: (c ++ '.' :: d))).length := by
      simp
      omega
    rw [hlen, hW, subIpGo_skip _ true rest (by simp)]
  · simp [ha0, htry]

theorem tryUuidB_tok (a b : List Char) (v : Char) (c : List Char) (w : Char)
    (d e rest : List Char)
    (ha : a.length = 8 ∧ a.all isHexC = true) (hb : b.length = 4 ∧ b.all isHexC = true)
    (hv : '1' ≤ v ∧ v ≤ '5') (hc : c.length = 3 ∧ c.all isHexC = true)
    (hw : isHexC w = true) (hd : d.length = 3 ∧ d.all isHexC = true)
    (hvar : w = '8' ∨ w = '9' ∨ w = 'a' ∨ w = 'b' ∨ w = 'A' ∨ w = 'B')
    (he : e.length = 12 ∧ e.all isHexC = true)
    (hstop : rest = [] ∨ rest.headD 'x' = ' ') :
    tryUuidB (a ++ '-' :: (b ++ '-' :: (v :: c ++ '-' :: (w :: d ++ '-' :: (e ++ rest))))) = true := by
  have hvx : isHexC v = true := digit_isHex (ver_isDigit hv.1 hv.2)
  have hvc : (v :: c).all isHexC = true := by
    rw [List.all_cons, Bool.and_eq_true]
    exact ⟨hvx, hc.2⟩
  have hwd : (w :: d).all isHexC = true := by
    rw [List.all_cons, Bool.and_eq_true]
    exact ⟨hw, hd.2⟩
  obtain ⟨hA1, hA2⟩ := hexrun_dash a (b ++ '-' :: (v :: c ++ '-' :: (w :: d ++ '-' :: (e ++ rest)))) ha.2
  obtain ⟨hB1, hB2⟩ := hexrun_dash b (v :: c ++ '-' :: (w :: d ++ '-' :: (e ++ rest))) hb.2
  obtain ⟨hC1, hC2⟩ := hexrun_dash (v :: c) (w :: d ++ '-' :: (e ++ rest)) hvc
  obtain ⟨hD1, hD2⟩ := hexrun_dash (w :: d) (e ++ rest) hwd
  obtain ⟨hE1, hE2⟩ := hexrun_stop e rest he.2 hstop
  have hbd := stop_boundary hstop
  simp only [List.headD_eq_head?_getD] at hbd
  rw [show (v :: c ++ '-' :: (w :: d ++ '-' :: (e ++ rest))) =
    ((v :: c) ++ '-' :: ((w :: d) ++ '-' :: (e ++ rest))) from by simp] at hC1 hC2 ⊢
  unfold tryUuidB
  simp only [hA1, hA2, List.headD_cons, List.tail_cons, hB1, hB2, hC1, hC2,
    hD1, hD2, hE1, hE2]
  simp [ha.1, hb.1, hc.1, hd.1, he.1, hbd, hv.1, hv.2]
  rcases hvar with h | h | h | h | h | h <;> simp [h]

theorem uuidRest_tok (a b : List Char) (v : Char) (c : List Char) (w : Char)
    (d e rest : List Char)
    (ha : a.all isHexC = true) (hb : b.all isHexC = true)
    (hv : isHexC v = true) (hc : c.all isHexC = true)
    (hw : isHexC w = true) (hd : d.all isHexC = true)
    (he : e.all isHexC = true)
    (hstop : rest = [] ∨ rest.headD 'x' = ' ') :
    uuidRest (a ++ '-' :: (b ++ '-' :: (v :: c ++ '-' :: (w :: d ++ '-' :: (e ++ rest))))) = rest := by
  have hvc : (v :: c).all isHexC = true := by
    rw [List.all_cons, Bool.and_eq_true]
    exact ⟨hv, hc⟩
  have hwd : (w :: d).all isHexC = true := by
    rw [List.all_cons, Bool.and_eq_true]
    exact ⟨hw, hd⟩
  obtain ⟨-, hA2⟩ := hexrun_dash a (b ++ '-' :: (v :: c ++ '-' :: (w :: d ++ '-' :: (e ++ rest)))) ha
  obtain ⟨-, hB2⟩ := hexrun_dash b (v :: c ++ '-' :: (w :: d ++ '-' :: (e ++ rest))) hb
  obtain ⟨-, hC2⟩ := hexrun_dash (v :: c) (w :: d ++ '-' :: (e ++ rest)) hvc
  obtain ⟨-, hD2⟩ := hexrun_dash (w :: d) (e ++ rest) hwd
  obtain ⟨-, hE2⟩ := hexrun_stop e rest he hstop
  rw [show (v :: c ++ '-' :: (w :: d ++ '-' :: (e ++ rest))) =
    ((v :: c) ++ '-' :: ((w :: d) ++ '-' :: (e ++ rest))) from by simp] at hC2 ⊢
  unfold uuidRest
  rw [hA2, List.tail_cons, hB2, List.tail_cons, hC2, List.tail_cons, hD2,
    List.tail_cons, hE2]

theorem subUuidGo_uuidTok (a b : List Char) (v : Char) (c : List Char)
    (w : Char) (d e rest : List Char)
    (ha : a.length = 8 ∧ a.all isHexC = true)
    (hb : b.length = 4 ∧ b.all isHexC = true)
    (hv : '1' ≤ v ∧ v ≤ '5') (hc : c.length = 3 ∧ c.all isHexC = true)
    (hvar : w = '8' ∨ w = '9' ∨ w = 'a' ∨ w = 'b' ∨ w = 'A' ∨ w = 'B')
    (hd : d.length = 3 ∧ d.all isHexC = true)
    (he : e.length = 12 ∧ e.all isHexC = true)
    (hstop : rest = [] ∨ rest.headD 'x' = ' ') :
    subUuidGo false 0
        ((a ++ '-' :: b ++ '-' :: v :: c ++ '-' :: w :: d ++ '-' :: e) ++ rest) =
      "<uuid>".data ++ subUuidGo true 0 rest := by
  have hw : isHexC w = true := by
    rcases hvar with h | h | h | h | h | h <;> rw [h] <;> decide
  obtain ⟨a₀, a', rfl⟩ : ∃ x t, a = x :: t := by
    cases hq : a with
    | nil => rw [hq] at ha; cases ha.1
    | cons x t => exact ⟨x, t, rfl⟩
  have ha0 : isHexC a₀ = true := by
    have h2 := ha.2
    rw [List.all_cons, Bool.and_eq_true] at h2
    exact h2.1
  have hsh : ((a₀ :: a' ++ '-' :: b ++ '-' :: v :: c ++ '-' :: w :: d ++ '-' :: e) ++ rest) =
      a₀ :: (a' ++ '-' :: (b ++ '-' :: (v :: c ++ '-' :: (w :: d ++ '-' :: (e ++ rest))))) := by
    simp
  have htry := tryUuidB_tok (a₀ :: a') b v c w d e rest ha hb hv hc hw hd hvar he hstop
  rw [List.cons_append] at htry
  have hur := uuidRest_tok (a₀ :: a') b v c w d e rest ha.2 hb.2
    (digit_isHex (ver_isDigit hv.1 hv.2)) hc.2 hw hd.2 he.2 hstop
  rw [List.cons_append] at hur
  rw [hsh, subUuidGo_cons, if_pos]
  · rw [hur]
    have hW : a' ++ '-' :: (b ++ '-' :: (v :: c ++ '-' :: (w :: d ++ '-' :: (e ++ rest)))) =
        (a' ++ '-' :: (b ++ '-' :: (v :: c ++ '-' :: (w :: d ++ '-' :: e)))) ++ rest := by
      simp
    have hlen : (a₀ :: (a' ++ '-' :: (b ++ '-' :: (v :: c ++ '-' :: (w :: d ++ '-' :: (e ++ rest)))))).length -
        rest.length - 1 =
        (a' ++ '-' :: (b ++ '-' :: (v :: c ++ '-' :: (w :: d ++ '-' :: e)))).length := by
      simp
      omega
    rw [hlen, hW, subUuidGo_skip _ true rest (by simp)]
  · simp only [List.cons_append] at htry ⊢
    simp [ha0, htry]

/-! ### C4 — tokens of other kinds pass a scanner verbatim -/

theorem stop_headD_ne {rest : List Char}
    (hstop : rest = [] ∨ rest.headD 'x' = ' ') (c : Char) (hc : c ≠ ' ') :
    rest.headD ' ' ≠ c := by
  rcases hstop with rfl | hh
  · simpa using Ne.symm hc
  · cases rest with
    | nil => simpa using Ne.symm hc
    | cons r rs =>
      rw [List.headD_cons] at hh ⊢
      rw [hh]
      exact Ne.symm hc

theorem subHexGo_ipTok (a b c d rest : List Char)
    (ha : a ≠ [] ∧ a.all isDigitC = true) (hb : b ≠ [] ∧ b.all isDigitC = true)
    (hc : c ≠ [] ∧ c.all isDigitC = true) (hd : d ≠ [] ∧ d.all isDigitC = true)
    (hstop : rest = [] ∨ rest.headD 'x' = ' ') :
    ∃ pw', subHexGo false 0 ((a ++ '.' :: b ++ '.' :: c ++ '.' :: d) ++ rest) =
      (a ++ '.' :: b ++ '.' :: c ++ '.' :: d) ++ subHexGo pw' 0 rest := by
  obtain ⟨p1, h1⟩ := subHexGo_run a false ('.' :: (b ++ '.' :: (c ++ '.' :: (d ++ rest))))
    (all_digit_hex ha.2) (by rw [List.headD_cons]; decide) ha.1
  obtain ⟨p2, h2⟩ := subHexGo_run b (isWordC '.') ('.' :: (c ++ '.' :: (d ++ rest)))
    (all_digit_hex hb.2) (by rw [List.headD_cons]; decide) hb.1
  obtain ⟨p3, h3⟩ := subHexGo_run c (isWordC '.') ('.' :: (d ++ rest))
    (all_digit_hex hc.2) (by rw [List.headD_cons]; decide) hc.1
  obtain ⟨p4, h4⟩ := subHexGo_run d (isWordC '.') rest
    (all_digit_hex hd.2) (stop_headD_ne hstop 'x' (by decide)) hd.1
  refine ⟨p4, ?_⟩
  rw [show ((a ++ '.' :: b ++ '.' :: c ++ '.' :: d) ++ rest) =
    a ++ '.' :: (b ++ '.' :: (c ++ '.' :: (d ++ rest))) from by simp]
  rw [h1, subHexGo_char p1 '.' _ (by decide), h2,
    subHexGo_char p2 '.' _ (by decide), h3,
    subHexGo_char p3 '.' _ (by decide), h4]
  simp

theorem subHexGo_uuidTok (a b : List Char) (v : Char) (c : List Char)
    (w : Char) (d e rest : List Char)
    (ha : a ≠ [] ∧ a.all isHexC = true) (hb : b ≠ [] ∧ b.all isHexC = true)
    (hv : isHexC v = true) (hc : c.all isHexC = true)
    (hw : isHexC w = true) (hd : d.all isHexC = true)
    (he : e ≠ [] ∧ e.all isHexC = true)
    (hstop : rest = [] ∨ rest.headD 'x' = ' ') :
    ∃ pw', subHexGo false 0
        ((a ++ '-' :: b ++ '-' :: v :: c ++ '-' :: w :: d ++ '-' :: e) ++ rest) =
      (a ++ '-' :: b ++ '-' :: v :: c ++ '-' :: w :: d ++ '-' :: e) ++
        subHexGo pw' 0 rest := by
  obtain ⟨p1, h1⟩ := subHexGo_run a false
    ('-' :: (b ++ '-' :: ((v :: c) ++ '-' :: ((w :: d) ++ '-' :: (e ++ rest)))))
    ha.2 (by rw [List.headD_cons]; decide) ha.1
  obtain ⟨p2, h2⟩ := subHexGo_run b (isWordC '-')
    ('-' :: ((v :: c) ++ '-' :: ((w :: d) ++ '-' :: (e ++ rest))))
    hb.2 (by rw [List.headD_cons]; decide) hb.1
  obtain ⟨p3, h3⟩ := subHexGo_run (v :: c) (isWordC '-')
    ('-' :: ((w :: d) ++ '-' :: (e ++ rest)))
    (by rw [List.all_cons, Bool.and_eq_true]; exact ⟨hv, hc⟩)
    (by rw [List.headD_cons]; decide) (by simp)
  obtain ⟨p4, h4⟩ := subHexGo_run (w :: d) (isWordC '-')
    ('-' :: (e ++ rest))
    (by rw [List.all_cons, Bool.and_eq_true]; exact ⟨hw, hd⟩)
    (by rw [List.headD_cons]; decide) (by simp)
  obtain ⟨p5, h5⟩ := subHexGo_run e (isWordC '-') rest
    he.2 (stop_headD_ne hstop 'x' (by decide)) he.1
  refine ⟨p5, ?_⟩
  rw [show ((a ++ '-' :: b ++ '-' :: v :: c ++ '-' :: w :: d ++ '-' :: e) ++ rest) =
    a ++ '-' :: (b ++ '-' :: ((v :: c) ++ '-' :: ((w :: d) ++ '-' :: (e ++ rest))))
    from by simp]
  rw [h1, subHexGo_char p1 '-' _ (by decide), h2,
    subHexGo_char p2 '-' _ (by decide), h3,
    subHexGo_char p3 '-' _ (by decide), h4,
    subHexGo_char p4 '-' _ (by decide), h5]
  simp

theorem subUuidGo_ipTok (a b c d rest : List Char)
    (ha : a ≠ [] ∧ a.all isDigitC = true) (hb : b ≠ [] ∧ b.all isDigitC = true)
    (hc : c ≠ [] ∧ c.all isDigitC = true) (hd : d ≠ [] ∧ d.all isDigitC = true)
    (hstop : rest = [] ∨ rest.headD 'x' = ' ') :
    ∃ pw', subUuidGo false 0 ((a ++ '.' :: b ++ '.' :: c ++ '.' :: d) ++ rest) =
      (a ++ '.' :: b ++ '.' :: c ++ '.' :: d) ++ subUuidGo pw' 0 rest := by
  have hdot : ∀ Y : List Char, ('.' :: Y).takeWhile isHexC = [] := by
    intro Y
    rw [List.takeWhile_cons, if_neg (by decide)]
  obtain ⟨p1, h1⟩ := subUuidGo_run a false ('.' :: (b ++ '.' :: (c ++ '.' :: (d ++ rest))))
    (all_digit_hex ha.2) (hdot _) (by rw [List.headD_cons]; decide) ha.1
  obtain ⟨p2, h2⟩ := subUuidGo_run b (isWordC '.') ('.' :: (c ++ '.' :: (d ++ rest)))
    (all_digit_hex hb.2) (hdot _) (by rw [List.headD_cons]; decide) hb.1
  obtain ⟨p3, h3⟩ := subUuidGo_run c (isWordC '.') ('.' :: (d ++ rest))
    (all_digit_hex hc.2) (hdot _) (by rw [List.headD_cons]; decide) hc.1
  obtain ⟨p4, h4⟩ := subUuidGo_run d (isWordC '.') rest
    (all_digit_hex hd.2) (stop_takeWhile_hex hstop)
    (stop_headD_ne hstop '-' (by decide)) hd.1
  refine ⟨p4, ?_⟩
  rw [show ((a ++ '.' :: b ++ '.' :: c ++ '.' :: d) ++ rest) =
    a ++ '.' :: (b ++ '.' :: (c ++ '.' :: (d ++ rest))) from by simp]
  rw [h1, subUuidGo_char p1 '.' _ (by decide), h2,
    subUuidGo_char p2 '.' _ (by decide), h3,
    subUuidGo_char p3 '.' _ (by decide), h4]
  simp

/-! ### C4 — one pass over one token slot, per scanner -/

theorem ne_nil_of_isEmpty_false {l : List Char} (h : l.isEmpty = false) :
    l ≠ [] := by
  cases l with
  | nil => cases h
  | cons c r => simp

theorem ne_nil_of_length {l : List Char} {n : Nat} (h : l.length = n)
    (hn : n ≠ 0) : l ≠ [] := by
  intro he
  rw [he] at h
  exact hn h.symm

theorem tag_mem_of_tokOK {s : List Char} (h : tokOK (.tag s) = true) :
    s ∈ tagStrs := by
  simpa [tokOK, List.contains_iff_exists_mem_beq] using h

theorem tokOK_uuid_parts {a b : List Char} {v : Char} {c : List Char} {w : Char}
    {d e : List Char} (hok : tokOK (.uuid a b v c w d e) = true) :
    (a.length = 8 ∧ a.all isHexC = true) ∧ (b.length = 4 ∧ b.all isHexC = true) ∧
    ('1' ≤ v ∧ v ≤ '5') ∧ (c.length = 3 ∧ c.all isHexC = true) ∧
    (w = '8' ∨ w = '9' ∨ w = 'a' ∨ w = 'b' ∨ w = 'A' ∨ w = 'B') ∧
    (d.length = 3 ∧ d.all isHexC = true) ∧ (e.length = 12 ∧ e.all isHexC = true) := by
  simp only [tokOK, Bool.and_eq_true, beq_iff_eq, decide_eq_true_eq,
    Bool.or_eq_true] at hok
  tauto

theorem tokOK_ip_parts {a b c d : List Char} (hok : tokOK (.ip a b c d) = true) :
    (a ≠ [] ∧ a.all isDigitC = true) ∧ (b ≠ [] ∧ b.all isDigitC = true) ∧
    (c ≠ [] ∧ c.all isDigitC = true) ∧ (d ≠ [] ∧ d.all isDigitC = true) := by
  simp only [tokOK, Bool.and_eq_true, Bool.not_eq_true'] at hok
  exact ⟨⟨ne_nil_of_isEmpty_false hok.1.1.1.1, hok.1.1.1.2⟩,
    ⟨ne_nil_of_isEmpty_false hok.1.1.2.1, hok.1.1.2.2⟩,
    ⟨ne_nil_of_isEmpty_false hok.1.2.1, hok.1.2.2⟩,
    ⟨ne_nil_of_isEmpty_false hok.2.1, hok.2.2⟩⟩

theorem hexTok_step (t : Tok) (hok : tokOK t = true) (rest : List Char)
    (hstop : rest = [] ∨ rest.headD 'x' = ' ') :
    ∃ pw', subHexGo false 0 (renderTok t ++ rest) =
      renderTok (mapHexT t) ++ subHexGo pw' 0 rest := by
  cases t with
  | num ds =>
    simp only [tokOK, Bool.and_eq_true, Bool.not_eq_true'] at hok
    exact subHexGo_run ds false rest (all_digit_hex hok.2)
      (stop_headD_ne hstop 'x' (by decide)) (ne_nil_of_isEmpty_false hok.1)
  | hex ds =>
    simp only [tokOK, Bool.and_eq_true, Bool.not_eq_true'] at hok
    exact ⟨true, subHexGo_hexTok ds rest (ne_nil_of_isEmpty_false hok.1)
      hok.2 hstop⟩
  | ip a b c d =>
    obtain ⟨ha, hb, hc, hd⟩ := tokOK_ip_parts hok
    exact subHexGo_ipTok a b c d rest ha hb hc hd hstop
  | uuid a b v c w d e =>
    obtain ⟨ha, hb, hv, hc, hvar, hd, he⟩ := tokOK_uuid_parts hok
    have hw : isHexC w = true := by
      rcases hvar with h | h | h | h | h | h <;> rw [h] <;> decide
    exact subHexGo_uuidTok a b v c w d e rest
      ⟨ne_nil_of_length ha.1 (by decide), ha.2⟩
      ⟨ne_nil_of_length hb.1 (by decide), hb.2⟩
      (digit_isHex (ver_isDigit hv.1 hv.2)) hc.2 hw hd.2
      ⟨ne_nil_of_length he.1 (by decide), he.2⟩ hstop
  | tag s =>
    exact ⟨false, subHexGo_tag s (tag_mem_of_tokOK hok) false rest⟩

theorem uuidTok_step (t : Tok) (hok : tokOK t = true) (hnh : noHexT t = true)
    (rest : List Char) (hstop : rest = [] ∨ rest.headD 'x' = ' ') :
    ∃ pw', subUuidGo false 0 (renderTok t ++ rest) =
      renderTok (mapUuidT t) ++ subUuidGo pw' 0 rest := by
  cases t with
  | num ds =>
    simp only [tokOK, Bool.and_eq_true, Bool.not_eq_true'] at hok
    exact subUuidGo_run ds false rest (all_digit_hex hok.2)
      (stop_takeWhile_hex hstop) (stop_headD_ne hstop '-' (by decide))
      (ne_nil_of_isEmpty_false hok.1)
  | hex ds => cases hnh
  | ip a b c d =>
    obtain ⟨ha, hb, hc, hd⟩ := tokOK_ip_parts hok
    exact subUuidGo_ipTok a b c d rest ha hb hc hd hstop
  | uuid a b v c w d e =>
    obtain ⟨ha, hb, hv, hc, hvar, hd, he⟩ := tokOK_uuid_parts hok
    exact ⟨true, subUuidGo_uuidTok a b v c w d e rest ha hb hv hc hvar hd he hstop⟩
  | tag s =>
    exact ⟨false, subUuidGo_tag s (tag_mem_of_tokOK hok) false rest⟩

theorem ipTok_step (t : Tok) (hok : tokOK t = true) (hnh : noHexT t = true)
    (hnu : noUuidT t = true) (rest : List Char)
    (hstop : rest = [] ∨ rest.headD 'x' = ' ') :
    ∃ pw', subIpGo false 0 (renderTok t ++ rest) =
      renderTok (mapIpT t) ++ subIpGo pw' 0 rest := by
  cases t with
  | num ds =>
    simp only [tokOK, Bool.and_eq_true, Bool.not_eq_true'] at hok
    exact subIpGo_run ds false rest hok.2 (stop_takeWhile_digit hstop)
      (stop_headD_ne hstop '.' (by decide)) (ne_nil_of_isEmpty_false hok.1)
  | hex ds => cases hnh
  | ip a b c d =>
    obtain ⟨ha, hb, hc, hd⟩ := tokOK_ip_parts hok
    exact ⟨true, subIpGo_ipTok a b c d rest ha hb hc hd hstop⟩
  | uuid a b v c w d e => cases hnu
  | tag s =>
    exact ⟨false, subIpGo_tag s (tag_mem_of_tokOK hok) false rest⟩

theorem numTok_step (t : Tok) (hok : tokOK t = true) (hnh : noHexT t = true)
    (hnu : noUuidT t = true) (hni : noIpT t = true) (rest : List Char)
    (hstop : rest = [] ∨ rest.headD 'x' = ' ') :
    ∃ pw', subNumGo false 0 (renderTok t ++ rest) =
      renderTok (mapNumT t) ++ subNumGo pw' 0 rest := by
  cases t with
  | num ds =>
    simp only [tokOK, Bool.and_eq_true, Bool.not_eq_true'] at hok
    exact ⟨true, subNumGo_numTok ds rest (ne_nil_of_isEmpty_false hok.1)
      hok.2 hstop⟩
  | hex ds => cases hnh
  | ip a b c d => cases hni
  | uuid a b v c w d e => cases hnu
  | tag s =>
    exact ⟨false, subNumGo_tag s (tag_mem_of_tokOK hok) false rest⟩

/-! ### C4 — a delimited literal under any scanner, then the pass glue -/

theorem litOK_nodigit {l : List Char} (h : litOK l = true) :
    (l.all fun c => !isDigitC c) = true := by
  rw [litOK, List.all_eq_true] at h
  rw [List.all_eq_true]
  intro c hc
  have hm := h c hc
  simp only [msgChar, Bool.and_eq_true] at hm
  exact hm.1.1.1.1.1

theorem headD_append_left {l R : List Char} (h : l ≠ []) (d : Char) :
    (l ++ R).headD d = l.headD d := by
  cases l with
  | nil => exact absurd rfl h
  | cons c t => rfl

theorem litStep_num (l R : List Char) (hlit : litOK l = true)
    (hhd : l.headD 'x' = ' ') (hne : l ≠ [])
    (hdisj : R = [] ∨ l.getLast? = some ' ') (pw : Bool) :
    subNumGo pw 0 (l ++ R) = l ++ subNumGo false 0 R := by
  obtain ⟨l', rfl⟩ : ∃ t, l = ' ' :: t := by
    cases l with
    | nil => exact absurd rfl hne
    | cons c t =>
      rw [List.headD_cons] at hhd
      exact ⟨t, by rw [hhd]⟩
  rw [List.cons_append, subNumGo_space]
  cases hl' : l' with
  | nil => rfl
  | cons c t =>
    rw [← hl']
    have hnod : (l'.all fun c => !isDigitC c) = true := by
      have := litOK_nodigit hlit
      rw [List.all_cons, Bool.and_eq_true] at this
      exact this.2
    have hdisj' : R = [] ∨ l'.getLast? = some ' ' := by
      rcases hdisj with rfl | hlast
      · exact .inl rfl
      · exact .inr (getLast_suffix_space [' '] (by rw [hl']; simp)
          (by simpa using hlast))
    rw [subNumGo_lit l' false R hnod hdisj']
    simp

theorem litStep_hex (l R : List Char) (hlit : litOK l = true)
    (hhd : l.headD 'x' = ' ') (hne : l ≠ [])
    (hdisj : R = [] ∨ l.getLast? = some ' ') (pw : Bool) :
    subHexGo pw 0 (l ++ R) = l ++ subHexGo false 0 R := by
  obtain ⟨l', rfl⟩ : ∃ t, l = ' ' :: t := by
    cases l with
    | nil => exact absurd rfl hne
    | cons c t =>
      rw [List.headD_cons] at hhd
      exact ⟨t, by rw [hhd]⟩
  rw [List.cons_append, subHexGo_space]
  cases hl' : l' with
  | nil => rfl
  | cons c t =>
    rw [← hl']
    have hnod : (l'.all fun c => !isDigitC c) = true := by
      have := litOK_nodigit hlit
      rw [List.all_cons, Bool.and_eq_true] at this
      exact this.2
    have hdisj' : R = [] ∨ l'.getLast? = some ' ' := by
      rcases hdisj with rfl | hlast
      · exact .inl rfl
      · exact .inr (getLast_suffix_space [' '] (by rw [hl']; simp)
          (by simpa using hlast))
    rw [subHexGo_lit l' false R hnod hdisj']
    simp

theorem litStep_ip (l R : List Char) (hlit : litOK l = true)
    (hhd : l.headD 'x' = ' ') (hne : l ≠ [])
    (hdisj : R = [] ∨ l.getLast? = some ' ') (pw : Bool) :
    subIpGo pw 0 (l ++ R) = l ++ subIpGo false 0 R := by
  obtain ⟨l', rfl⟩ : ∃ t, l = ' ' :: t := by
    cases l with
    | nil => exact absurd rfl hne
    | cons c t =>
      rw [List.headD_cons] at hhd
      exact ⟨t, by rw [hhd]⟩
  rw [List.cons_append, subIpGo_space]
  cases hl' : l' with
  | nil => rfl
  | cons c t =>
    rw [← hl']
    have hnod : (l'.all fun c => !isDigitC c) = true := by
      have := litOK_nodigit hlit
      rw [List.all_cons, Bool.and_eq_true] at this
      exact this.2
    have hdisj' : R = [] ∨ l'.getLast? = some ' ' := by
      rcases hdisj with rfl | hlast
      · exact .inl rfl
      · exact .inr (getLast_suffix_space [' '] (by rw [hl']; simp)
          (by simpa using hlast))
    rw [subIpGo_lit l' false R hnod hdisj']
    simp

theorem litStep_uuid (l R : List Char) (hlit : litOK l = true)
    (hhd : l.headD 'x' = ' ') (hne : l ≠ [])
    (hdisj : R = [] ∨ l.getLast? = some ' ') (pw : Bool) :
    subUuidGo pw 0 (l ++ R) = l ++ subUuidGo false 0 R := by
  obtain ⟨l', rfl⟩ : ∃ t, l = ' ' :: t := by
    cases l with
    | nil => exact absurd rfl hne
    | cons c t =>
      rw [List.headD_cons] at hhd
      exact ⟨t, by rw [hhd]⟩
  rw [List.cons_append, subUuidGo_space]
  cases hl' : l' with
  | nil => rfl
  | cons c t =>
    rw [← hl']
    have hnod : (l'.all fun c => !isDigitC c) = true := by
      have := litOK_nodigit hlit
      rw [List.all_cons, Bool.and_eq_true] at this
      exact this.2
    have hdisj' : R = [] ∨ l'.getLast? = some ' ' := by
      rcases hdisj with rfl | hlast
      · exact .inl rfl
      · exact .inr (getLast_suffix_space [' '] (by rw [hl']; simp)
          (by simpa using hlast))
    rw [subUuidGo_lit l' false R hnod hdisj']
    simp

/-! ### C4 — one full scanner pass over the slot list -/

theorem hexPairs_glue : ∀ (ps : List (Tok × List Char)), pairsWF ps = true → 
    subHexGo false 0 (renderPairs ps) =
      renderPairs (ps.map fun p => (mapHexT p.1, p.2))
  | [], _ => rfl
  | [(t, l)], hwf => by
    simp only [pairsWF, Bool.and_eq_true, Bool.or_eq_true, List.isEmpty_iff,
      decide_eq_true_eq] at hwf
    obtain ⟨⟨hok, hlit⟩, hse⟩ := hwf
    have hne_or : l = [] ∨ (l ≠ [] ∧ l.headD 'x' = ' ') := by
      rcases hse with rfl | hh
      · exact .inl rfl
      · right
        refine ⟨?_, hh⟩
        intro hx
        rw [hx] at hh
        exact absurd hh (by decide)
    show subHexGo false 0 (renderTok t ++ (l ++ renderPairs ([] : List (Tok × List Char)))) =
      renderTok (mapHexT t) ++ (l ++ renderPairs ([] : List (Tok × List Char)))
    obtain ⟨pw', hstep⟩ := hexTok_step t hok (l ++ renderPairs ([] : List (Tok × List Char)))
      (by
        rcases hne_or with rfl | ⟨hne, hh⟩
        · exact .inl rfl
        · exact .inr (by rw [headD_append_left hne]; exact hh))
    rw [hstep]
    rcases hne_or with rfl | ⟨hne, hh⟩
    · rfl
    · rw [litStep_hex l (renderPairs ([] : List (Tok × List Char))) hlit hh hne (.inl rfl) pw']
      rfl
  | (t, l) :: p :: ps', hwf => by
    simp only [pairsWF, Bool.and_eq_true, decide_eq_true_eq, beq_iff_eq,
      Bool.not_eq_true'] at hwf
    obtain ⟨⟨⟨⟨⟨hok, hlit⟩, hniE⟩, hhd⟩, hlast⟩, hrest⟩ := hwf
    have hne : l ≠ [] := ne_nil_of_isEmpty_false hniE
    have hR := hexPairs_glue (p :: ps') hrest 
    show subHexGo false 0 (renderTok t ++ (l ++ renderPairs (p :: ps'))) =
      renderTok (mapHexT t) ++
        (l ++ renderPairs ((p :: ps').map fun q => (mapHexT q.1, q.2)))
    obtain ⟨pw', hstep⟩ := hexTok_step t hok (l ++ renderPairs (p :: ps'))
      (.inr (by rw [headD_append_left hne]; exact hhd))
    rw [hstep, litStep_hex l (renderPairs (p :: ps')) hlit hhd hne (.inr hlast) pw', hR]

theorem uuidPairs_glue : ∀ (ps : List (Tok × List Char)), pairsWF ps = true → (ps.all fun p => noHexT p.1) = true →
    subUuidGo false 0 (renderPairs ps) =
      renderPairs (ps.map fun p => (mapUuidT p.1, p.2))
  | [], _, _ => rfl
  | [(t, l)], hwf, hnh => by
    simp only [pairsWF, Bool.and_eq_true, Bool.or_eq_true, List.isEmpty_iff,
      decide_eq_true_eq] at hwf
    obtain ⟨⟨hok, hlit⟩, hse⟩ := hwf
    have hne_or : l = [] ∨ (l ≠ [] ∧ l.headD 'x' = ' ') := by
      rcases hse with rfl | hh
      · exact .inl rfl
      · right
        refine ⟨?_, hh⟩
        intro hx
        rw [hx] at hh
        exact absurd hh (by decide)
    show subUuidGo false 0 (renderTok t ++ (l ++ renderPairs ([] : List (Tok × List Char)))) =
      renderTok (mapUuidT t) ++ (l ++ renderPairs ([] : List (Tok × List Char)))
    obtain ⟨pw', hstep⟩ := uuidTok_step t hok (by rw [List.all_cons, Bool.and_eq_true] at hnh; exact hnh.1) (l ++ renderPairs ([] : List (Tok × List Char)))
      (by
        rcases hne_or with rfl | ⟨hne, hh⟩
        · exact .inl rfl
        · exact .inr (by rw [headD_append_left hne]; exact hh))
    rw [hstep]
    rcases hne_or with rfl | ⟨hne, hh⟩
    · rfl
    · rw [litStep_uuid l (renderPairs ([] : List (Tok × List Char))) hlit hh hne (.inl rfl) pw']
      rfl
  | (t, l) :: p :: ps', hwf, hnh => by
    simp only [pairsWF, Bool.and_eq_true, decide_eq_true_eq, beq_iff_eq,
      Bool.not_eq_true'] at hwf
    obtain ⟨⟨⟨⟨⟨hok, hlit⟩, hniE⟩, hhd⟩, hlast⟩, hrest⟩ := hwf
    have hne : l ≠ [] := ne_nil_of_isEmpty_false hniE
    have hR := uuidPairs_glue (p :: ps') hrest (by rw [List.all_cons, Bool.and_eq_true] at hnh; exact hnh.2)
    show subUuidGo false 0 (renderTok t ++ (l ++ renderPairs (p :: ps'))) =
      renderTok (mapUuidT t) ++
        (l ++ renderPairs ((p :: ps').map fun q => (mapUuidT q.1, q.2)))
    obtain ⟨pw', hstep⟩ := uuidTok_step t hok (by rw [List.all_cons, Bool.and_eq_true] at hnh; exact hnh.1) (l ++ renderPairs (p :: ps'))
      (.inr (by rw [headD_append_left hne]; exact hhd))
    rw [hstep, litStep_uuid l (renderPairs (p :: ps')) hlit hhd hne (.inr hlast) pw', hR]

theorem ipPairs_glue : ∀ (ps : List (Tok × List Char)), pairsWF ps = true → (ps.all fun p => noHexT p.1) = true → (ps.all fun p => noUuidT p.1) = true →
    subIpGo false 0 (renderPairs ps) =
      renderPairs (ps.map fun p => (mapIpT p.1, p.2))
  | [], _, _, _ => rfl
  | [(t, l)], hwf, hnh, hnu => by
    simp only [pairsWF, Bool.and_eq_true, Bool.or_eq_true, List.isEmpty_iff,
      decide_eq_true_eq] at hwf
    obtain ⟨⟨hok, hlit⟩, hse⟩ := hwf
    have hne_or : l = [] ∨ (l ≠ [] ∧ l.headD 'x' = ' ') := by
      rcases hse with rfl | hh
      · exact .inl rfl
      · right
        refine ⟨?_, hh⟩
        intro hx
        rw [hx] at hh
        exact absurd hh (by decide)
    show subIpGo false 0 (renderTok t ++ (l ++ renderPairs ([] : List (Tok × List Char)))) =
      renderTok (mapIpT t) ++ (l ++ renderPairs ([] : List (Tok × List Char)))
    obtain ⟨pw', hstep⟩ := ipTok_step t hok (by rw [List.all_cons, Bool.and_eq_true] at hnh; exact hnh.1) (by rw [List.all_cons, Bool.and_eq_true] at hnu; exact hnu.1) (l ++ renderPairs ([] : List (Tok × List Char)))
      (by
        rcases hne_or with rfl | ⟨hne, hh⟩
        · exact .inl rfl
        · exact .inr (by rw [headD_append_left hne]; exact hh))
    rw [hstep]
    rcases hne_or with rfl | ⟨hne, hh⟩
    · rfl
    · rw [litStep_ip l (renderPairs ([] : List (Tok × List Char))) hlit hh hne (.inl rfl) pw']
      rfl
  | (t, l) :: p :: ps', hwf, hnh, hnu => by
    simp only [pairsWF, Bool.and_eq_true, decide_eq_true_eq, beq_iff_eq,
      Bool.not_eq_true'] at hwf
    obtain ⟨⟨⟨⟨⟨hok, hlit⟩, hniE⟩, hhd⟩, hlast⟩, hrest⟩ := hwf
    have hne : l ≠ [] := ne_nil_of_isEmpty_false hniE
    have hR := ipPairs_glue (p :: ps') hrest (by rw [List.all_cons, Bool.and_eq_true] at hnh; exact hnh.2) (by rw [List.all_cons, Bool.and_eq_true] at hnu; exact hnu.2)
    show subIpGo false 0 (renderTok t ++ (l ++ renderPairs (p :: ps'))) =
      renderTok (mapIpT t) ++
        (l ++ renderPairs ((p :: ps').map fun q => (mapIpT q.1, q.2)))
    obtain ⟨pw', hstep⟩ := ipTok_step t hok (by rw [List.all_cons, Bool.and_eq_true] at hnh; exact hnh.1) (by rw [List.all_cons, Bool.and_eq_true] at hnu; exact hnu.1) (l ++ renderPairs (p :: ps'))
      (.inr (by rw [headD_append_left hne]; exact hhd))
    rw [hstep, litStep_ip l (renderPairs (p :: ps')) hlit hhd hne (.inr hlast) pw', hR]

theorem numPairs_glue : ∀ (ps : List (Tok × List Char)), pairsWF ps = true → (ps.all fun p => noHexT p.1) = true → (ps.all fun p => noUuidT p.1) = true → (ps.all fun p => noIpT p.1) = true →
    subNumGo false 0 (renderPairs ps) =
      renderPairs (ps.map fun p => (mapNumT p.1, p.2))
  | [], _, _, _, _ => rfl
  | [(t, l)], hwf, hnh, hnu, hni => by
    simp only [pairsWF, Bool.and_eq_true, Bool.or_eq_true, List.isEmpty_iff,
      decide_eq_true_eq] at hwf
    obtain ⟨⟨hok, hlit⟩, hse⟩ := hwf
    have hne_or : l = [] ∨ (l ≠ [] ∧ l.headD 'x' = ' ') := by
      rcases hse with rfl | hh
      · exact .inl rfl
      · right
        refine ⟨?_, hh⟩
        intro hx
        rw [hx] at hh
        exact absurd hh (by decide)
    show subNumGo false 0 (renderTok t ++ (l ++ renderPairs ([] : List (Tok × List Char)))) =
      renderTok (mapNumT t) ++ (l ++ renderPairs ([] : List (Tok × List Char)))
    obtain ⟨pw', hstep⟩ := numTok_step t hok (by rw [List.all_cons, Bool.and_eq_true] at hnh; exact hnh.1) (by rw [List.all_cons, Bool.and_eq_true] at hnu; exact hnu.1) (by rw [List.all_cons, Bool.and_eq_true] at hni; exact hni.1) (l ++ renderPairs ([] : List (Tok × List Char)))
      (by
        rcases hne_or with rfl | ⟨hne, hh⟩
        · exact .inl rfl
        · exact .inr (by rw [headD_append_left hne]; exact hh))
    rw [hstep]
    rcases hne_or with rfl | ⟨hne, hh⟩
    · rfl
    · rw [litStep_num l (renderPairs ([] : List (Tok × List Char))) hlit hh hne (.inl rfl) pw']
      rfl
  | (t, l) :: p :: ps', hwf, hnh, hnu, hni => by
    simp only [pairsWF, Bool.and_eq_true, decide_eq_true_eq, beq_iff_eq,
      Bool.not_eq_true'] at hwf
    obtain ⟨⟨⟨⟨⟨hok, hlit⟩, hniE⟩, hhd⟩, hlast⟩, hrest⟩ := hwf
    have hne : l ≠ [] := ne_nil_of_isEmpty_false hniE
    have hR := numPairs_glue (p :: ps') hrest (by rw [List.all_cons, Bool.and_eq_true] at hnh; exact hnh.2) (by rw [List.all_cons, Bool.and_eq_true] at hnu; exact hnu.2) (by rw [List.all_cons, Bool.and_eq_true] at hni; exact hni.2)
    show subNumGo false 0 (renderTok t ++ (l ++ renderPairs (p :: ps'))) =
      renderTok (mapNumT t) ++
        (l ++ renderPairs ((p :: ps').map fun q => (mapNumT q.1, q.2)))
    obtain ⟨pw', hstep⟩ := numTok_step t hok (by rw [List.all_cons, Bool.and_eq_true] at hnh; exact hnh.1) (by rw [List.all_cons, Bool.and_eq_true] at hnu; exact hnu.1) (by rw [List.all_cons, Bool.and_eq_true] at hni; exact hni.1) (l ++ renderPairs (p :: ps'))
      (.inr (by rw [headD_append_left hne]; exact hhd))
    rw [hstep, litStep_num l (renderPairs (p :: ps')) hlit hhd hne (.inr hlast) pw', hR]

/-! ### C4 — whole-message passes and the normal form -/

theorem tokOK_mapHexT {t : Tok} (h : tokOK t = true) : tokOK (mapHexT t) = true := by
  cases t with
  | hex ds => exact (by decide : tokOK (Tok.tag "<hex>".data) = true)
  | _ => exact h

theorem tokOK_mapUuidT {t : Tok} (h : tokOK t = true) : tokOK (mapUuidT t) = true := by
  cases t with
  | uuid a b v c w d e => exact (by decide : tokOK (Tok.tag "<uuid>".data) = true)
  | _ => exact h

theorem tokOK_mapIpT {t : Tok} (h : tokOK t = true) : tokOK (mapIpT t) = true := by
  cases t with
  | ip a b c d => exact (by decide : tokOK (Tok.tag "<ip>".data) = true)
  | _ => exact h

theorem tokOK_mapNumT {t : Tok} (h : tokOK t = true) : tokOK (mapNumT t) = true := by
  cases t with
  | num ds => exact (by decide : tokOK (Tok.tag "<num>".data) = true)
  | _ => exact h

theorem pairsWF_map (f : Tok → Tok)
    (hf : ∀ t, tokOK t = true → tokOK (f t) = true) :
    ∀ ps, pairsWF ps = true → pairsWF (ps.map fun p => (f p.1, p.2)) = true
  | [], _ => rfl
  | [(t, l)], h => by
    simp only [List.map_cons, List.map_nil, pairsWF, Bool.and_eq_true] at h ⊢
    exact ⟨⟨hf t h.1.1, h.1.2⟩, h.2⟩
  | (t, l) :: p :: ps', h => by
    simp only [List.map_cons, pairsWF, Bool.and_eq_true] at h ⊢
    obtain ⟨⟨⟨⟨⟨hok, hlit⟩, hniE⟩, hhd⟩, hlast⟩, hrest⟩ := h
    have hr := pairsWF_map f hf (p :: ps') hrest
    simp only [List.map_cons, pairsWF, Bool.and_eq_true] at hr
    exact ⟨⟨⟨⟨⟨hf t hok, hlit⟩, hniE⟩, hhd⟩, hlast⟩, hr⟩

theorem msgWF_map (f : Tok → Tok)
    (hf : ∀ t, tokOK t = true → tokOK (f t) = true)
    (m : MsgT) (h : msgWF m = true) : msgWF (mapToks f m) = true := by
  simp only [msgWF, mapToks, Bool.and_eq_true, Bool.or_eq_true] at h ⊢
  obtain ⟨⟨⟨hne, hlit⟩, hdisj⟩, hwf⟩ := h
  refine ⟨⟨⟨hne, hlit⟩, ?_⟩, pairsWF_map f hf m.pairs hwf⟩
  rcases hdisj with h | h
  · left
    simpa using h
  · right
    exact h

theorem all_noHex_mapHexT (ps : List (Tok × List Char)) :
    ((ps.map fun p => (mapHexT p.1, p.2)).all fun p => noHexT p.1) = true := by
  rw [List.all_eq_true]
  intro q hq
  obtain ⟨p, -, rfl⟩ := List.mem_map.mp hq
  cases p.1 <;> rfl

theorem all_noHex_map (f : Tok → Tok) (hf : ∀ t, noHexT t = true → noHexT (f t) = true)
    {ps : List (Tok × List Char)} (h : (ps.all fun p => noHexT p.1) = true) :
    ((ps.map fun p => (f p.1, p.2)).all fun p => noHexT p.1) = true := by
  rw [List.all_eq_true] at h ⊢
  intro q hq
  obtain ⟨p, hp, rfl⟩ := List.mem_map.mp hq
  exact hf p.1 (h p hp)

theorem all_noUuid_mapUuidT (ps : List (Tok × List Char)) :
    ((ps.map fun p => (mapUuidT p.1, p.2)).all fun p => noUuidT p.1) = true := by
  rw [List.all_eq_true]
  intro q hq
  obtain ⟨p, -, rfl⟩ := List.mem_map.mp hq
  cases p.1 <;> rfl

theorem all_noUuid_map (f : Tok → Tok)
    (hf : ∀ t, noUuidT t = true → noUuidT (f t) = true)
    {ps : List (Tok × List Char)} (h : (ps.all fun p => noUuidT p.1) = true) :
    ((ps.map fun p => (f p.1, p.2)).all fun p => noUuidT p.1) = true := by
  rw [List.all_eq_true] at h ⊢
  intro q hq
  obtain ⟨p, hp, rfl⟩ := List.mem_map.mp hq
  exact hf p.1 (h p hp)

theorem all_noIp_mapIpT (ps : List (Tok × List Char)) :
    ((ps.map fun p => (mapIpT p.1, p.2)).all fun p => noIpT p.1) = true := by
  rw [List.all_eq_true]
  intro q hq
  obtain ⟨p, -, rfl⟩ := List.mem_map.mp hq
  cases p.1 <;> rfl

theorem noHexT_mapUuidT {t : Tok} (h : noHexT t = true) :
    noHexT (mapUuidT t) = true := by
  cases t <;> first | rfl | exact h

theorem noHexT_mapIpT {t : Tok} (h : noHexT t = true) :
    noHexT (mapIpT t) = true := by
  cases t <;> first | rfl | exact h

theorem noUuidT_mapIpT {t : Tok} (h : noUuidT t = true) :
    noUuidT (mapIpT t) = true := by
  cases t <;> first | rfl | exact h

theorem msgPass_hex (m : MsgT) (hwf : msgWF m = true) :
    subHex false (renderMsg m) = renderMsg (mapToks mapHexT m) := by
  simp only [msgWF, Bool.and_eq_true, Bool.or_eq_true, List.isEmpty_iff,
    beq_iff_eq, Bool.not_eq_true'] at hwf
  obtain ⟨⟨⟨hne, hlit⟩, hdisj⟩, hpwf⟩ := hwf
  unfold subHex renderMsg
  have hd : renderPairs m.pairs = [] ∨ m.head.getLast? = some ' ' := by
    rcases hdisj with h | h
    · exact .inl (by rw [h]; rfl)
    · exact .inr h
  rw [subHexGo_lit m.head false (renderPairs m.pairs) (litOK_nodigit hlit) hd,
    hexPairs_glue m.pairs hpwf]
  rfl

theorem msgPass_uuid (m : MsgT) (hwf : msgWF m = true)
    (hnh : (m.pairs.all fun p => noHexT p.1) = true) :
    subUuid false (renderMsg m) = renderMsg (mapToks mapUuidT m) := by
  simp only [msgWF, Bool.and_eq_true, Bool.or_eq_true, List.isEmpty_iff,
    beq_iff_eq, Bool.not_eq_true'] at hwf
  obtain ⟨⟨⟨hne, hlit⟩, hdisj⟩, hpwf⟩ := hwf
  unfold subUuid renderMsg
  have hd : renderPairs m.pairs = [] ∨ m.head.getLast? = some ' ' := by
    rcases hdisj with h | h
    · exact .inl (by rw [h]; rfl)
    · exact .inr h
  rw [subUuidGo_lit m.head false (renderPairs m.pairs) (litOK_nodigit hlit) hd,
    uuidPairs_glue m.pairs hpwf hnh]
  rfl

theorem msgPass_ip (m : MsgT) (hwf : msgWF m = true)
    (hnh : (m.pairs.all fun p => noHexT p.1) = true)
    (hnu : (m.pairs.all fun p => noUuidT p.1) = true) :
    subIp false (renderMsg m) = renderMsg (mapToks mapIpT m) := by
  simp only [msgWF, Bool.and_eq_true, Bool.or_eq_true, List.isEmpty_iff,
    beq_iff_eq, Bool.not_eq_true'] at hwf
  obtain ⟨⟨⟨hne, hlit⟩, hdisj⟩, hpwf⟩ := hwf
  unfold subIp renderMsg
  have hd : renderPairs m.pairs = [] ∨ m.head.getLast? = some ' ' := by
    rcases hdisj with h | h
    · exact .inl (by rw [h]; rfl)
    · exact .inr h
  rw [subIpGo_lit m.head false (renderPairs m.pairs) (litOK_nodigit hlit) hd,
    ipPairs_glue m.pairs hpwf hnh hnu]
  rfl

theorem msgPass_num (m : MsgT) (hwf : msgWF m = true)
    (hnh : (m.pairs.all fun p => noHexT p.1) = true)
    (hnu : (m.pairs.all fun p => noUuidT p.1) = true)
    (hni : (m.pairs.all fun p => noIpT p.1) = true) :
    subNum false (renderMsg m) = renderMsg (mapToks mapNumT m) := by
  simp only [msgWF, Bool.and_eq_true, Bool.or_eq_true, List.isEmpty_iff,
    beq_iff_eq, Bool.not_eq_true'] at hwf
  obtain ⟨⟨⟨hne, hlit⟩, hdisj⟩, hpwf⟩ := hwf
  unfold subNum renderMsg
  have hd : renderPairs m.pairs = [] ∨ m.head.getLast? = some ' ' := by
    rcases hdisj with h | h
    · exact .inl (by rw [h]; rfl)
    · exact .inr h
  rw [subNumGo_lit m.head false (renderPairs m.pairs) (litOK_nodigit hlit) hd,
    numPairs_glue m.pairs hpwf hnh hnu hni]
  rfl

theorem normMsg_eq (m : MsgT) (hwf : msgWF m = true) :
    subNum false (subIp false (subUuid false (subHex false (renderMsg m)))) =
      renderMsg (nfMsg m) := by
  have h1 := msgPass_hex m hwf
  have hwf1 : msgWF (mapToks mapHexT m) = true :=
    msgWF_map mapHexT (fun _ => tokOK_mapHexT) m hwf
  have hnh1 : ((mapToks mapHexT m).pairs.all fun p => noHexT p.1) = true :=
    all_noHex_mapHexT m.pairs
  have h2 := msgPass_uuid (mapToks mapHexT m) hwf1 hnh1
  have hwf2 : msgWF (mapToks mapUuidT (mapToks mapHexT m)) = true :=
    msgWF_map mapUuidT (fun _ => tokOK_mapUuidT) _ hwf1
  have hnh2 : ((mapToks mapUuidT (mapToks mapHexT m)).pairs.all fun p => noHexT p.1) = true :=
    all_noHex_map mapUuidT (fun _ => noHexT_mapUuidT) hnh1
  have hnu2 : ((mapToks mapUuidT (mapToks mapHexT m)).pairs.all fun p => noUuidT p.1) = true :=
    all_noUuid_mapUuidT _
  have h3 := msgPass_ip _ hwf2 hnh2 hnu2
  have hwf3 : msgWF (mapToks mapIpT (mapToks mapUuidT (mapToks mapHexT m))) = true :=
    msgWF_map mapIpT (fun _ => tokOK_mapIpT) _ hwf2
  have hnh3 := all_noHex_map mapIpT (fun _ => noHexT_mapIpT) hnh2
  have hnu3 := all_noUuid_map mapIpT (fun _ => noUuidT_mapIpT) hnu2
  have hni3 := all_noIp_mapIpT (mapToks mapUuidT (mapToks mapHexT m)).pairs
  have h4 := msgPass_num _ hwf3 hnh3 hnu3 hni3
  rw [h1, h2, h3] at *
  rw [h4]
  rfl

/-! ### C4 — the normal form depends only on the skeleton -/

theorem sameSkel_tokNF {t t' : Tok} (h : sameKind t t' = true) :
    renderTok (mapNumT (mapIpT (mapUuidT (mapHexT t)))) =
      renderTok (mapNumT (mapIpT (mapUuidT (mapHexT t')))) := by
  cases t <;> cases t' <;>
    first
      | rfl
      | (simp only [sameKind] at h; cases h)
      | (simp only [sameKind, beq_iff_eq] at h; rw [h])

theorem renderPairs_nf_skel : ∀ ps₁ ps₂ : List (Tok × List Char),
    sameSkel ps₁ ps₂ = true →
    renderPairs (ps₁.map fun p => (mapNumT (mapIpT (mapUuidT (mapHexT p.1))), p.2)) =
      renderPairs (ps₂.map fun p => (mapNumT (mapIpT (mapUuidT (mapHexT p.1))), p.2))
  | [], [], _ => rfl
  | (t, l) :: ps, (t', l') :: ps', h => by
    simp only [sameSkel, Bool.and_eq_true, beq_iff_eq] at h
    obtain ⟨⟨hk, hl⟩, hs⟩ := h
    simp only [List.map_cons]
    show renderTok (mapNumT (mapIpT (mapUuidT (mapHexT t)))) ++ (l ++ _) =
      renderTok (mapNumT (mapIpT (mapUuidT (mapHexT t')))) ++ (l' ++ _)
    rw [sameSkel_tokNF hk, hl, renderPairs_nf_skel ps ps' hs]
  | [], (t, l) :: _, h => by simp [sameSkel] at h
  | (t, l) :: _, [], h => by simp [sameSkel] at h

theorem nfMsg_pairs (m : MsgT) :
    (nfMsg m).pairs =
      m.pairs.map fun p => (mapNumT (mapIpT (mapUuidT (mapHexT p.1))), p.2) := by
  simp [nfMsg, mapToks, List.map_map, Function.comp]

theorem renderMsg_nf_skel {m₁ m₂ : MsgT} (hh : m₁.head = m₂.head)
    (hsk : sameSkel m₁.pairs m₂.pairs = true) :
    renderMsg (nfMsg m₁) = renderMsg (nfMsg m₂) := by
  unfold renderMsg
  rw [show (nfMsg m₁).head = m₁.head from rfl,
    show (nfMsg m₂).head = m₂.head from rfl, hh,
    nfMsg_pairs, nfMsg_pairs, renderPairs_nf_skel m₁.pairs m₂.pairs hsk]

theorem normaliseL_skel {m₁ m₂ : MsgT} (h₁ : msgWF m₁ = true)
    (h₂ : msgWF m₂ = true) (hh : m₁.head = m₂.head)
    (hsk : sameSkel m₁.pairs m₂.pairs = true) :
    normaliseL (renderMsg m₁) = normaliseL (renderMsg m₂) := by
  unfold normaliseL
  rw [normMsg_eq m₁ h₁, normMsg_eq m₂ h₂, renderMsg_nf_skel hh hsk]

/-! ### C4 — the surrounding pipeline: timestamp, line, level, candidate -/

theorem dropDigitsN_exact : ∀ (w r : List Char), w.all isDigitC = true →
    dropDigitsN w.length (w ++ r) = some r
  | [], _, _ => rfl
  | c :: w', r, h => by
    rw [List.all_cons, Bool.and_eq_true] at h
    rw [List.length_cons, List.cons_append]
    show (if isDigitC c then dropDigitsN w'.length (w' ++ r) else none) = some r
    rw [if_pos h.1, dropDigitsN_exact w' r h.2]

theorem takeWhile_all {p : Char → Bool} : ∀ {l : List Char},
    l.all p = true → l.takeWhile p = l
  | [], _ => rfl
  | c :: t, h => by
    rw [List.all_cons, Bool.and_eq_true] at h
    rw [List.takeWhile_cons, if_pos h.1, takeWhile_all h.2]

theorem dropWhile_all {p : Char → Bool} : ∀ {l : List Char},
    l.all p = true → l.dropWhile p = []
  | [], _ => rfl
  | c :: t, h => by
    rw [List.all_cons, Bool.and_eq_true] at h
    rw [List.dropWhile_cons, if_pos h.1, dropWhile_all h.2]

theorem dropWhile_of_head {p : Char → Bool} {l : List Char}
    (h : ∀ c, l.head? = some c → p c = false) : l.dropWhile p = l := by
  cases l with
  | nil => rfl
  | cons c t =>
    rw [List.dropWhile_cons, if_neg (by rw [h c rfl]; simp)]

theorem obind {α β : Type} (a : α) (f : α → Option β) :
    ((some a : Option α) >>= f) = f a := rfl

theorem dropDigitsN_len (n : Nat) (w r : List Char) (hn : w.length = n)
    (hw : w.all isDigitC = true) : dropDigitsN n (w ++ r) = some r := by
  subst hn
  exact dropDigitsN_exact w r hw

theorem digit_not_space {c : Char} (h : isDigitC c = true) : isSpaceC c = false := by
  cases hq : isSpaceC c
  · rfl
  · exfalso
    simp only [isSpaceC, Bool.or_eq_true, decide_eq_true_eq] at hq
    rcases hq with ((((h1 | h1) | h1) | h1) | h1) | h1 <;>
      rw [h1] at h <;> exact absurd h (by decide)

theorem stepSepTs_of {c : Char} (h : c = ' ' ∨ c = 'T') (r : List Char) :
    stepSepTs (c :: r) = some r := by
  rcases h with rfl | rfl <;> rfl

theorem dropSpaces_pad : ∀ (pad r : List Char), (pad.all fun c => c = ' ') = true →
    (pad ++ '[' :: r).dropWhile isSpaceC = '[' :: r
  | [], r, _ => by
    rw [List.nil_append, List.dropWhile_cons, if_neg (by decide)]
  | a :: pad', r, hp => by
    rw [List.all_cons, Bool.and_eq_true, decide_eq_true_eq] at hp
    obtain ⟨rfl, hp⟩ := hp
    rw [List.cons_append, List.dropWhile_cons, if_pos (by decide)]
    exact dropSpaces_pad pad' r hp

theorem head_pad_r {pad r : List Char} {c : Char}
    (hp : (pad.all fun x => x = ' ') = true)
    (h : (pad ++ '[' :: r).head? = some c) : c = ' ' ∨ c = '[' := by
  cases pad with
  | nil =>
    rw [List.nil_append] at h
    exact Or.inr (Option.some.inj h).symm
  | cons a pad' =>
    rw [List.all_cons, Bool.and_eq_true, decide_eq_true_eq] at hp
    rw [List.cons_append] at h
    exact Or.inl ((Option.some.inj h).symm.trans hp.1)

theorem fracId_pad (pad r : List Char) (hp : (pad.all fun c => c = ' ') = true) :
    fracStep (pad ++ '[' :: r) = pad ++ '[' :: r := by
  cases pad with
  | nil => rw [List.nil_append]; rfl
  | cons a pad' =>
    rw [List.all_cons, Bool.and_eq_true, decide_eq_true_eq] at hp
    obtain ⟨rfl, hp⟩ := hp
    rw [List.cons_append]
    rfl

theorem zDrop_pad (pad r : List Char) (hp : (pad.all fun c => c = ' ') = true) :
    (zStep (pad ++ '[' :: r)).dropWhile isSpaceC = '[' :: r := by
  cases pad with
  | nil =>
    rw [List.nil_append, show zStep ('[' :: r) = '[' :: r from rfl,
      List.dropWhile_cons, if_neg (by decide)]
  | cons a pad' =>
    rw [List.all_cons, Bool.and_eq_true, decide_eq_true_eq] at hp
    obtain ⟨rfl, hp⟩ := hp
    rw [List.cons_append,
      show zStep (' ' :: (pad' ++ '[' :: r)) = ' ' :: (pad' ++ '[' :: r) from rfl,
      List.dropWhile_cons, if_pos (by decide)]
    exact dropSpaces_pad pad' r hp

theorem dropDigits_run : ∀ (ds r : List Char), ds.all isDigitC = true →
    (∀ c, r.head? = some c → isDigitC c = false) →
    (ds ++ r).dropWhile isDigitC = r
  | [], r, _, hr => by rw [List.nil_append]; exact dropWhile_of_head hr
  | d :: ds', r, hd, hr => by
    rw [List.all_cons, Bool.and_eq_true] at hd
    rw [List.cons_append, List.dropWhile_cons, if_pos hd.1]
    exact dropDigits_run ds' r hd.2 hr

theorem fracStep_digits {c : Char} (hc : c = '.' ∨ c = ',') {d : Char}
    (hd : isDigitC d = true) (ds r : List Char) (hds : ds.all isDigitC = true)
    (hr : ∀ x, r.head? = some x → isDigitC x = false) :
    fracStep (c :: d :: (ds ++ r)) = r := by
  have key : (d :: (ds ++ r)).dropWhile isDigitC = r := by
    rw [show d :: (ds ++ r) = (d :: ds) ++ r from rfl]
    exact dropDigits_run (d :: ds) r
      (by rw [List.all_cons, Bool.and_eq_true]; exact ⟨hd, hds⟩) hr
  rcases hc with rfl | rfl
  · rw [show fracStep ('.' :: d :: (ds ++ r)) =
        if isDigitC d then (d :: (ds ++ r)).dropWhile isDigitC
        else '.' :: d :: (ds ++ r) from rfl, if_pos hd, key]
  · rw [show fracStep (',' :: d :: (ds ++ r)) =
        if isDigitC d then (d :: (ds ++ r)).dropWhile isDigitC
        else ',' :: d :: (ds ++ r) from rfl, if_pos hd, key]

theorem tryTs_front (y mo dy : List Char) (sep : Char) (hh mi ss T : List Char)
    (hy4 : y.length = 4) (hy : y.all isDigitC = true)
    (hm2 : mo.length = 2) (hm : mo.all isDigitC = true)
    (hd2 : dy.length = 2) (hd : dy.all isDigitC = true)
    (hsep : sep = ' ' ∨ sep = 'T')
    (hh2 : hh.length = 2) (hhd : hh.all isDigitC = true)
    (hmi2 : mi.length = 2) (hmid : mi.all isDigitC = true)
    (hs2 : ss.length = 2) (hsd : ss.all isDigitC = true) :
    tryTs (y ++ '-' :: (mo ++ '-' :: (dy ++ sep :: (hh ++ ':' :: (mi ++ ':' :: (ss ++ T)))))) =
      some ((zStep (fracStep T)).dropWhile isSpaceC) := by
  obtain ⟨y0, y', rfl⟩ : ∃ c w, y = c :: w := by
    cases y with
    | nil => simp at hy4
    | cons c w => exact ⟨c, w, rfl⟩
  have hy0 : isDigitC y0 = true := by
    rw [List.all_cons, Bool.and_eq_true] at hy
    exact hy.1
  unfold tryTs
  rw [List.cons_append, List.dropWhile_cons,
    if_neg (by rw [digit_not_space hy0]; simp), ← List.cons_append,
    dropDigitsN_len 4 (y0 :: y') _ hy4 hy]
  simp only [obind, stepDash]
  rw [dropDigitsN_len 2 mo _ hm2 hm]
  simp only [obind, stepDash]
  rw [dropDigitsN_len 2 dy _ hd2 hd]
  simp only [obind]
  rw [stepSepTs_of hsep]
  simp only [obind]
  rw [dropDigitsN_len 2 hh _ hh2 hhd]
  simp only [obind, stepColon]
  rw [dropDigitsN_len 2 mi _ hmi2 hmid]
  simp only [obind, stepColon]
  rw [dropDigitsN_len 2 ss _ hs2 hsd]
  simp only [obind]
  rfl

theorem tryTs_render (t : TsP) (rr : List Char) (hok : tsOK t = true) :
    tryTs (renderTs t ++ '[' :: rr) = some ('[' :: rr) := by
  simp only [tsOK, Bool.and_eq_true, beq_iff_eq, Bool.or_eq_true,
    decide_eq_true_eq] at hok
  obtain ⟨⟨⟨⟨⟨⟨⟨⟨⟨⟨⟨⟨⟨⟨hy4, hy⟩, hm2⟩, hm⟩, hd2⟩, hd⟩, hsep⟩, hh2⟩, hhd⟩, hmi2⟩, hmid⟩, hs2⟩, hsd⟩, hfr⟩, hpad⟩ := hok
  rcases hq : t.frac with _ | ⟨fc, fds⟩
  · cases hz : t.z
    · have e0 : renderTs t ++ '[' :: rr =
          t.y ++ '-' :: (t.mo ++ '-' :: (t.dy ++ t.sep :: (t.hh ++ ':' ::
            (t.mi ++ ':' :: (t.ss ++ (t.pad ++ '[' :: rr)))))) := by
        simp [renderTs, hq, hz]
      rw [e0, tryTs_front _ _ _ _ _ _ _ _ hy4 hy hm2 hm hd2 hd hsep hh2 hhd
        hmi2 hmid hs2 hsd, fracId_pad _ _ hpad, zDrop_pad _ _ hpad]
    · have e0 : renderTs t ++ '[' :: rr =
          t.y ++ '-' :: (t.mo ++ '-' :: (t.dy ++ t.sep :: (t.hh ++ ':' ::
            (t.mi ++ ':' :: (t.ss ++ ('Z' :: (t.pad ++ '[' :: rr))))))) := by
        simp [renderTs, hq, hz]
      rw [e0, tryTs_front _ _ _ _ _ _ _ _ hy4 hy hm2 hm hd2 hd hsep hh2 hhd
        hmi2 hmid hs2 hsd,
        show fracStep ('Z' :: (t.pad ++ '[' :: rr)) =
          'Z' :: (t.pad ++ '[' :: rr) from rfl,
        show zStep ('Z' :: (t.pad ++ '[' :: rr)) = t.pad ++ '[' :: rr from rfl,
        dropSpaces_pad _ _ hpad]
  · rw [hq] at hfr
    simp only [Bool.and_eq_true, Bool.or_eq_true, decide_eq_true_eq,
      Bool.not_eq_true'] at hfr
    obtain ⟨⟨hfc, hne⟩, hfds⟩ := hfr
    obtain ⟨d0, fds', rfl⟩ : ∃ c w, fds = c :: w := by
      cases fds with
      | nil => simp at hne
      | cons c w => exact ⟨c, w, rfl⟩
    rw [List.all_cons, Bool.and_eq_true] at hfds
    cases hz : t.z
    · have e0 : renderTs t ++ '[' :: rr =
          t.y ++ '-' :: (t.mo ++ '-' :: (t.dy ++ t.sep :: (t.hh ++ ':' ::
            (t.mi ++ ':' :: (t.ss ++ (fc :: d0 ::
              (fds' ++ (t.pad ++ '[' :: rr)))))))) := by
        simp [renderTs, hq, hz]
      rw [e0, tryTs_front _ _ _ _ _ _ _ _ hy4 hy hm2 hm hd2 hd hsep hh2 hhd
        hmi2 hmid hs2 hsd,
        fracStep_digits hfc hfds.1 fds' (t.pad ++ '[' :: rr) hfds.2
          (fun c h => by rcases head_pad_r hpad h with rfl | rfl <;> decide),
        zDrop_pad _ _ hpad]
    · have e0 : renderTs t ++ '[' :: rr =
          t.y ++ '-' :: (t.mo ++ '-' :: (t.dy ++ t.sep :: (t.hh ++ ':' ::
            (t.mi ++ ':' :: (t.ss ++ (fc :: d0 ::
              (fds' ++ ('Z' :: (t.pad ++ '[' :: rr))))))))) := by
        simp [renderTs, hq, hz]
      rw [e0, tryTs_front _ _ _ _ _ _ _ _ hy4 hy hm2 hm hd2 hd hsep hh2 hhd
        hmi2 hmid hs2 hsd,
        fracStep_digits hfc hfds.1 fds' ('Z' :: (t.pad ++ '[' :: rr)) hfds.2
          (fun c h => by cases Option.some.inj h; decide),
        show zStep ('Z' :: (t.pad ++ '[' :: rr)) = t.pad ++ '[' :: rr from rfl,
        dropSpaces_pad _ _ hpad]


/-! ### C4 — character facts for the rendered line -/

theorem all_mono {p q : Char → Bool} (hpq : ∀ c, p c = true → q c = true) :
    ∀ {l : List Char}, l.all p = true → l.all q = true
  | [], _ => rfl
  | c :: t, h => by
    rw [List.all_cons, Bool.and_eq_true] at h ⊢
    exact ⟨hpq c h.1, all_mono hpq h.2⟩

theorem all_append_tt {p : Char → Bool} {l₁ l₂ : List Char}
    (h₁ : l₁.all p = true) (h₂ : l₂.all p = true) : (l₁ ++ l₂).all p = true := by
  rw [List.all_append, Bool.and_eq_true]
  exact ⟨h₁, h₂⟩

theorem all_cons_tt {p : Char → Bool} {c : Char} {l : List Char}
    (hc : p c = true) (hl : l.all p = true) : ((c :: l).all p) = true := by
  rw [List.all_cons, Bool.and_eq_true]
  exact ⟨hc, hl⟩

theorem nl_of_safe {c : Char} (h : (msgChar c || isDigitC c) = true) :
    (!(c = '\n' || c = '\x0d' || c = Char.ofNat 11 || c = Char.ofNat 12)) = true := by
  rw [Bool.or_eq_true] at h
  rcases h with h | h
  · simp only [msgChar, Bool.and_eq_true, decide_eq_true_eq] at h
    simp only [Bool.not_eq_true', Bool.or_eq_false_iff, decide_eq_false_iff_not]
    exact ⟨⟨⟨h.1.1.1.1.2, h.1.1.1.2⟩, h.1.1.2⟩, h.1.2⟩
  · simp only [Bool.not_eq_true', Bool.or_eq_false_iff, decide_eq_false_iff_not]
    refine ⟨⟨⟨?_, ?_⟩, ?_⟩, ?_⟩ <;> intro hc <;> rw [hc] at h <;>
      exact absurd h (by decide)

theorem nb_of_safe {c : Char} (h : (msgChar c || isDigitC c) = true) :
    (decide (c ≠ braceO)) = true := by
  rw [Bool.or_eq_true] at h
  simp only [decide_eq_true_eq]
  rcases h with h | h
  · simp only [msgChar, Bool.and_eq_true, decide_eq_true_eq] at h
    exact h.2
  · intro hc
    rw [hc] at h
    exact absurd h (by decide)

theorem digit_safe {c : Char} (h : isDigitC c = true) :
    (msgChar c || isDigitC c) = true := by
  rw [Bool.or_eq_true]
  exact Or.inr h

theorem msg_safe {c : Char} (h : msgChar c = true) :
    (msgChar c || isDigitC c) = true := by
  rw [Bool.or_eq_true]
  exact Or.inl h

theorem sep_safe {c : Char} (h : isSepC c = true) :
    (msgChar c || isDigitC c) = true := by
  simp only [isSepC, Bool.or_eq_true, decide_eq_true_eq] at h
  rcases h with (rfl | rfl) | rfl <;> decide

theorem msgChar_of_bounds {c : Char} (h1 : (97 : Nat) ≤ c.val.toNat)
    (h2 : c.val.toNat ≤ 122) : msgChar c = true := by
  have hd : isDigitC c = false := by
    cases hq : isDigitC c
    · rfl
    · exfalso
      simp only [isDigitC, Char.isDigit, Bool.and_eq_true, decide_eq_true_eq] at hq
      have : c.val.toNat ≤ 57 := hq.2
      omega
  simp only [msgChar, hd, Bool.not_false, Bool.and_eq_true, decide_eq_true_eq]
  refine ⟨⟨⟨⟨⟨trivial, ?_⟩, ?_⟩, ?_⟩, ?_⟩, ?_⟩ <;> intro hc <;>
    rw [hc] at h1 h2 <;> revert h1 h2 <;> decide

theorem msgChar_of_bounds_up {c : Char} (h1 : (65 : Nat) ≤ c.val.toNat)
    (h2 : c.val.toNat ≤ 90) : msgChar c = true := by
  have hd : isDigitC c = false := by
    cases hq : isDigitC c
    · rfl
    · exfalso
      simp only [isDigitC, Char.isDigit, Bool.and_eq_true, decide_eq_true_eq] at hq
      have h48 : (48 : Nat) ≤ c.val.toNat := hq.1
      have : c.val.toNat ≤ 57 := hq.2
      omega
  simp only [msgChar, hd, Bool.not_false, Bool.and_eq_true, decide_eq_true_eq]
  refine ⟨⟨⟨⟨⟨trivial, ?_⟩, ?_⟩, ?_⟩, ?_⟩, ?_⟩ <;> intro hc <;>
    rw [hc] at h1 h2 <;> revert h1 h2 <;> decide

theorem hex_safe {c : Char} (h : isHexC c = true) :
    (msgChar c || isDigitC c) = true := by
  simp only [isHexC, Bool.or_eq_true, Bool.and_eq_true, decide_eq_true_eq] at h
  rcases h with (h | ⟨h1, h2⟩) | ⟨h1, h2⟩
  · rw [Bool.or_eq_true]; exact Or.inr h
  · rw [Bool.or_eq_true]
    rw [Char.le_def] at h1 h2
    have n1 : (97 : Nat) ≤ c.val.toNat := h1
    have n2 : c.val.toNat ≤ 102 := h2
    exact Or.inl (msgChar_of_bounds n1 (by omega))
  · rw [Bool.or_eq_true]
    rw [Char.le_def] at h1 h2
    have n1 : (65 : Nat) ≤ c.val.toNat := h1
    have n2 : c.val.toNat ≤ 70 := h2
    exact Or.inl (msgChar_of_bounds_up n1 (by omega))

theorem digit_ne_brace {c : Char} (h : isDigitC c = true) : c ≠ braceO :=
  fun hc => absurd (hc ▸ h) (by decide)

/-- Every character a valid token renders satisfies `msgChar ∨ digit`. -/
theorem renderTok_safe {t : Tok} (h : tokOK t = true) :
    (renderTok t).all (fun c => msgChar c || isDigitC c) = true := by
  cases t with
  | num ds =>
    simp only [tokOK, Bool.and_eq_true] at h
    exact all_mono (fun c => digit_safe) h.2
  | hex ds =>
    simp only [tokOK, Bool.and_eq_true] at h
    exact all_cons_tt (by decide)
      (all_cons_tt (by decide) (all_mono (fun c => hex_safe) h.2))
  | ip a b c d =>
    simp only [tokOK, Bool.and_eq_true] at h
    exact all_append_tt (all_append_tt (all_append_tt
      (all_mono (fun _ => digit_safe) h.1.1.1.2)
      (all_cons_tt (by decide) (all_mono (fun _ => digit_safe) h.1.1.2.2)))
      (all_cons_tt (by decide) (all_mono (fun _ => digit_safe) h.1.2.2)))
      (all_cons_tt (by decide) (all_mono (fun _ => digit_safe) h.2.2))
  | uuid a b v c w d e =>
    simp only [tokOK, Bool.and_eq_true, decide_eq_true_eq, Bool.or_eq_true,
      beq_iff_eq] at h
    obtain ⟨⟨⟨⟨⟨⟨⟨⟨⟨⟨⟨ha8, ha⟩, hb4⟩, hb⟩, hv1, hv5⟩, hc3⟩, hc⟩, hw⟩, hd3⟩,
      hd⟩, he12⟩, he⟩ := h
    have hwsafe : (msgChar w || isDigitC w) = true := by
      rcases hw with ((((rfl | rfl) | rfl) | rfl) | rfl) | rfl <;> decide
    exact all_append_tt (all_append_tt (all_append_tt (all_append_tt
      (all_mono (fun _ => hex_safe) ha)
      (all_cons_tt (by decide) (all_mono (fun _ => hex_safe) hb)))
      (all_cons_tt (by decide) (all_cons_tt (digit_safe (ver_isDigit hv1 hv5))
        (all_mono (fun _ => hex_safe) hc))))
      (all_cons_tt (by decide) (all_cons_tt hwsafe
        (all_mono (fun _ => hex_safe) hd))))
      (all_cons_tt (by decide) (all_mono (fun _ => hex_safe) he))
  | tag s =>
    have hs := tag_mem_of_tokOK h
    fin_cases hs <;> decide

theorem renderPairs_safe : ∀ {ps : List (Tok × List Char)}, pairsWF ps = true →
    (renderPairs ps).all (fun c => msgChar c || isDigitC c) = true
  | [], _ => rfl
  | [(t, l)], h => by
    simp only [pairsWF, Bool.and_eq_true] at h
    exact all_append_tt (renderTok_safe h.1.1)
      (all_append_tt (all_mono (fun c => msg_safe) h.1.2) rfl)
  | (t, l) :: p :: ps, h => by
    simp only [pairsWF, Bool.and_eq_true] at h
    exact all_append_tt (renderTok_safe h.1.1.1.1.1)
      (all_append_tt (all_mono (fun c => msg_safe) h.1.1.1.1.2)
        (renderPairs_safe h.2))

theorem renderMsg_safe {m : MsgT} (h : msgWF m = true) :
    (renderMsg m).all (fun c => msgChar c || isDigitC c) = true := by
  simp only [msgWF, Bool.and_eq_true] at h
  exact all_append_tt (all_mono (fun c => msg_safe) h.1.1.2)
    (renderPairs_safe h.2)

theorem renderTs_safe {t : TsP} (h : tsOK t = true) :
    (renderTs t).all (fun c => msgChar c || isDigitC c) = true := by
  simp only [tsOK, Bool.and_eq_true, beq_iff_eq, Bool.or_eq_true,
    decide_eq_true_eq] at h
  obtain ⟨⟨⟨⟨⟨⟨⟨⟨⟨⟨⟨⟨⟨⟨hy4, hy⟩, hm2⟩, hm⟩, hd2⟩, hd⟩, hsep⟩, hh2⟩, hhd⟩,
    hmi2⟩, hmid⟩, hs2⟩, hsd⟩, hfr⟩, hpad⟩ := h
  have hsepc : (msgChar t.sep || isDigitC t.sep) = true := by
    rcases hsep with h | h <;> rw [h] <;> decide
  have hfrac : ((match t.frac with
      | some (c, ds) => c :: ds
      | none => []).all fun c => msgChar c || isDigitC c) = true := by
    rcases hq : t.frac with _ | ⟨fc, fds⟩
    · rfl
    · rw [hq] at hfr
      simp only [Bool.and_eq_true, Bool.or_eq_true, decide_eq_true_eq] at hfr
      have hfc : (msgChar fc || isDigitC fc) = true := by
        rcases hfr.1.1 with rfl | rfl <;> decide
      exact all_cons_tt hfc (all_mono (fun _ => digit_safe) hfr.2)
  have hzp : ((if t.z then ['Z'] else []).all
      fun c => msgChar c || isDigitC c) = true := by
    cases t.z
    · rfl
    · decide
  have hpad' : (t.pad.all fun c => msgChar c || isDigitC c) = true :=
    all_mono (fun c hc => by rw [of_decide_eq_true hc]; decide) hpad
  exact all_append_tt (all_append_tt (all_append_tt (all_append_tt
    (all_append_tt (all_append_tt (all_append_tt (all_append_tt
      (all_mono (fun _ => digit_safe) hy)
      (all_cons_tt (by decide) (all_mono (fun _ => digit_safe) hm)))
      (all_cons_tt (by decide) (all_mono (fun _ => digit_safe) hd)))
      (all_cons_tt hsepc (all_mono (fun _ => digit_safe) hhd)))
      (all_cons_tt (by decide) (all_mono (fun _ => digit_safe) hmid)))
      (all_cons_tt (by decide) (all_mono (fun _ => digit_safe) hsd)))
      hfrac) hzp) hpad'

theorem levelStr_safe {lvl : String} (h : lvl ∈ levelStrs) :
    lvl.data.all (fun c => msgChar c || isDigitC c) = true := by
  fin_cases h <;> decide

/-- All characters of a valid blob are line-terminator free. -/
theorem blob_nl {b : List Char} (hb : blobOK b = true) :
    (b.all fun c =>
      !(c = '\n' || c = '\x0d' || c = Char.ofNat 11 || c = Char.ofNat 12)) = true := by
  simp only [blobOK, Bool.and_eq_true, decide_eq_true_eq, beq_iff_eq] at hb
  obtain ⟨⟨⟨⟨hhead, hlast⟩, hlen⟩, hinner⟩, -⟩ := hb
  cases b with
  | nil => rfl
  | cons b0 btl =>
    have hb0 : b0 = braceO := hhead
    have hne : btl ≠ [] := by
      intro hq
      rw [hq] at hlen
      simp at hlen
    have hinner' : (btl.dropLast.all fun c =>
        !(c = '\n' || c = '\x0d' || c = Char.ofNat 11 || c = Char.ofNat 12)) = true := by
      simpa using hinner
    have hlastc : btl.getLast hne = braceC := by
      have h1 := List.getLast?_eq_getLast (b0 :: btl) (List.cons_ne_nil _ _)
      rw [h1] at hlast
      have h2 := Option.some.inj hlast
      rw [List.getLast_cons hne] at h2
      exact h2
    refine all_cons_tt (by rw [hb0]; decide) ?_
    have hsplit := List.dropLast_append_getLast hne
    rw [← hsplit]
    exact all_append_tt hinner'
      (all_cons_tt (by rw [hlastc]; decide) rfl)

theorem stripL_id {l : List Char} (h1 : ∀ c, l.head? = some c → isSpaceC c = false)
    (h2 : ∀ c, l.getLast? = some c → isSpaceC c = false) : stripL l = l := by
  unfold stripL
  rw [dropWhile_of_head h1, dropWhile_of_head
    (fun c hc => h2 c (by rwa [← List.head?_reverse])), List.reverse_reverse]

theorem stripL_append_space {w : List Char}
    (h1 : ∀ c, w.head? = some c → isSpaceC c = false)
    (h2 : ∀ c, w.getLast? = some c → isSpaceC c = false) :
    stripL (w ++ [' ']) = w := by
  cases hw : w with
  | nil => decide
  | cons c0 t =>
    subst hw
    unfold stripL
    have hfront : ((c0 :: t) ++ [' ']).dropWhile isSpaceC = (c0 :: t) ++ [' '] := by
      rw [List.cons_append, List.dropWhile_cons, if_neg (by rw [h1 c0 rfl]; simp)]
    rw [hfront, List.reverse_append, List.reverse_singleton,
      List.singleton_append, List.dropWhile_cons, if_pos (by decide),
      dropWhile_of_head (fun c hc => h2 c (by rwa [List.head?_reverse] at hc)),
      List.reverse_reverse]


/-! ### C4 — the level search and the `Details:` search on the template -/

theorem findBrk_render {lvl : String} (hl : lvl ∈ levelStrs) (rest : List Char) :
    findBrk ('[' :: (lvl.data ++ ']' :: rest)) = some (lvl, rest) := by
  fin_cases hl <;> simp [findBrk, matchLevelWord, List.firstM, String.length]

theorem rank_debug_false {lvl : String} (hl : lvl ∈ levelStrs) :
    ¬(rankGet lvl 0 < rankGet "DEBUG" 2) := by
  fin_cases hl <;> decide

theorem all_drop {p : Char → Bool} (n : Nat) {l : List Char}
    (h : l.all p = true) : (l.drop n).all p = true := by
  rw [List.all_eq_true] at h ⊢
  exact fun x hx => h x (List.drop_subset n l hx)

theorem detailsTail_none {body : List Char} (h : body.headD ' ' ≠ braceO) :
    detailsTail body = none := by
  unfold detailsTail
  rw [if_neg (fun hc => h hc.1), if_neg (fun hc => h hc.1)]

theorem headD_dropWhile_nb {v : List Char}
    (hv : (v.all fun c => decide (c ≠ braceO)) = true) (p : Char → Bool) :
    (v.dropWhile p).headD ' ' ≠ braceO := by
  cases hq : v.dropWhile p with
  | nil => decide
  | cons a t =>
    have ha : a ∈ v := by
      have hs : v.dropWhile p <:+ v := List.dropWhile_suffix p
      exact hs.sublist.subset (by rw [hq]; exact List.mem_cons_self a t)
    rw [List.all_eq_true] at hv
    have := of_decide_eq_true (hv a ha)
    simpa using this

theorem headD_dropWhile_append_nb {v t : List Char}
    (hv : (v.all fun c => decide (c ≠ braceO)) = true)
    (ht : (t.dropWhile isSpaceC).headD ' ' ≠ braceO) :
    ((v ++ t).dropWhile isSpaceC).headD ' ' ≠ braceO := by
  induction v with
  | nil => simpa using ht
  | cons a v' ih =>
    rw [List.all_cons, Bool.and_eq_true] at hv
    rw [List.cons_append, List.dropWhile_cons]
    by_cases hsp : isSpaceC a = true
    · rw [if_pos hsp]
      exact ih hv.2
    · rw [if_neg hsp]
      have := of_decide_eq_true hv.1
      simpa using this

theorem drop8_nb : ∀ (w : List Char), ∀ b : List Char,
    (w.all fun c => decide (c ≠ braceO)) = true →
    (((w ++ ' ' :: 'D' :: 'e' :: 't' :: 'a' :: 'i' :: 'l' :: 's' :: ':' ::
        ' ' :: b).drop 8).dropWhile isSpaceC).headD ' ' ≠ braceO
  | [], b, _ => by
    show (((':' :: ' ' :: b)).dropWhile isSpaceC).headD ' ' ≠ braceO
    simp [List.dropWhile_cons, isSpaceC, braceO]
  | [c1], b, _ => by
    show ((('s' :: ':' :: ' ' :: b)).dropWhile isSpaceC).headD ' ' ≠ braceO
    simp [List.dropWhile_cons, isSpaceC, braceO]
  | [c1, c2], b, _ => by
    show ((('l' :: 's' :: ':' :: ' ' :: b)).dropWhile isSpaceC).headD ' ' ≠ braceO
    simp [List.dropWhile_cons, isSpaceC, braceO]
  | [c1, c2, c3], b, _ => by
    show ((('i' :: 'l' :: 's' :: ':' :: ' ' :: b)).dropWhile isSpaceC).headD ' ' ≠
      braceO
    simp [List.dropWhile_cons, isSpaceC, braceO]
  | [c1, c2, c3, c4], b, _ => by
    show ((('a' :: 'i' :: 'l' :: 's' :: ':' :: ' ' :: b)).dropWhile
      isSpaceC).headD ' ' ≠ braceO
    simp [List.dropWhile_cons, isSpaceC, braceO]
  | [c1, c2, c3, c4, c5], b, _ => by
    show ((('t' :: 'a' :: 'i' :: 'l' :: 's' :: ':' :: ' ' :: b)).dropWhile
      isSpaceC).headD ' ' ≠ braceO
    simp [List.dropWhile_cons, isSpaceC, braceO]
  | [c1, c2, c3, c4, c5, c6], b, _ => by
    show ((('e' :: 't' :: 'a' :: 'i' :: 'l' :: 's' :: ':' :: ' ' :: b)).dropWhile
      isSpaceC).headD ' ' ≠ braceO
    simp [List.dropWhile_cons, isSpaceC, braceO]
  | [c1, c2, c3, c4, c5, c6, c7], b, _ => by
    show ((('D' :: 'e' :: 't' :: 'a' :: 'i' :: 'l' :: 's' :: ':' :: ' ' ::
      b)).dropWhile isSpaceC).headD ' ' ≠ braceO
    simp [List.dropWhile_cons, isSpaceC, braceO]
  | c1 :: c2 :: c3 :: c4 :: c5 :: c6 :: c7 :: c8 :: w', b, hw => by
    show (((w' ++ ' ' :: 'D' :: 'e' :: 't' :: 'a' :: 'i' :: 'l' :: 's' :: ':' ::
      ' ' :: b).dropWhile isSpaceC)).headD ' ' ≠ braceO
    simp only [List.all_cons, Bool.and_eq_true] at hw
    exact headD_dropWhile_append_nb hw.2.2.2.2.2.2.2.2
      (by simp [List.dropWhile_cons, isSpaceC, braceO])

theorem detailsTryAt_none {l : List Char}
    (h0 : ((l.dropWhile isSpaceC).headD ' ') ≠ braceO)
    (h8 : (((l.drop 8).dropWhile isSpaceC).headD ' ') ≠ braceO) :
    detailsTryAt l = none := by
  unfold detailsTryAt
  split
  · rename_i r
    rw [detailsTail_none
      (show (r.dropWhile isSpaceC).headD ' ' ≠ braceO from h8)]
    simp only []
    exact detailsTail_none h0
  · exact detailsTail_none h0

theorem detailsSearchGo_none : ∀ (w : List Char) (idx : Nat),
    (w.all fun c => decide (c ≠ braceO)) = true →
    detailsSearchGo idx w = none
  | [], _, _ => rfl
  | c :: w', idx, hw => by
    have hw' := hw
    rw [List.all_cons, Bool.and_eq_true] at hw'
    show (match detailsTryAt (c :: w') with
      | some g => some (idx, g)
      | none => detailsSearchGo (idx + 1) w') = none
    rw [detailsTryAt_none (headD_dropWhile_nb hw isSpaceC)
      (headD_dropWhile_nb (all_drop 8 hw) isSpaceC)]
    simp only []
    exact detailsSearchGo_none w' (idx + 1) hw'.2

theorem dropWhile_space_blob {b : List Char} (hb : blobOK b = true) :
    (' ' :: b).dropWhile isSpaceC = b := by
  simp only [blobOK, Bool.and_eq_true, decide_eq_true_eq, beq_iff_eq] at hb
  obtain ⟨⟨⟨⟨hhead, -⟩, -⟩, -⟩, -⟩ := hb
  rw [List.dropWhile_cons, if_pos (by decide)]
  cases b with
  | nil => rfl
  | cons b0 bt =>
    have hb0 : b0 = braceO := hhead
    rw [List.dropWhile_cons, if_neg (by rw [hb0]; decide)]

theorem detailsTail_blob {b : List Char} (hb : blobOK b = true) :
    detailsTail b = some b := by
  simp only [blobOK, Bool.and_eq_true, decide_eq_true_eq, beq_iff_eq] at hb
  obtain ⟨⟨⟨⟨hhead, hlast⟩, hlen⟩, hinner⟩, -⟩ := hb
  have hinner' : ((b.drop 1).dropLast.all fun c => c ≠ '\n') = true :=
    all_mono (fun c hc => by
      simp only [Bool.not_eq_true', Bool.or_eq_false_iff,
        decide_eq_false_iff_not] at hc
      exact decide_eq_true hc.1.1.1) hinner
  unfold detailsTail
  rw [if_pos ⟨hhead, hlen, hlast, hinner'⟩]

theorem detailsSearchGo_pos : ∀ (w : List Char) (idx : Nat) (b : List Char),
    (w.all fun c => decide (c ≠ braceO)) = true →
    blobOK b = true →
    detailsSearchGo idx (w ++ ' ' :: 'D' :: 'e' :: 't' :: 'a' :: 'i' :: 'l' ::
      's' :: ':' :: ' ' :: b) = some (idx + w.length + 1, b)
  | [], idx, b, _, hb => by
    show (match detailsTryAt (' ' :: 'D' :: 'e' :: 't' :: 'a' :: 'i' :: 'l' ::
        's' :: ':' :: ' ' :: b) with
      | some g => some (idx, g)
      | none => detailsSearchGo (idx + 1) ('D' :: 'e' :: 't' :: 'a' :: 'i' ::
          'l' :: 's' :: ':' :: ' ' :: b)) = some (idx + List.length [] + 1, b)
    rw [detailsTryAt_none (by simp [List.dropWhile_cons, isSpaceC, braceO])
      (by show (((':' :: ' ' :: b)).dropWhile isSpaceC).headD ' ' ≠ braceO
          simp [List.dropWhile_cons, isSpaceC, braceO])]
    simp only []
    show (match detailsTryAt ('D' :: 'e' :: 't' :: 'a' :: 'i' :: 'l' :: 's' ::
        ':' :: ' ' :: b) with
      | some g => some (idx + 1, g)
      | none => detailsSearchGo (idx + 2) ('e' :: 't' :: 'a' :: 'i' :: 'l' ::
          's' :: ':' :: ' ' :: b)) = some (idx + List.length [] + 1, b)
    show (match (match detailsTail ((' ' :: b).dropWhile isSpaceC) with
        | some g => some g
        | none => detailsTail (('D' :: 'e' :: 't' :: 'a' :: 'i' :: 'l' :: 's' ::
            ':' :: ' ' :: b).dropWhile isSpaceC)) with
      | some g => some (idx + 1, g)
      | none => detailsSearchGo (idx + 2) ('e' :: 't' :: 'a' :: 'i' :: 'l' ::
          's' :: ':' :: ' ' :: b)) = some (idx + List.length [] + 1, b)
    rw [dropWhile_space_blob hb, detailsTail_blob hb]
    simp only [List.length_nil]
  | c :: w', idx, b, hw, hb => by
    have hw' := hw
    rw [List.all_cons, Bool.and_eq_true] at hw'
    show (match detailsTryAt (c :: (w' ++ ' ' :: 'D' :: 'e' :: 't' :: 'a' ::
        'i' :: 'l' :: 's' :: ':' :: ' ' :: b)) with
      | some g => some (idx, g)
      | none => detailsSearchGo (idx + 1) (w' ++ ' ' :: 'D' :: 'e' :: 't' ::
          'a' :: 'i' :: 'l' :: 's' :: ':' :: ' ' :: b)) =
      some (idx + (c :: w').length + 1, b)
    rw [detailsTryAt_none
      (show (((c :: (w' ++ ' ' :: 'D' :: 'e' :: 't' :: 'a' :: 'i' :: 'l' ::
          's' :: ':' :: ' ' :: b)).dropWhile isSpaceC).headD ' ') ≠ braceO
        from headD_dropWhile_append_nb hw
          (by simp [List.dropWhile_cons, isSpaceC, braceO]))
      (show (((c :: (w' ++ ' ' :: 'D' :: 'e' :: 't' :: 'a' :: 'i' :: 'l' ::
          's' :: ':' :: ' ' :: b)).drop 8).dropWhile isSpaceC).headD ' ' ≠ braceO
        from drop8_nb (c :: w') b hw)]
    simp only []
    rw [detailsSearchGo_pos w' (idx + 1) b hw'.2 hb]
    rw [show idx + 1 + w'.length + 1 = idx + (c :: w').length + 1 by
      rw [List.length_cons]; omega]


/-! ### C4 — assembling the pipeline -/

theorem dropWhile_append_all {p : Char → Bool} : ∀ {u : List Char} (v : List Char),
    u.all p = true → (u ++ v).dropWhile p = v.dropWhile p
  | [], _, _ => rfl
  | c :: u', v, h => by
    rw [List.all_cons, Bool.and_eq_true] at h
    rw [List.cons_append, List.dropWhile_cons, if_pos h.1]
    exact dropWhile_append_all v h.2

theorem getLast?_append_right {l₁ l₂ : List Char} (h : l₂ ≠ []) :
    (l₁ ++ l₂).getLast? = l₂.getLast? := by
  rw [List.getLast?_append]
  cases hq : l₂.getLast? with
  | none => exact absurd (List.getLast?_eq_none_iff.mp hq) h
  | some a => rfl

theorem getLast?_cons_ne {x : Char} {l : List Char} (h : l ≠ []) :
    (x :: l).getLast? = l.getLast? := by
  rw [show x :: l = [x] ++ l from rfl]
  exact getLast?_append_right h

theorem head?_append_some {l₁ l₂ : List Char} {c : Char}
    (h : l₁.head? = some c) : (l₁ ++ l₂).head? = some c := by
  cases l₁ with
  | nil => cases h
  | cons a t => exact h

theorem take_len_succ : ∀ (w : List Char) (x : Char) (R : List Char),
    (w ++ x :: R).take (w.length + 1) = w ++ [x]
  | [], x, R => rfl
  | c :: t, x, R => by
    rw [List.cons_append, List.length_cons, List.take_succ_cons,
      take_len_succ t x R, List.cons_append]

theorem renderMsg_ne_nil {m : MsgT} (h : msgWF m = true) : renderMsg m ≠ [] := by
  simp only [msgWF, Bool.and_eq_true] at h
  have hh : m.head ≠ [] := by
    have h1 := h.1.1.1
    rw [Bool.not_eq_true'] at h1
    exact ne_nil_of_isEmpty_false h1
  show m.head ++ renderPairs m.pairs ≠ []
  intro hq
  exact hh (List.append_eq_nil.mp hq).1

theorem renderTs_head? {t : TsP} (h : tsOK t = true) :
    ∃ c, (renderTs t).head? = some c ∧ isDigitC c = true := by
  simp only [tsOK, Bool.and_eq_true, beq_iff_eq, Bool.or_eq_true,
    decide_eq_true_eq] at h
  obtain ⟨⟨⟨⟨⟨⟨⟨⟨⟨⟨⟨⟨⟨⟨hy4, hy⟩, -⟩, -⟩, -⟩, -⟩, -⟩, -⟩, -⟩, -⟩, -⟩, -⟩, -⟩,
    -⟩, -⟩ := h
  cases hq : t.y with
  | nil => rw [hq] at hy4; simp at hy4
  | cons c w =>
    refine ⟨c, ?_, ?_⟩
    · unfold renderTs
      rw [hq]
      exact head?_append_some (head?_append_some (head?_append_some
        (head?_append_some (head?_append_some (head?_append_some
        (head?_append_some (head?_append_some rfl)))))))
    · rw [hq, List.all_cons, Bool.and_eq_true] at hy
      exact hy.1

theorem horElse {α : Type} (a : α) (f : Unit → Option α) :
    (Option.orElse (some a) f) = some a := rfl

theorem mkCandidate_eval {sepL w : List Char} (B : List Char)
    (hsep : sepL.all isSepC = true)
    (hw0 : ∀ c, w.head? = some c → isSepC c = false ∧ isSpaceC c = false)
    (hwne : w ≠ [])
    (hlast : ∀ c, (w ++ B).getLast? = some c → isSpaceC c = false) :
    mkCandidate (sepL ++ (w ++ B)) = w ++ B := by
  unfold mkCandidate
  have h1 : ((sepL ++ (w ++ B)).dropWhile fun c => c = ':' || c = '-' || c = ' ')
      = w ++ B := by
    show (sepL ++ (w ++ B)).dropWhile isSepC = w ++ B
    rw [dropWhile_append_all _ hsep]
    apply dropWhile_of_head
    intro c hc
    cases w with
    | nil => exact absurd rfl hwne
    | cons c0 t =>
      have hcc : c0 = c := Option.some.inj hc
      rw [← hcc]
      exact (hw0 c0 rfl).1
  rw [h1]
  apply stripL_id
  · intro c hc
    cases w with
    | nil => exact absurd rfl hwne
    | cons c0 t =>
      have hcc : c0 = c := Option.some.inj hc
      rw [← hcc]
      exact (hw0 c0 rfl).2
  · exact hlast


/-- Full evaluation of the extractor on a templated line: the signature
depends only on the level and the normalised message. -/
theorem extract_render (ts : TsP) (lvl : String) (sepL : List Char) (m : MsgT)
    (blob : Option (List Char))
    (hts : tsOK ts = true) (hl : lvl ∈ levelStrs)
    (hsep : sepL.all isSepC = true) (hm : msgWF m = true)
    (hm0 : ∀ c, (renderMsg m).head? = some c →
      isSepC c = false ∧ isSpaceC c = false)
    (hml : ∀ c, (renderMsg m).getLast? = some c → isSpaceC c = false)
    (hblob : ∀ b, blob = some b → blobOK b = true)
    (hexc : blob = none → excSearch (renderMsg m) = none) :
    extract_signature_top (String.mk (renderLine ts lvl sepL m blob)) =
      match blob with
      | some _ => String.mk (lvl.data ++ ": ".data ++ normaliseL (renderMsg m))
      | none => String.mk (normaliseL (lvl.data ++ ": ".data ++ renderMsg m)) := by
  obtain ⟨y0, hy0h, hy0d⟩ := renderTs_head? hts
  have hmne : renderMsg m ≠ [] := renderMsg_ne_nil hm
  have h_msg_safe := renderMsg_safe hm
  have h_msg_nb : ((renderMsg m).all fun c => decide (c ≠ braceO)) = true :=
    all_mono (fun c => nb_of_safe) h_msg_safe
  have h_msg_nl : ((renderMsg m).all fun c =>
      !(c = '\n' || c = '\x0d' || c = Char.ofNat 11 || c = Char.ofNat 12)) = true :=
    all_mono (fun c => nl_of_safe) h_msg_safe
  have hsep_nl : (sepL.all fun c =>
      !(c = '\n' || c = '\x0d' || c = Char.ofNat 11 || c = Char.ofNat 12)) = true :=
    all_mono (fun c hc => nl_of_safe (sep_safe hc)) hsep
  have hm0head : ∀ c, (renderMsg m).head? = some c → isSpaceC c = false :=
    fun c hc => (hm0 c hc).2
  rcases blob with _ | b
  · -- no Details blob
    show extract_signature_top (String.mk (renderLine ts lvl sepL m none)) =
      String.mk (normaliseL (lvl.data ++ ": ".data ++ renderMsg m))
    have hE : renderLine ts lvl sepL m none =
        renderTs ts ++ '[' :: (lvl.data ++ ']' :: (sepL ++ (renderMsg m ++ []))) := by
      simp [renderLine, List.append_assoc]
    rw [hE]
    obtain ⟨lc, hlc⟩ : ∃ lc, (renderMsg m).getLast? = some lc := by
      cases hq : (renderMsg m).getLast? with
      | none => exact absurd (List.getLast?_eq_none_iff.mp hq) hmne
      | some a => exact ⟨a, rfl⟩
    have hlcs : isSpaceC lc = false := hml lc hlc
    have hlast2 : ('[' :: (lvl.data ++ ']' ::
        (sepL ++ (renderMsg m ++ [])))).getLast? = some lc := by
      rw [getLast?_cons_ne (by simp [hmne]),
        getLast?_append_right (by simp [hmne]),
        getLast?_cons_ne (by simp [hmne]),
        getLast?_append_right (by simp [hmne]), List.append_nil]
      exact hlc
    have hy0L : (renderTs ts ++ '[' :: (lvl.data ++ ']' ::
        (sepL ++ (renderMsg m ++ [])))).head? = some y0 := head?_append_some hy0h
    have hheadL : ∀ c, (renderTs ts ++ '[' :: (lvl.data ++ ']' ::
        (sepL ++ (renderMsg m ++ [])))).head? = some c → isSpaceC c = false :=
      fun c hc => by
        rw [hy0L] at hc
        rw [← Option.some.inj hc]
        exact digit_not_space hy0d
    have hlastL : (renderTs ts ++ '[' :: (lvl.data ++ ']' ::
        (sepL ++ (renderMsg m ++ [])))).getLast? = some lc := by
      rw [getLast?_append_right (by simp)]
      exact hlast2
    have hlastLs : ∀ c, (renderTs ts ++ '[' :: (lvl.data ++ ']' ::
        (sepL ++ (renderMsg m ++ [])))).getLast? = some c → isSpaceC c = false :=
      fun c hc => by
        rw [hlastL] at hc
        rw [← Option.some.inj hc]
        exact hlcs
    have hstrip : stripL (renderTs ts ++ '[' :: (lvl.data ++ ']' ::
        (sepL ++ (renderMsg m ++ [])))) =
        renderTs ts ++ '[' :: (lvl.data ++ ']' :: (sepL ++ (renderMsg m ++ []))) :=
      stripL_id hheadL hlastLs
    have hLne : renderTs ts ++ '[' :: (lvl.data ++ ']' ::
        (sepL ++ (renderMsg m ++ []))) ≠ [] := by
      intro hq
      rw [hq] at hy0L
      cases hy0L
    have hie : (renderTs ts ++ '[' :: (lvl.data ++ ']' ::
        (sepL ++ (renderMsg m ++ [])))).isEmpty = false := by
      cases hq : renderTs ts ++ '[' :: (lvl.data ++ ']' ::
          (sepL ++ (renderMsg m ++ []))) with
      | nil => exact absurd hq hLne
      | cons a t => rfl
    have hall_nl : ((renderTs ts ++ '[' :: (lvl.data ++ ']' ::
        (sepL ++ (renderMsg m ++ [])))).all fun c =>
        !(c = '\n' || c = '\x0d' || c = Char.ofNat 11 || c = Char.ofNat 12)) = true := by
      refine all_append_tt (all_mono (fun c => nl_of_safe) (renderTs_safe hts)) ?_
      refine all_cons_tt (by decide) ?_
      refine all_append_tt (all_mono (fun c => nl_of_safe) (levelStr_safe hl)) ?_
      refine all_cons_tt (by decide) ?_
      refine all_append_tt hsep_nl ?_
      exact all_append_tt h_msg_nl rfl
    unfold extract_signature_top extract_signature_impl
    rw [show (String.mk (renderTs ts ++ '[' :: (lvl.data ++ ']' ::
        (sepL ++ (renderMsg m ++ []))))).data =
      renderTs ts ++ '[' :: (lvl.data ++ ']' :: (sepL ++ (renderMsg m ++ [])))
      from rfl]
    rw [hstrip, hie]
    simp only [Bool.false_eq_true, if_false]
    rw [dropWhile_of_head hheadL, List.headD_eq_head?_getD, hy0L]
    simp only [Option.getD_some]
    rw [if_neg (digit_ne_brace hy0d)]
    simp only []
    unfold textBranch parsedLine pyStripTs firstLineL
    rw [show (String.mk (renderTs ts ++ '[' :: (lvl.data ++ ']' ::
        (sepL ++ (renderMsg m ++ []))))).data =
      renderTs ts ++ '[' :: (lvl.data ++ ']' :: (sepL ++ (renderMsg m ++ [])))
      from rfl]
    rw [takeWhile_all hall_nl, hstrip, tryTs_render ts _ hts]
    simp only [Option.getD_some]
    rw [stripL_id (fun c hc => by rw [← Option.some.inj hc]; decide)
      (fun c hc => by rw [hlast2] at hc; rw [← Option.some.inj hc]; exact hlcs)]
    rw [findBrk_render hl _, horElse]
    simp only []
    rw [if_neg (rank_debug_false hl)]
    rw [mkCandidate_eval [] hsep hm0 hmne
      (fun c hc => hml c (by rwa [List.append_nil] at hc))]
    rw [List.append_nil]
    unfold afterLevel detailsBranch
    rw [show detailsSearch (renderMsg m) = none from
      detailsSearchGo_none _ 0 h_msg_nb]
    simp only []
    rw [hexc rfl]
    simp only []
    have hmie : (renderMsg m).isEmpty = false := by
      cases hq : renderMsg m with
      | nil => exact absurd hq hmne
      | cons a t => rfl
    rw [if_neg (by rw [hmie]; simp)]
  · -- with a Details blob
    have hbOK := hblob b rfl
    have hbparts := hbOK
    simp only [blobOK, Bool.and_eq_true, decide_eq_true_eq, beq_iff_eq] at hbparts
    obtain ⟨⟨⟨⟨hbhead, hblast⟩, hblen⟩, hbinner⟩, hbjson⟩ := hbparts
    have hbne : b ≠ [] := by
      intro hq
      rw [hq] at hblen
      simp at hblen
    show extract_signature_top (String.mk (renderLine ts lvl sepL m (some b))) =
      String.mk (lvl.data ++ ": ".data ++ normaliseL (renderMsg m))
    have hE : renderLine ts lvl sepL m (some b) =
        renderTs ts ++ '[' :: (lvl.data ++ ']' :: (sepL ++ (renderMsg m ++
          (' ' :: "Details:".data ++ ' ' :: b)))) := by
      simp [renderLine, List.append_assoc]
    rw [hE]
    have hlast2 : ('[' :: (lvl.data ++ ']' :: (sepL ++ (renderMsg m ++
        (' ' :: "Details:".data ++ ' ' :: b))))).getLast? = some braceC := by
      rw [getLast?_cons_ne (by simp), getLast?_append_right (by simp),
        getLast?_cons_ne (by simp), getLast?_append_right (by simp),
        getLast?_append_right (by simp), getLast?_append_right (by simp),
        getLast?_cons_ne hbne]
      exact hblast
    have hy0L : (renderTs ts ++ '[' :: (lvl.data ++ ']' :: (sepL ++
        (renderMsg m ++ (' ' :: "Details:".data ++ ' ' :: b))))).head? = some y0 :=
      head?_append_some hy0h
    have hheadL : ∀ c, (renderTs ts ++ '[' :: (lvl.data ++ ']' :: (sepL ++
        (renderMsg m ++ (' ' :: "Details:".data ++ ' ' :: b))))).head? = some c →
        isSpaceC c = false :=
      fun c hc => by
        rw [hy0L] at hc
        rw [← Option.some.inj hc]
        exact digit_not_space hy0d
    have hlastL : (renderTs ts ++ '[' :: (lvl.data ++ ']' :: (sepL ++
        (renderMsg m ++ (' ' :: "Details:".data ++ ' ' :: b))))).getLast? =
        some braceC := by
      rw [getLast?_append_right (by simp)]
      exact hlast2
    have hlastLs : ∀ c, (renderTs ts ++ '[' :: (lvl.data ++ ']' :: (sepL ++
        (renderMsg m ++ (' ' :: "Details:".data ++ ' ' :: b))))).getLast? =
        some c → isSpaceC c = false :=
      fun c hc => by
        rw [hlastL] at hc
        rw [← Option.some.inj hc]
        decide
    have hstrip : stripL (renderTs ts ++ '[' :: (lvl.data ++ ']' :: (sepL ++
        (renderMsg m ++ (' ' :: "Details:".data ++ ' ' :: b))))) =
        renderTs ts ++ '[' :: (lvl.data ++ ']' :: (sepL ++
          (renderMsg m ++ (' ' :: "Details:".data ++ ' ' :: b)))) :=
      stripL_id hheadL hlastLs
    have hLne : renderTs ts ++ '[' :: (lvl.data ++ ']' :: (sepL ++
        (renderMsg m ++ (' ' :: "Details:".data ++ ' ' :: b)))) ≠ [] := by
      intro hq
      rw [hq] at hy0L
      cases hy0L
    have hie : (renderTs ts ++ '[' :: (lvl.data ++ ']' :: (sepL ++
        (renderMsg m ++ (' ' :: "Details:".data ++ ' ' :: b))))).isEmpty =
        false := by
      cases hq : renderTs ts ++ '[' :: (lvl.data ++ ']' :: (sepL ++
          (renderMsg m ++ (' ' :: "Details:".data ++ ' ' :: b)))) with
      | nil => exact absurd hq hLne
      | cons a t => rfl
    have hall_nl : ((renderTs ts ++ '[' :: (lvl.data ++ ']' :: (sepL ++
        (renderMsg m ++ (' ' :: "Details:".data ++ ' ' :: b))))).all fun c =>
        !(c = '\n' || c = '\x0d' || c = Char.ofNat 11 || c = Char.ofNat 12)) = true := by
      refine all_append_tt (all_mono (fun c => nl_of_safe) (renderTs_safe hts)) ?_
      refine all_cons_tt (by decide) ?_
      refine all_append_tt (all_mono (fun c => nl_of_safe) (levelStr_safe hl)) ?_
      refine all_cons_tt (by decide) ?_
      refine all_append_tt hsep_nl ?_
      refine all_append_tt h_msg_nl ?_
      refine all_append_tt (by decide) ?_
      exact all_cons_tt (by decide) (blob_nl hbOK)
    unfold extract_signature_top extract_signature_impl
    rw [show (String.mk (renderTs ts ++ '[' :: (lvl.data ++ ']' :: (sepL ++
        (renderMsg m ++ (' ' :: "Details:".data ++ ' ' :: b)))))).data =
      renderTs ts ++ '[' :: (lvl.data ++ ']' :: (sepL ++
        (renderMsg m ++ (' ' :: "Details:".data ++ ' ' :: b)))) from rfl]
    rw [hstrip, hie]
    simp only [Bool.false_eq_true, if_false]
    rw [dropWhile_of_head hheadL, List.headD_eq_head?_getD, hy0L]
    simp only [Option.getD_some]
    rw [if_neg (digit_ne_brace hy0d)]
    simp only []
    unfold textBranch parsedLine pyStripTs firstLineL
    rw [show (String.mk (renderTs ts ++ '[' :: (lvl.data ++ ']' :: (sepL ++
        (renderMsg m ++ (' ' :: "Details:".data ++ ' ' :: b)))))).data =
      renderTs ts ++ '[' :: (lvl.data ++ ']' :: (sepL ++
        (renderMsg m ++ (' ' :: "Details:".data ++ ' ' :: b)))) from rfl]
    rw [takeWhile_all hall_nl, hstrip, tryTs_render ts _ hts]
    simp only [Option.getD_some]
    rw [stripL_id (fun c hc => by rw [← Option.some.inj hc]; decide)
      (fun c hc => by rw [hlast2] at hc; rw [← Option.some.inj hc]; decide)]
    rw [findBrk_render hl _, horElse]
    simp only []
    rw [if_neg (rank_debug_false hl)]
    have hwB : (renderMsg m ++ (' ' :: "Details:".data ++ ' ' :: b)).getLast? =
        some braceC := by
      rw [getLast?_append_right (by simp), getLast?_append_right (by simp),
        getLast?_cons_ne hbne]
      exact hblast
    rw [mkCandidate_eval (' ' :: "Details:".data ++ ' ' :: b) hsep hm0 hmne
      (fun c hc => by rw [hwB] at hc; rw [← Option.some.inj hc]; decide)]
    unfold afterLevel detailsBranch
    rw [show detailsSearch (renderMsg m ++ (' ' :: "Details:".data ++ ' ' :: b)) =
      some (0 + (renderMsg m).length + 1, b) from
      detailsSearchGo_pos (renderMsg m) 0 b h_msg_nb hbOK]
    simp only []
    rw [if_pos hbjson]
    simp only []
    rw [show (0 + (renderMsg m).length + 1) = (renderMsg m).length + 1 from
      by omega]
    rw [show (renderMsg m ++ (' ' :: "Details:".data ++ ' ' :: b)).take
        ((renderMsg m).length + 1) = renderMsg m ++ [' '] from
      take_len_succ _ ' ' _]
    rw [stripL_append_space hm0head hml]


theorem msgWF_extend {lvl : String} (hl : lvl ∈ levelStrs) {m : MsgT}
    (h : msgWF m = true) :
    msgWF ⟨lvl.data ++ ": ".data ++ m.head, m.pairs⟩ = true := by
  simp only [msgWF, Bool.and_eq_true] at h ⊢
  obtain ⟨⟨⟨hne, hlit⟩, hsp⟩, hwf⟩ := h
  have hne' : m.head ≠ [] := by
    rw [Bool.not_eq_true'] at hne
    exact ne_nil_of_isEmpty_false hne
  refine ⟨⟨⟨?_, ?_⟩, ?_⟩, hwf⟩
  · fin_cases hl <;> rfl
  · show ((lvl.data ++ ": ".data ++ m.head).all msgChar) = true
    exact all_append_tt (all_append_tt (by fin_cases hl <;> decide)
      (by decide)) hlit
  · rw [getLast?_append_right hne']
    exact hsp

theorem renderMsg_extend (lvl : String) (m : MsgT) :
    lvl.data ++ ": ".data ++ renderMsg m =
      renderMsg ⟨lvl.data ++ ": ".data ++ m.head, m.pairs⟩ := by
  show lvl.data ++ ": ".data ++ (m.head ++ renderPairs m.pairs) =
    (lvl.data ++ ": ".data ++ m.head) ++ renderPairs m.pairs
  simp [List.append_assoc]

/-- C4: counterexample to the claim as stated.  The two lines differ only
in an integer token (`500` vs `600`), yet the signatures differ: the token
is not delimited on the right (`\b\d+\b` cannot match before `ms`), so the
normaliser leaves both digit runs in place. -/
theorem signature_idempotence_counterexample :
    extract_signature_top "2025-06-25T02:37:12Z [ERROR] Timeout after 500ms" ≠
      extract_signature_top "2025-06-25T02:37:12Z [ERROR] Timeout after 600ms" := by
  decide

/-- C4 (amended): signature extraction is invariant under substituting the
leading ISO-8601 timestamp, the space-delimited integer/hex/IPv4/UUID
tokens, and the trailing `Details: {…}` single-line valid-JSON blob, on
lines whose shared literal text is digit-free and brace-free, whose
message neither starts with a separator/whitespace character nor ends
with whitespace, and which contain no exception-classname pattern when no
blob is present. -/
theorem signature_idempotence_amended
    (ts₁ ts₂ : TsP) (lvl : String) (sepL : List Char) (m₁ m₂ : MsgT)
    (blob₁ blob₂ : Option (List Char))
    (hts₁ : tsOK ts₁ = true) (hts₂ : tsOK ts₂ = true)
    (hl : lvl ∈ levelStrs) (hsep : sepL.all isSepC = true)
    (hm₁ : msgWF m₁ = true) (hm₂ : msgWF m₂ = true)
    (hh : m₁.head = m₂.head) (hsk : sameSkel m₁.pairs m₂.pairs = true)
    (hm0₁ : ∀ c, (renderMsg m₁).head? = some c →
      isSepC c = false ∧ isSpaceC c = false)
    (hm0₂ : ∀ c, (renderMsg m₂).head? = some c →
      isSepC c = false ∧ isSpaceC c = false)
    (hml₁ : ∀ c, (renderMsg m₁).getLast? = some c → isSpaceC c = false)
    (hml₂ : ∀ c, (renderMsg m₂).getLast? = some c → isSpaceC c = false)
    (hblob₁ : ∀ b, blob₁ = some b → blobOK b = true)
    (hblob₂ : ∀ b, blob₂ = some b → blobOK b = true)
    (hexc₁ : blob₁ = none → excSearch (renderMsg m₁) = none)
    (hexc₂ : blob₂ = none → excSearch (renderMsg m₂) = none)
    (hbb : blob₁.isSome = blob₂.isSome) :
    extract_signature_top (String.mk (renderLine ts₁ lvl sepL m₁ blob₁)) =
      extract_signature_top (String.mk (renderLine ts₂ lvl sepL m₂ blob₂)) := by
  rw [extract_render ts₁ lvl sepL m₁ blob₁ hts₁ hl hsep hm₁ hm0₁ hml₁
      hblob₁ hexc₁,
    extract_render ts₂ lvl sepL m₂ blob₂ hts₂ hl hsep hm₂ hm0₂ hml₂
      hblob₂ hexc₂]
  rcases blob₁ with _ | b₁ <;> rcases blob₂ with _ | b₂
  · show String.mk (normaliseL (lvl.data ++ ": ".data ++ renderMsg m₁)) =
      String.mk (normaliseL (lvl.data ++ ": ".data ++ renderMsg m₂))
    rw [renderMsg_extend lvl m₁, renderMsg_extend lvl m₂]
    exact congrArg String.mk
      (normaliseL_skel (msgWF_extend hl hm₁) (msgWF_extend hl hm₂)
        (by show lvl.data ++ ": ".data ++ m₁.head = lvl.data ++ ": ".data ++ m₂.head
            rw [hh])
        hsk)
  · simp at hbb
  · simp at hbb
  · show String.mk (lvl.data ++ ": ".data ++ normaliseL (renderMsg m₁)) =
      String.mk (lvl.data ++ ": ".data ++ normaliseL (renderMsg m₂))
    rw [normaliseL_skel hm₁ hm₂ hh hsk]

/-- C4: closed instance of the amended theorem — two lines with shifted
timestamps, different num/hex/ip payloads and different JSON blobs get the
same signature. -/
theorem signature_idempotence_amended_witness :
    extract_signature_top (String.mk (renderLine
      ⟨['2','0','2','5'], ['0','6'], ['2','5'], 'T', ['0','2'], ['3','7'],
        ['1','2'], none, true, [' ']⟩
      "ERROR" [':', ' ']
      ⟨"Timeout after ".data,
        [(Tok.num ['5','0','0'], " for user ".data),
         (Tok.hex ['D','E','A','D'], " from ".data),
         (Tok.ip ['1','0'] ['0'] ['0'] ['1'], [])]⟩
      (some (braceO :: '"' :: 'r' :: '"' :: ':' :: ' ' :: '3' :: [braceC])))) =
    extract_signature_top (String.mk (renderLine
      ⟨['2','0','2','4'], ['0','1'], ['0','2'], ' ', ['1','3'], ['3','0'],
        ['0','0'], some ('.', ['5']), false, [' ']⟩
      "ERROR" [':', ' ']
      ⟨"Timeout after ".data,
        [(Tok.num ['7','7','7','7'], " for user ".data),
         (Tok.hex ['b','e','e','f','1'], " from ".data),
         (Tok.ip ['1','9','2'] ['1','6','8'] ['0'] ['2','5','4'], [])]⟩
      (some (braceO :: '"' :: 'r' :: '"' :: ':' :: ' ' :: '4' :: '2' ::
        [braceC])))) :=
  signature_idempotence_amended
    ⟨['2','0','2','5'], ['0','6'], ['2','5'], 'T', ['0','2'], ['3','7'],
      ['1','2'], none, true, [' ']⟩
    ⟨['2','0','2','4'], ['0','1'], ['0','2'], ' ', ['1','3'], ['3','0'],
      ['0','0'], some ('.', ['5']), false, [' ']⟩
    "ERROR" [':', ' ']
    ⟨"Timeout after ".data,
      [(Tok.num ['5','0','0'], " for user ".data),
       (Tok.hex ['D','E','A','D'], " from ".data),
       (Tok.ip ['1','0'] ['0'] ['0'] ['1'], [])]⟩
    ⟨"Timeout after ".data,
      [(Tok.num ['7','7','7','7'], " for user ".data),
       (Tok.hex ['b','e','e','f','1'], " from ".data),
       (Tok.ip ['1','9','2'] ['1','6','8'] ['0'] ['2','5','4'], [])]⟩
    (some (braceO :: '"' :: 'r' :: '"' :: ':' :: ' ' :: '3' :: [braceC]))
    (some (braceO :: '"' :: 'r' :: '"' :: ':' :: ' ' :: '4' :: '2' :: [braceC]))
    (by decide) (by decide) (by decide) (by decide) (by decide) (by decide)
    rfl (by decide)
    (fun c hc => by rw [← Option.some.inj hc]; decide)
    (fun c hc => by rw [← Option.some.inj hc]; decide)
    (fun c hc => by rw [← Option.some.inj hc]; decide)
    (fun c hc => by rw [← Option.some.inj hc]; decide)
    (fun b hb => by rw [← Option.some.inj hb]; decide)
    (fun b hb => by rw [← Option.some.inj hb]; decide)
    (fun h => nomatch h) (fun h => nomatch h) rfl

end LEA
